import Mathlib

/-!
# Maatq: cron expressions and next-occurrence search

A shallow embedding of `crontab.go`, `utils.go` and `priority_message.go`.

* Slices of `int8` are lists of integers; the conversion `int8(x)` is `int8`, which wraps
  modulo 256 as the Go conversion does.
* A `time.Time` in a fixed-offset location is the pair of its Unix time in nanoseconds and
  the zone offset in seconds (`Time`, `Date`, `nextFrom`); the calendar is the proleptic
  Gregorian calendar of Go's `time` package.
* A `time.Time` in a location with zone transitions, as `time.Local` is where daylight
  saving time is kept, is a `ZonedTime`; `DateIn` looks the offset up as `time.Date` does,
  and `nextFromIn` is `nextFrom` on such a time.  On a location without transitions
  `nextFromIn` is `nextFrom` (`nextFromIn_fixed`); at a transition it is not.
* Loops that the source does not bound (`nextFrom`, `makeRangeOfInt8`, the recursion of
  `list`) take a fuel argument and answer `none` when it runs out.
-/

namespace Maatq

/-! ## Machine integers -/

/-- The Go conversion `int8(x)`: the value of `x` modulo 256 in the range -128..127. -/
def int8 (x : Int) : Int := (x + 128) % 256 - 128

/-- Modelled from the spec: `inInt8Slice` is declared outside the files at hand; the
evaluator uses it as the membership test of a value in a field-value set. -/
def inInt8Slice (v : Int) (s : List Int) : Bool := decide (v ∈ s)

/-! ## Time in a fixed-offset location -/

/-- A `time.Time` whose location is a fixed offset: `ns` counts nanoseconds since the Unix
epoch, `loc` is the offset east of UTC in seconds. -/
structure Time where
  ns : Int
  loc : Int
deriving DecidableEq, Repr

/-- The duration `time.Minute` in nanoseconds. -/
def Minute : Int := 60000000000

/-- The duration `time.Hour` in nanoseconds. -/
def Hour : Int := 3600000000000

/-- Splits a day number (days since 1970-01-01) into the year that starts on 1 March and
the day of that year counted from 1 March, by 400-, 100-, 4- and 1-year cycles. -/
def marchYear (z : Int) : Int × Int :=
  let z0 := z + 719468
  let n400 := z0 / 146097
  let r400 := z0 % 146097
  let n100 := if r400 / 36524 ≥ 4 then 3 else r400 / 36524
  let r100 := r400 - 36524 * n100
  let n4 := r100 / 1461
  let r4 := r100 % 1461
  let n1 := if r4 / 365 ≥ 4 then 3 else r4 / 365
  (400 * n400 + 100 * n100 + 4 * n4 + n1, r4 - 365 * n1)

/-- Year, month (1..12) and day of month (1..31) of a day number. -/
def civilFromDays (z : Int) : Int × Int × Int :=
  let Y := (marchYear z).1
  let doy := (marchYear z).2
  let mp := (5 * doy + 2) / 153
  let d := doy - (153 * mp + 2) / 5 + 1
  let m := if mp < 10 then mp + 3 else mp - 9
  (if m ≤ 2 then Y + 1 else Y, m, d)

/-- Day number of the civil date `y-m-d`, for a month in 1..12. -/
def daysFromCivil (y m d : Int) : Int :=
  let Y := if m ≤ 2 then y - 1 else y
  let era := Y / 400
  let yoe := Y % 400
  let mp := if m > 2 then m - 3 else m + 9
  let doy := (153 * mp + 2) / 5 + d - 1
  let doe := yoe * 365 + yoe / 4 - yoe / 100 + doy
  era * 146097 + doe - 719468

namespace Time

/-- Nanoseconds since the epoch on the wall clock of the location. -/
def wall (t : Time) : Int := t.ns + t.loc * 1000000000

/-- Day number of the wall-clock date. -/
def days (t : Time) : Int := t.wall / 86400000000000

/-- Go `t.Year()`. -/
def Year (t : Time) : Int := (civilFromDays t.days).1

/-- Go `t.Month()`, January = 1. -/
def Month (t : Time) : Int := (civilFromDays t.days).2.1

/-- Go `t.Day()`. -/
def Day (t : Time) : Int := (civilFromDays t.days).2.2

/-- Go `t.Weekday()`, Sunday = 0; 1970-01-01 was a Thursday. -/
def Weekday (t : Time) : Int := (t.days + 4) % 7

/-- Go `t.Hour()`. -/
def Hour (t : Time) : Int := t.wall % 86400000000000 / 3600000000000

/-- Go `t.Minute()`. -/
def Minute (t : Time) : Int := t.wall % 3600000000000 / 60000000000

/-- Go `t.Second()`. -/
def Second (t : Time) : Int := t.wall % 60000000000 / 1000000000

/-- Go `t.Nanosecond()`. -/
def Nanosecond (t : Time) : Int := t.wall % 1000000000

/-- Go `t.Add(d)`. -/
def Add (t : Time) (d : Int) : Time := ⟨t.ns + d, t.loc⟩

end Time

/-- Go `time.Date(year, month, day, hour, min, sec, nsec, loc)` for a fixed-offset
location: the month overflows into the year, every other field is added linearly, and the
zone offset is taken off.  `DateIn` is the function for a location with transitions. -/
def Date (year month day hour min sec nsec : Int) (loc : Int) : Time :=
  let m0 := month - 1
  let y := year + m0 / 12
  let m := m0 % 12 + 1
  let d := daysFromCivil y m 1 + (day - 1)
  let s := d * 86400 + hour * 3600 + min * 60 + sec
  ⟨(s - loc) * 1000000000 + nsec, loc⟩

/-! ## Crontab and the next-occurrence search -/

/-- The record `Crontab`: five field-value sets and the source text (as bytes). -/
structure Crontab where
  Minutes : List Int
  Hours : List Int
  DaysOfMonth : List Int
  Months : List Int
  DaysOfWeek : List Int
  Text : List Nat
deriving DecidableEq, Repr

/-- The loop `for !done { ... }` of `nextFrom` on a time of a fixed-offset location; one
unit of fuel per iteration. -/
def nextLoop (cron : Crontab) : Nat → Time → Option Time
  | 0, _ => none
  | fuel + 1, next =>
    if !inInt8Slice (int8 next.Month) cron.Months then
      let m := next.Month + 1
      let y := next.Year
      if m > 12 then
        nextLoop cron fuel (Date (y + 1) 1 1 0 0 0 0 next.loc)
      else
        nextLoop cron fuel (Date y m 1 0 0 0 0 next.loc)
    else if !inInt8Slice (int8 next.Day) cron.DaysOfMonth
        && !inInt8Slice (int8 next.Weekday) cron.DaysOfWeek then
      let n := next.Add (Hour * 24)
      nextLoop cron fuel (Date n.Year n.Month n.Day 0 0 0 0 n.loc)
    else if !inInt8Slice (int8 next.Hour) cron.Hours then
      let n := next.Add Hour
      nextLoop cron fuel (Date n.Year n.Month n.Day n.Hour 0 0 0 n.loc)
    else if !inInt8Slice (int8 next.Minute) cron.Minutes then
      let n := next.Add Minute
      nextLoop cron fuel (Date n.Year n.Month n.Day n.Hour n.Minute 0 0 n.loc)
    else
      some next

/-- The method `Crontab.nextFrom` on a time of a fixed-offset location, with the fuel of
its loop.  `nextFromIn` is the method on a time of a location with transitions. -/
def nextFrom (cron : Crontab) (fuel : Nat) (start : Time) : Option Time :=
  let n := start.Add Minute
  nextLoop cron fuel (Date n.Year n.Month n.Day n.Hour n.Minute 0 0 n.loc)

/-- The four checks of the loop of `nextFrom` all pass at `t`. -/
def Crontab.Matches (cron : Crontab) (t : Time) : Prop :=
  t.Month ∈ cron.Months ∧ (t.Day ∈ cron.DaysOfMonth ∨ t.Weekday ∈ cron.DaysOfWeek) ∧
    t.Hour ∈ cron.Hours ∧ t.Minute ∈ cron.Minutes

/-- The instant lies on a whole-minute boundary. -/
def Time.WholeMinute (t : Time) : Prop := t.Second = 0 ∧ t.Nanosecond = 0


/-! ## Tokens and the lexer -/

/-- The token kinds `cronTokenTypes_*`. -/
inductive cronTokenType where
  | Number | Word | Asterisk | Hyphen | Slash | Comma | EOF
deriving DecidableEq, Repr

/-- The record `cronToken`: a kind and the raw bytes. -/
structure cronToken where
  t : cronTokenType
  v : List Nat
deriving DecidableEq, Repr

/-- The five fields of a cron expression, as the error messages name them. -/
inductive cronField where
  | minute | hour | day | month | week
deriving DecidableEq, Repr

/-- Upper bound of a field named in its range error: 0-59, 0-23, 0-31, 0-12, 0-7. -/
def cronField.bound : cronField → Int
  | .minute => 59
  | .hour => 23
  | .day => 31
  | .month => 12
  | .week => 7

/-- The errors of the lexer and the parser, one constructor per message format. -/
inductive CronError where
  /-- Message `不支持字符%c`: the lexer met this byte. -/
  | unsupported (b : Nat)
  /-- Message `应该是%s, 实际: %s, 值: %s` of `Match`. -/
  | expected (want : cronTokenType) (got : cronToken)
  /-- Message `应该是<ASTERISK>或者<NUM>` at the head of a field. -/
  | expectedHead (got : cronToken)
  /-- Message `取值范围是0-N, 实际: %d`: the value is outside the bound of the named field. -/
  | outOfBound (f : cronField) (v : Int)
  /-- Message `取值范围错误, 实际: %d-%d`: the range begins after its end. -/
  | badRange (f : cronField) (v1 v2 : Int)
  /-- Message `月名称错误`. -/
  | monthName (v : List Nat)
  /-- Message `周名称错误`. -/
  | weekName (v : List Nat)
  /-- The error of `strconv.Atoi`. -/
  | atoi (v : List Nat)
deriving DecidableEq, Repr

/-- The bytes of an ASCII text. -/
def bytes (s : String) : List Nat := s.data.map Char.toNat

/-- Go `unicode.IsSpace` on a byte. -/
def isSpace (b : Nat) : Bool :=
  b == 9 || b == 10 || b == 11 || b == 12 || b == 13 || b == 32 || b == 133 || b == 160

/-- Go `unicode.IsDigit` on a byte. -/
def isDigit (b : Nat) : Bool := decide (48 ≤ b ∧ b ≤ 57)

/-- Go `unicode.IsLetter` on a byte (the Latin-1 table). -/
def isLetter (b : Nat) : Bool :=
  decide ((65 ≤ b ∧ b ≤ 90) ∨ (97 ≤ b ∧ b ≤ 122) ∨ b = 170 ∨ b = 181 ∨ b = 186 ∨
    (192 ≤ b ∧ b ≤ 214) ∨ (216 ≤ b ∧ b ≤ 246) ∨ (248 ≤ b ∧ b ≤ 255))

/-- The white-space loop of `NextToken`: the first byte that is no space and what follows
it, or `none` when the input ends first. -/
def skipSpaces : List Nat → Option (Nat × List Nat)
  | [] => none
  | b :: r => if isSpace b then skipSpaces r else some (b, r)

/-- The method `cronLexer.NextToken` on the unread bytes: the token or the error, and the
bytes left unread.  A byte that ends a run of digits or letters is unread again. -/
def NextToken (r : List Nat) : Except CronError cronToken × List Nat :=
  match skipSpaces r with
  | none => (.ok ⟨.EOF, bytes "<EOF>"⟩, [])
  | some (b, r) =>
    if isDigit b then
      (.ok ⟨.Number, b :: (r.span isDigit).1⟩, (r.span isDigit).2)
    else if b = 42 then (.ok ⟨.Asterisk, [b]⟩, r)
    else if b = 45 then (.ok ⟨.Hyphen, [b]⟩, r)
    else if b = 47 then (.ok ⟨.Slash, [b]⟩, r)
    else if b = 44 then (.ok ⟨.Comma, [b]⟩, r)
    else if isLetter b then
      (.ok ⟨.Word, b :: (r.span isLetter).1⟩, (r.span isLetter).2)
    else (.error (.unsupported b), r)

/-- The number a run of decimal digits writes. -/
def digitsVal (v : List Nat) : Nat := v.foldl (fun acc b => 10 * acc + (b - 48)) 0

/-- Go `strconv.Atoi` on a run of digits, for a 64-bit `int`: the number written, or an
error when it is above 2^63 - 1. -/
def Atoi (v : List Nat) : Except CronError Int :=
  if v ≠ [] ∧ v.all isDigit = true then
    if digitsVal v ≤ 9223372036854775807 then .ok (Int.ofNat (digitsVal v))
    else .error (.atoi v)
  else .error (.atoi v)

/-- The method `cronToken.IntVal`. -/
def cronToken.IntVal (t : cronToken) : Except CronError Int := Atoi t.v

/-- The method `cronToken.StrVal`. -/
def cronToken.StrVal (t : cronToken) : List Nat := t.v

/-! ## The parser -/

/-- The record `cronParser`: the unread bytes of its lexer and the ring of tokens. -/
structure cronParser where
  lexer : List Nat
  lookahead : List cronToken
  cap : Nat
  head : Nat
deriving DecidableEq, Repr

/-- The method `cronParser.L`: the `i`-th token ahead. -/
def cronParser.L (p : cronParser) (i : Nat) : cronToken :=
  p.lookahead.getD ((i + p.head) % p.cap) ⟨.EOF, []⟩

/-- The method `cronParser.Consume`.  The head moves before the lexer is asked, so after a
lexer error the ring still holds the consumed token in the slot that was to be refilled. -/
def cronParser.Consume (p : cronParser) : Except CronError cronToken × cronParser :=
  let t1 := p.L 0
  let head := (p.head + 1) % p.cap
  match NextToken p.lexer with
  | (.error e, r) => (.error e, { p with head := head, lexer := r })
  | (.ok t2, r) =>
    (.ok t1, { p with head := head, lexer := r,
                      lookahead := p.lookahead.set ((head + p.cap - 1) % p.cap) t2 })

/-- The method `cronParser.Match`. -/
def cronParser.Match (p : cronParser) (t : cronTokenType) : Except CronError Unit :=
  if (p.L 0).t ≠ t then .error (.expected t (p.L 0)) else .ok ()

/-- Go `strings.ToLower` on the bytes of a word; bytes other than `A`-`Z` never become
ASCII letters, so they are left as they are. -/
def toLower (v : List Nat) : List Nat := v.map fun b => if 65 ≤ b ∧ b ≤ 90 then b + 32 else b

/-- The table `cronMonthMap`. -/
def cronMonthMap : List (List Nat × Int) :=
  [(bytes "jan", 1), (bytes "feb", 2), (bytes "mar", 3), (bytes "apr", 4), (bytes "may", 5),
   (bytes "jun", 6), (bytes "jul", 7), (bytes "aug", 8), (bytes "sep", 9), (bytes "oct", 10),
   (bytes "nov", 11), (bytes "dec", 12)]

/-- The table `cronWeekMap`. -/
def cronWeekMap : List (List Nat × Int) :=
  [(bytes "sun", 0), (bytes "mon", 1), (bytes "tue", 2), (bytes "wed", 3), (bytes "thu", 4),
   (bytes "fri", 5), (bytes "sat", 6)]

/-- The loop of `makeRangeOfInt8`; the counter is an `int8` and wraps. -/
def makeRangeLoop (max step : Int) : Nat → Int → Option (List Int)
  | 0, _ => none
  | fuel + 1, i =>
    if i ≤ max then (makeRangeLoop max step fuel (int8 (i + step))).map (i :: ·) else some []

/-- The function `makeRangeOfInt8`; `step` is an `int` converted to `int8`. -/
def makeRangeOfInt8 (fuel : Nat) (min max : Int) (step : Int) : Option (List Int) :=
  makeRangeLoop max (int8 step) fuel min

/-- The method `stepedAsterisk`: `*/2`, answers the step. -/
def cronParser.stepedAsterisk (p : cronParser) : Except CronError (Int × cronParser) := do
  p.Match .Asterisk
  let (r, p) := p.Consume
  let _ ← r
  p.Match .Slash
  let (r, p) := p.Consume
  let _ ← r
  p.Match .Number
  let (r, p) := p.Consume
  let num ← r
  let step ← num.IntVal
  return (step, p)

/-- The method `asterisk`: `*`. -/
def cronParser.asterisk (p : cronParser) : Except CronError cronParser := do
  p.Match .Asterisk
  let (r, p) := p.Consume
  let _ ← r
  return p

/-- The method `stepedRange`: `10-30/2`, answers begin, end and step. -/
def cronParser.stepedRange (p : cronParser) : Except CronError (Int × Int × Int × cronParser) := do
  p.Match .Number
  let (r, p) := p.Consume
  let b ← r
  let v1 ← b.IntVal
  p.Match .Hyphen
  let (r, p) := p.Consume
  let _ ← r
  p.Match .Number
  let (r, p) := p.Consume
  let e ← r
  let v2 ← e.IntVal
  p.Match .Slash
  let (r, p) := p.Consume
  let _ ← r
  p.Match .Number
  let (r, p) := p.Consume
  let s ← r
  let v3 ← s.IntVal
  return (v1, v2, v3, p)

/-- The method `cronRange`: `10-30`, answers begin and end. -/
def cronParser.cronRange (p : cronParser) : Except CronError (Int × Int × cronParser) := do
  p.Match .Number
  let (r, p) := p.Consume
  let b ← r
  let v1 ← b.IntVal
  p.Match .Hyphen
  let (r, p) := p.Consume
  let _ ← r
  p.Match .Number
  let (r, p) := p.Consume
  let e ← r
  let v2 ← e.IntVal
  return (v1, v2, p)

/-- The method `number`: `3`. -/
def cronParser.number (p : cronParser) : Except CronError (Int × cronParser) := do
  p.Match .Number
  let (r, p) := p.Consume
  let token ← r
  let v ← token.IntVal
  return (v, p)

/-- The method `word`: `Jan`. -/
def cronParser.word (p : cronParser) : Except CronError (List Nat × cronParser) := do
  p.Match .Word
  let (r, p) := p.Consume
  let token ← r
  return (token.StrVal, p)

/-- What a parse step gives: a value, an error, or no answer within the fuel. -/
inductive Outcome (α : Type) where
  | ok (a : α)
  | error (e : CronError)
  | timeout
deriving DecidableEq, Repr

/-- The method `list`: `0,13,20`.  Every member is checked against 0-59 whatever the field,
and the error of the `Consume` that takes the comma is dropped. -/
def cronParser.list : Nat → cronParser → List Int → Outcome (List Int × cronParser)
  | 0, _, _ => .timeout
  | fuel + 1, p, container =>
    match p.Match .Number with
    | .error e => .error e
    | .ok _ =>
      match p.Consume with
      | (.error e, _) => .error e
      | (.ok t1, p) =>
        match t1.IntVal with
        | .error e => .error e
        | .ok v1 =>
          if v1 < 0 ∨ v1 > 59 then .error (.outOfBound .minute v1)
          else
            match p.Match .Comma with
            | .error e => .error e
            | .ok _ =>
              let p := p.Consume.2
              let container := container ++ [int8 v1]
              if (p.L 1).t = .Comma then
                cronParser.list fuel p container
              else
                match p.Match .Number with
                | .error e => .error e
                | .ok _ =>
                  match p.Consume with
                  | (.error e, _) => .error e
                  | (.ok t2, p) =>
                    match t2.IntVal with
                    | .error e => .error e
                    | .ok v2 =>
                      if v2 < 0 ∨ v2 > 59 then .error (.outOfBound .minute v2)
                      else .ok (container ++ [int8 v2], p)


/-- The method `parseMinutes`. -/
def cronParser.parseMinutes (fuel : Nat) (p : cronParser) (cron : Crontab) :
    Outcome (Crontab × cronParser) :=
  let head := p.L 0
  if head.t = .Asterisk then
    if (p.L 1).t = .Slash then
      match p.stepedAsterisk with
      | .error e => .error e
      | .ok (step, p) =>
        match makeRangeOfInt8 fuel (int8 0) (int8 59) step with
        | none => .timeout
        | some s => .ok ({ cron with Minutes := s }, p)
    else
      match p.asterisk with
      | .error e => .error e
      | .ok p =>
        match makeRangeOfInt8 fuel (int8 0) (int8 59) 1 with
        | none => .timeout
        | some s => .ok ({ cron with Minutes := s }, p)
  else if head.t = .Number then
    if (p.L 1).t = .Hyphen then
      if (p.L 3).t = .Slash then
        match p.stepedRange with
        | .error e => .error e
        | .ok (v1, v2, v3, p) =>
          if v1 < 0 ∨ v1 > 59 then .error (.outOfBound .minute v1)
          else if v2 < 0 ∨ v2 > 59 then .error (.outOfBound .minute v2)
          else if v1 > v2 then .error (.badRange .minute v1 v2)
          else
            match makeRangeOfInt8 fuel (int8 v1) (int8 v2) v3 with
            | none => .timeout
            | some s => .ok ({ cron with Minutes := s }, p)
      else
        match p.cronRange with
        | .error e => .error e
        | .ok (v1, v2, p) =>
          if v1 < 0 ∨ v1 > 59 then .error (.outOfBound .minute v1)
          else if v2 < 0 ∨ v2 > 59 then .error (.outOfBound .minute v2)
          else if v1 > v2 then .error (.badRange .minute v1 v2)
          else
            match makeRangeOfInt8 fuel (int8 v1) (int8 v2) 1 with
            | none => .timeout
            | some s => .ok ({ cron with Minutes := s }, p)
    else if (p.L 1).t = .Comma then
      match p.list fuel [] with
      | .error e => .error e
      | .timeout => .timeout
      | .ok (s, p) => .ok ({ cron with Minutes := s }, p)
    else
      match p.number with
      | .error e => .error e
      | .ok (v, p) =>
        if v < 0 ∨ v > 59 then .error (.outOfBound .minute v)
        else .ok ({ cron with Minutes := [int8 v] }, p)
  else .error (.expectedHead head)

/-- The method `parseHours`. -/
def cronParser.parseHours (fuel : Nat) (p : cronParser) (cron : Crontab) :
    Outcome (Crontab × cronParser) :=
  let head := p.L 0
  if head.t = .Asterisk then
    if (p.L 1).t = .Slash then
      match p.stepedAsterisk with
      | .error e => .error e
      | .ok (step, p) =>
        match makeRangeOfInt8 fuel (int8 0) (int8 23) step with
        | none => .timeout
        | some s => .ok ({ cron with Hours := s }, p)
    else
      match p.asterisk with
      | .error e => .error e
      | .ok p =>
        match makeRangeOfInt8 fuel (int8 0) (int8 23) 1 with
        | none => .timeout
        | some s => .ok ({ cron with Hours := s }, p)
  else if head.t = .Number then
    if (p.L 1).t = .Hyphen then
      if (p.L 3).t = .Slash then
        match p.stepedRange with
        | .error e => .error e
        | .ok (v1, v2, v3, p) =>
          if v1 < 0 ∨ v1 > 23 then .error (.outOfBound .hour v1)
          else if v2 < 0 ∨ v2 > 23 then .error (.outOfBound .hour v2)
          else if v1 > v2 then .error (.badRange .hour v1 v2)
          else
            match makeRangeOfInt8 fuel (int8 v1) (int8 v2) v3 with
            | none => .timeout
            | some s => .ok ({ cron with Hours := s }, p)
      else
        match p.cronRange with
        | .error e => .error e
        | .ok (v1, v2, p) =>
          if v1 < 0 ∨ v1 > 23 then .error (.outOfBound .hour v1)
          else if v2 < 0 ∨ v2 > 23 then .error (.outOfBound .hour v2)
          else if v1 > v2 then .error (.badRange .hour v1 v2)
          else
            match makeRangeOfInt8 fuel (int8 v1) (int8 v2) 1 with
            | none => .timeout
            | some s => .ok ({ cron with Hours := s }, p)
    else if (p.L 1).t = .Comma then
      match p.list fuel [] with
      | .error e => .error e
      | .timeout => .timeout
      | .ok (s, p) => .ok ({ cron with Hours := s }, p)
    else
      match p.number with
      | .error e => .error e
      | .ok (v, p) =>
        if v < 0 ∨ v > 23 then .error (.outOfBound .hour v)
        else .ok ({ cron with Hours := [int8 v] }, p)
  else .error (.expectedHead head)

/-- The method `parseDaysOfWeek`. -/
def cronParser.parseDaysOfWeek (fuel : Nat) (p : cronParser) (cron : Crontab) :
    Outcome (Crontab × cronParser) :=
  let head := p.L 0
  if head.t = .Asterisk then
    if (p.L 1).t = .Slash then
      match p.stepedAsterisk with
      | .error e => .error e
      | .ok (step, p) =>
        match makeRangeOfInt8 fuel (int8 0) (int8 7) step with
        | none => .timeout
        | some s => .ok ({ cron with DaysOfWeek := s }, p)
    else
      match p.asterisk with
      | .error e => .error e
      | .ok p =>
        .ok ({ cron with DaysOfWeek := [] }, p)
  else if head.t = .Number then
    if (p.L 1).t = .Hyphen then
      if (p.L 3).t = .Slash then
        match p.stepedRange with
        | .error e => .error e
        | .ok (v1, v2, v3, p) =>
          if v1 < 0 ∨ v1 > 7 then .error (.outOfBound .week v1)
          else if v2 < 0 ∨ v2 > 7 then .error (.outOfBound .week v2)
          else if v1 > v2 then .error (.badRange .week v1 v2)
          else
            match makeRangeOfInt8 fuel (int8 v1) (int8 v2) v3 with
            | none => .timeout
            | some s => .ok ({ cron with DaysOfWeek := s }, p)
      else
        match p.cronRange with
        | .error e => .error e
        | .ok (v1, v2, p) =>
          if v1 < 0 ∨ v1 > 7 then .error (.outOfBound .week v1)
          else if v2 < 0 ∨ v2 > 7 then .error (.outOfBound .week v2)
          else if v1 > v2 then .error (.badRange .week v1 v2)
          else
            match makeRangeOfInt8 fuel (int8 v1) (int8 v2) 1 with
            | none => .timeout
            | some s => .ok ({ cron with DaysOfWeek := s }, p)
    else if (p.L 1).t = .Comma then
      match p.list fuel [] with
      | .error e => .error e
      | .timeout => .timeout
      | .ok (s, p) => .ok ({ cron with DaysOfWeek := s }, p)
    else
      match p.number with
      | .error e => .error e
      | .ok (v, p) =>
        if v < 0 ∨ v > 7 then .error (.outOfBound .week v)
        else .ok ({ cron with DaysOfWeek := [int8 v] }, p)
  else if head.t = .Word then
    match p.word with
    | .error e => .error e
    | .ok (v, p) =>
      match cronWeekMap.lookup (toLower v) with
      | none => .error (.weekName v)
      | some n => .ok ({ cron with DaysOfWeek := [int8 n] }, p)
  else .error (.expectedHead head)

/-- The method `parseMonths`. -/
def cronParser.parseMonths (fuel : Nat) (p : cronParser) (cron : Crontab) :
    Outcome (Crontab × cronParser) :=
  let head := p.L 0
  if head.t = .Asterisk then
    if (p.L 1).t = .Slash then
      match p.stepedAsterisk with
      | .error e => .error e
      | .ok (step, p) =>
        match makeRangeOfInt8 fuel (int8 0) (int8 12) step with
        | none => .timeout
        | some s => .ok ({ cron with Months := s }, p)
    else
      match p.asterisk with
      | .error e => .error e
      | .ok p =>
        match makeRangeOfInt8 fuel (int8 0) (int8 12) 1 with
        | none => .timeout
        | some s => .ok ({ cron with Months := s }, p)
  else if head.t = .Number then
    if (p.L 1).t = .Hyphen then
      if (p.L 3).t = .Slash then
        match p.stepedRange with
        | .error e => .error e
        | .ok (v1, v2, v3, p) =>
          if v1 < 0 ∨ v1 > 12 then .error (.outOfBound .month v1)
          else if v2 < 0 ∨ v2 > 12 then .error (.outOfBound .month v2)
          else if v1 > v2 then .error (.badRange .month v1 v2)
          else
            match makeRangeOfInt8 fuel (int8 v1) (int8 v2) v3 with
            | none => .timeout
            | some s => .ok ({ cron with Months := s }, p)
      else
        match p.cronRange with
        | .error e => .error e
        | .ok (v1, v2, p) =>
          if v1 < 0 ∨ v1 > 12 then .error (.outOfBound .month v1)
          else if v2 < 0 ∨ v2 > 12 then .error (.outOfBound .month v2)
          else if v1 > v2 then .error (.badRange .month v1 v2)
          else
            match makeRangeOfInt8 fuel (int8 v1) (int8 v2) 1 with
            | none => .timeout
            | some s => .ok ({ cron with Months := s }, p)
    else if (p.L 1).t = .Comma then
      match p.list fuel [] with
      | .error e => .error e
      | .timeout => .timeout
      | .ok (s, p) => .ok ({ cron with Months := s }, p)
    else
      match p.number with
      | .error e => .error e
      | .ok (v, p) =>
        if v < 0 ∨ v > 12 then .error (.outOfBound .month v)
        else .ok ({ cron with Months := [int8 v] }, p)
  else if head.t = .Word then
    match p.word with
    | .error e => .error e
    | .ok (v, p) =>
      match cronMonthMap.lookup (toLower v) with
      | none => .error (.monthName v)
      | some n => .ok ({ cron with Months := [int8 n] }, p)
  else .error (.expectedHead head)

/-- The method `parseDaysOfMonth`. -/
def cronParser.parseDaysOfMonth (fuel : Nat) (p : cronParser) (cron : Crontab) :
    Outcome (Crontab × cronParser) :=
  let head := p.L 0
  if head.t = .Asterisk then
    if (p.L 1).t = .Slash then
      match p.stepedAsterisk with
      | .error e => .error e
      | .ok (step, p) =>
        match makeRangeOfInt8 fuel (int8 0) (int8 31) step with
        | none => .timeout
        | some s => .ok ({ cron with DaysOfMonth := s }, p)
    else
      match p.asterisk with
      | .error e => .error e
      | .ok p =>
        match makeRangeOfInt8 fuel (int8 0) (int8 31) 1 with
        | none => .timeout
        | some s => .ok ({ cron with DaysOfMonth := s }, p)
  else if head.t = .Number then
    if (p.L 1).t = .Hyphen then
      if (p.L 3).t = .Slash then
        match p.stepedRange with
        | .error e => .error e
        | .ok (v1, v2, v3, p) =>
          if v1 < 0 ∨ v1 > 31 then .error (.outOfBound .day v1)
          else if v2 < 0 ∨ v2 > 31 then .error (.outOfBound .day v2)
          else if v1 > v2 then .error (.badRange .day v1 v2)
          else
            match makeRangeOfInt8 fuel (int8 v1) (int8 v2) v3 with
            | none => .timeout
            | some s => .ok ({ cron with DaysOfMonth := s }, p)
      else
        match p.cronRange with
        | .error e => .error e
        | .ok (v1, v2, p) =>
          if v1 < 0 ∨ v1 > 31 then .error (.outOfBound .day v1)
          else if v2 < 0 ∨ v2 > 31 then .error (.outOfBound .day v2)
          else if v1 > v2 then .error (.badRange .day v1 v2)
          else
            match makeRangeOfInt8 fuel (int8 v1) (int8 v2) 1 with
            | none => .timeout
            | some s => .ok ({ cron with DaysOfMonth := s }, p)
    else if (p.L 1).t = .Comma then
      match p.list fuel [] with
      | .error e => .error e
      | .timeout => .timeout
      | .ok (s, p) => .ok ({ cron with DaysOfMonth := s }, p)
    else
      match p.number with
      | .error e => .error e
      | .ok (v, p) =>
        if v < 0 ∨ v > 31 then .error (.outOfBound .day v)
        else .ok ({ cron with DaysOfMonth := [int8 v] }, p)
  else .error (.expectedHead head)

/-- Modelled from the spec: the type `Int8Slice` is declared outside the files at hand;
`sort.Sort(Int8Slice(s))` puts the field-value set in ascending order. -/
def sortInt8Slice (s : List Int) : List Int := s.insertionSort (· ≤ ·)

/-- The method `cronParser.Parse`: the five fields in the order minute, hour, day of
month, month, day of week, then the five sorts. -/
def cronParser.Parse (fuel : Nat) (p : cronParser) (cron : Crontab) : Outcome Crontab :=
  match p.parseMinutes fuel cron with
  | .error e => .error e
  | .timeout => .timeout
  | .ok (cron, p) =>
    match p.parseHours fuel cron with
    | .error e => .error e
    | .timeout => .timeout
    | .ok (cron, p) =>
      match p.parseDaysOfMonth fuel cron with
      | .error e => .error e
      | .timeout => .timeout
      | .ok (cron, p) =>
        match p.parseMonths fuel cron with
        | .error e => .error e
        | .timeout => .timeout
        | .ok (cron, p) =>
          match p.parseDaysOfWeek fuel cron with
          | .error e => .error e
          | .timeout => .timeout
          | .ok (cron, _) =>
            .ok { cron with
              Minutes := sortInt8Slice cron.Minutes
              Hours := sortInt8Slice cron.Hours
              DaysOfMonth := sortInt8Slice cron.DaysOfMonth
              Months := sortInt8Slice cron.Months
              DaysOfWeek := sortInt8Slice cron.DaysOfWeek }

/-- The loop of `newCronParser` that fills the ring with the first `n` tokens. -/
def fillLookahead : Nat → List Nat → Except CronError (List cronToken × List Nat)
  | 0, r => .ok ([], r)
  | n + 1, r =>
    match NextToken r with
    | (.error e, _) => .error e
    | (.ok t, r) =>
      match fillLookahead n r with
      | .error e => .error e
      | .ok (ts, r) => .ok (t :: ts, r)

/-- The function `newCronParser`, on the bytes the lexer is to read. -/
def newCronParser (lexer : List Nat) (cap : Nat) : Except CronError cronParser :=
  match fillLookahead cap lexer with
  | .error e => .error e
  | .ok (ts, r) => .ok ⟨r, ts, cap, 0⟩

/-- The function `NewCrontab`, on the bytes of the expression. -/
def NewCrontab (fuel : Nat) (cron : List Nat) : Outcome Crontab :=
  match newCronParser cron 5 with
  | .error e => .error e
  | .ok parser => parser.Parse fuel ⟨[], [], [], [], [], cron⟩


/-! ## Calendar arithmetic -/

/-- Days from 1 March of year 0 to 1 March of the year `Y`. -/
def daysBeforeYear (Y : Int) : Int := 365 * Y + Y / 4 - Y / 100 + Y / 400

/-- Days from 1 March to the first day of the month `mp` months after March. -/
def daysBeforeMonth (mp : Int) : Int := (153 * mp + 2) / 5

/-- Count of months from March of year 0 to the month holding the day `z`. -/
def monthIdx (z : Int) : Int := 12 * (marchYear z).1 + (5 * (marchYear z).2 + 2) / 153

/-- Day number of the first day of the month with index `k`. -/
def firstOfMonth (k : Int) : Int := daysBeforeYear (k / 12) + daysBeforeMonth (k % 12) - 719468


/-! ## The loop of `nextFrom`, one pass at a time -/



instance Time.decWholeMinute (t : Time) : Decidable t.WholeMinute := by
  unfold Time.WholeMinute; infer_instance

instance Crontab.decMatches (cron : Crontab) (t : Time) : Decidable (cron.Matches t) := by
  unfold Crontab.Matches; infer_instance

/-- The time the loop of `nextFrom` continues from after a pass in which a check failed. -/
def jump (cron : Crontab) (next : Time) : Time :=
  if !inInt8Slice (int8 next.Month) cron.Months then
    if next.Month + 1 > 12 then Date (next.Year + 1) 1 1 0 0 0 0 next.loc
    else Date next.Year (next.Month + 1) 1 0 0 0 0 next.loc
  else if !inInt8Slice (int8 next.Day) cron.DaysOfMonth
      && !inInt8Slice (int8 next.Weekday) cron.DaysOfWeek then
    Date (next.Add (Hour * 24)).Year (next.Add (Hour * 24)).Month (next.Add (Hour * 24)).Day
      0 0 0 0 next.loc
  else if !inInt8Slice (int8 next.Hour) cron.Hours then
    Date (next.Add Hour).Year (next.Add Hour).Month (next.Add Hour).Day (next.Add Hour).Hour
      0 0 0 next.loc
  else
    Date (next.Add Minute).Year (next.Add Minute).Month (next.Add Minute).Day
      (next.Add Minute).Hour (next.Add Minute).Minute 0 0 next.loc


/-- The time the search of `nextFrom` starts from: the next whole minute after `start`. -/
def searchStart (start : Time) : Time :=
  Date (start.Add Minute).Year (start.Add Minute).Month (start.Add Minute).Day
    (start.Add Minute).Hour (start.Add Minute).Minute 0 0 (start.Add Minute).loc


/-! ## Vocabulary of the statements -/

/-- The integers `0, 1, ..., n` in ascending order. -/
def upTo (n : Nat) : List Int := (List.range (n + 1)).map Int.ofNat

/-- The field-value set of a Crontab for a field. -/
def Crontab.get (c : Crontab) : cronField → List Int
  | .minute => c.Minutes
  | .hour => c.Hours
  | .day => c.DaysOfMonth
  | .month => c.Months
  | .week => c.DaysOfWeek

/-- The Crontab with the field-value set of one field replaced. -/
def Crontab.set (c : Crontab) (f : cronField) (s : List Int) : Crontab :=
  match f with
  | .minute => { c with Minutes := s }
  | .hour => { c with Hours := s }
  | .day => { c with DaysOfMonth := s }
  | .month => { c with Months := s }
  | .week => { c with DaysOfWeek := s }

/-- The name table of a field, where it has one. -/
def cronField.names : cronField → Option (List (List Nat × Int))
  | .month => some cronMonthMap
  | .week => some cronWeekMap
  | _ => none

/-- The name error of a field. -/
def cronField.nameError (f : cronField) (v : List Nat) : CronError :=
  if f = .week then .weekName v else .monthName v

/-- The method of `cronParser` for a field. -/
def cronParser.parseField (f : cronField) (fuel : Nat) (p : cronParser) (cron : Crontab) :
    Outcome (Crontab × cronParser) :=
  match f with
  | .minute => p.parseMinutes fuel cron
  | .hour => p.parseHours fuel cron
  | .day => p.parseDaysOfMonth fuel cron
  | .month => p.parseMonths fuel cron
  | .week => p.parseDaysOfWeek fuel cron

/-- The common shape of the five field parsers, with the field as a parameter. -/
def cronParser.parseAny (f : cronField) (fuel : Nat) (p : cronParser) (cron : Crontab) :
    Outcome (Crontab × cronParser) :=
  if (p.L 0).t = .Asterisk then
    if (p.L 1).t = .Slash then
      match p.stepedAsterisk with
      | .error e => .error e
      | .ok (step, p) =>
        match makeRangeOfInt8 fuel (int8 0) (int8 f.bound) step with
        | none => .timeout
        | some s => .ok (cron.set f s, p)
    else
      match p.asterisk with
      | .error e => .error e
      | .ok p =>
        if f = .week then .ok (cron.set f [], p)
        else
          match makeRangeOfInt8 fuel (int8 0) (int8 f.bound) 1 with
          | none => .timeout
          | some s => .ok (cron.set f s, p)
  else if (p.L 0).t = .Number then
    if (p.L 1).t = .Hyphen then
      if (p.L 3).t = .Slash then
        match p.stepedRange with
        | .error e => .error e
        | .ok (v1, v2, v3, p) =>
          if v1 < 0 ∨ v1 > f.bound then .error (.outOfBound f v1)
          else if v2 < 0 ∨ v2 > f.bound then .error (.outOfBound f v2)
          else if v1 > v2 then .error (.badRange f v1 v2)
          else
            match makeRangeOfInt8 fuel (int8 v1) (int8 v2) v3 with
            | none => .timeout
            | some s => .ok (cron.set f s, p)
      else
        match p.cronRange with
        | .error e => .error e
        | .ok (v1, v2, p) =>
          if v1 < 0 ∨ v1 > f.bound then .error (.outOfBound f v1)
          else if v2 < 0 ∨ v2 > f.bound then .error (.outOfBound f v2)
          else if v1 > v2 then .error (.badRange f v1 v2)
          else
            match makeRangeOfInt8 fuel (int8 v1) (int8 v2) 1 with
            | none => .timeout
            | some s => .ok (cron.set f s, p)
    else if (p.L 1).t = .Comma then
      match p.list fuel [] with
      | .error e => .error e
      | .timeout => .timeout
      | .ok (s, p) => .ok (cron.set f s, p)
    else
      match p.number with
      | .error e => .error e
      | .ok (v, p) =>
        if v < 0 ∨ v > f.bound then .error (.outOfBound f v)
        else .ok (cron.set f [int8 v], p)
  else
    match f.names with
    | none => .error (.expectedHead (p.L 0))
    | some names =>
      if (p.L 0).t = .Word then
        match p.word with
        | .error e => .error e
        | .ok (v, p) =>
          match names.lookup (toLower v) with
          | none => .error (f.nameError v)
          | some n => .ok (cron.set f [int8 n], p)
      else .error (.expectedHead (p.L 0))

/-- The Crontab and the parser as `NewCrontab` hands them to `parseMinutes`. -/
def atMinutes (s : List Nat) : Outcome (Crontab × cronParser) :=
  match newCronParser s 5 with
  | .error e => .error e
  | .ok p => .ok (⟨[], [], [], [], [], s⟩, p)

/-- Runs a field parser on the outcome of the fields before it. -/
def Outcome.andThen (o : Outcome (Crontab × cronParser))
    (k : cronParser → Crontab → Outcome (Crontab × cronParser)) :
    Outcome (Crontab × cronParser) :=
  match o with
  | .ok (c, p) => k p c
  | .error e => .error e
  | .timeout => .timeout

/-- The Crontab and the parser as they stand when `NewCrontab`, run on the expression `s`,
comes to the field `f`: the fields before it have been parsed without error. -/
def fieldStart (fuel : Nat) (s : List Nat) : cronField → Outcome (Crontab × cronParser)
  | .minute => atMinutes s
  | .hour => (atMinutes s).andThen (cronParser.parseMinutes fuel)
  | .day => ((atMinutes s).andThen (cronParser.parseMinutes fuel)).andThen
      (cronParser.parseHours fuel)
  | .month => (((atMinutes s).andThen (cronParser.parseMinutes fuel)).andThen
      (cronParser.parseHours fuel)).andThen (cronParser.parseDaysOfMonth fuel)
  | .week => ((((atMinutes s).andThen (cronParser.parseMinutes fuel)).andThen
      (cronParser.parseHours fuel)).andThen (cronParser.parseDaysOfMonth fuel)).andThen
        (cronParser.parseMonths fuel)

/-- The ring of a parser made by `newCronParser(lexer, 5)`: five slots, head inside. -/
def cronParser.WF (p : cronParser) : Prop :=
  p.cap = 5 ∧ p.head < 5 ∧ p.lookahead.length = 5


/-! ## The scheduled message -/

/-- The record `PriorityMessage`; the embedded `Message` and the interface `Periodicor`
are declared outside the files at hand and are parameters. -/
structure PriorityMessage (Message Periodicor : Type) where
  msg : Message
  T : Int
  P : Option Periodicor

/-- The method `IsDue`, with the reading `time.Now().Unix()` of the clock as `now`. -/
def PriorityMessage.IsDue {Message Periodicor : Type} (pm : PriorityMessage Message Periodicor)
    (now : Int) : Bool :=
  decide (now ≥ pm.T)

/-- The method `IsPeriodic`. -/
def PriorityMessage.IsPeriodic {Message Periodicor : Type}
    (pm : PriorityMessage Message Periodicor) : Bool :=
  pm.P.isSome

/-! ## Names of months and weekdays, as the specification lists them -/

/-- The month names in calendar order. -/
def monthNames : List String :=
  ["jan", "feb", "mar", "apr", "may", "jun", "jul", "aug", "sep", "oct", "nov", "dec"]

/-- The weekday names, Sunday first. -/
def weekNames : List String := ["sun", "mon", "tue", "wed", "thu", "fri", "sat"]

/-- The number of the word `w` in a list of names whose first name has the number `first`,
if it is one of them. -/
def nameNumber : List String → Int → List Nat → Option Int
  | [], _, _ => none
  | n :: rest, first, w => if w = bytes n then some first else nameNumber rest (first + 1) w

/-- The table that gives the names of a list their numbers, counted from `first`. -/
def nameTable : List String → Int → List (List Nat × Int)
  | [], _ => []
  | n :: rest, first => (bytes n, first) :: nameTable rest (first + 1)

/-- The input of the lexer is used up and the ring holds the EOF token from the `k`-th
token ahead on. -/
def cronParser.eofFrom (p : cronParser) (k : Nat) : Prop :=
  p.WF ∧ p.lexer = [] ∧ ∀ i, k ≤ i → i < 5 → (p.L i).t = .EOF

/-! ## Two runs of the parser, on an expression and on the expression with ` *` after it -/

/-- Two tokens at the same place of the two rings: the same token, or the EOF token of the
expression where the longer input has its `*`. -/
def tokRel (a b : cronToken) : Prop := a = b ∨ (a.t = .EOF ∧ b.t = .Asterisk)

/-- The unread bytes of the two lexers: the second has the bytes of ` *` more, or both are
at the end. -/
def lexRel (r r2 : List Nat) : Prop := r2 = r ++ [32, 42] ∨ (r = [] ∧ r2 = [])

/-- The parser on the expression and the parser on the longer input, at the same step. -/
def cronParser.Sim (p p2 : cronParser) : Prop :=
  p.WF ∧ p2.WF ∧ (∀ i, i < 5 → tokRel (p.L i) (p2.L i)) ∧ lexRel p.lexer p2.lexer

/-- A `Match` of a token kind and the `Consume` that follows it: the token taken and the
parser after it. -/
def cronParser.take (p : cronParser) (t : cronTokenType) :
    Except CronError (cronToken × cronParser) :=
  match p.Match t with
  | .error e => .error e
  | .ok _ =>
    match p.Consume.1 with
    | .error e => .error e
    | .ok tok => .ok (tok, p.Consume.2)


/-! ## Time in a location with zone transitions -/

/-- The least Unix second of a zone lookup, `alpha` of Go's `zoneinfo.go`. -/
def lookupAlpha : Int := -9223372036854775808

/-- The greatest Unix second of a zone lookup, `omega` of Go's `zoneinfo.go`. -/
def lookupOmega : Int := 9223372036854775807

/-- A `time.Location`: the offset, in seconds east of UTC, in force before the first zone
transition, and the transitions in ascending order, each the Unix second it happens at
with the offset in force from then on.  A fixed-offset location (UTC, `time.FixedZone`)
has no transition. -/
structure Location where
  first : Int
  tx : List (Int × Int)
deriving DecidableEq, Repr

/-- The search of `Location.lookup` through the transitions, with the offset in force so
far and the second it began at: the offset in force at `sec`, the second it began at and
the second it ends at. -/
def lookupFrom (sec : Int) (cur start : Int) : List (Int × Int) → Int × Int × Int
  | [] => (cur, start, lookupOmega)
  | (w, off) :: rest => if sec < w then (cur, start, w) else lookupFrom sec off w rest

/-- Go `l.lookup(sec)`: offset, start and end of the zone in force at a Unix second.  Go
finds the last transition at or before `sec` by bisection; the transitions are in
ascending order, so the search from the first one finds the same. -/
def Location.lookup (l : Location) (sec : Int) : Int × Int × Int :=
  lookupFrom sec l.first lookupAlpha l.tx

/-- A `time.Time` with its `Location`: `ns` counts nanoseconds since the Unix epoch. -/
structure ZonedTime where
  ns : Int
  loc : Location
deriving DecidableEq, Repr

namespace ZonedTime

/-- The offset in force at the instant, which every field accessor of Go looks up. -/
def offset (t : ZonedTime) : Int := (t.loc.lookup (t.ns / 1000000000)).1

/-- The instant with the offset in force at it as its fixed offset. -/
def fixed (t : ZonedTime) : Time := ⟨t.ns, t.offset⟩

/-- Go `t.Year()`. -/
def Year (t : ZonedTime) : Int := t.fixed.Year

/-- Go `t.Month()`, January = 1. -/
def Month (t : ZonedTime) : Int := t.fixed.Month

/-- Go `t.Day()`. -/
def Day (t : ZonedTime) : Int := t.fixed.Day

/-- Go `t.Weekday()`, Sunday = 0. -/
def Weekday (t : ZonedTime) : Int := t.fixed.Weekday

/-- Go `t.Hour()`. -/
def Hour (t : ZonedTime) : Int := t.fixed.Hour

/-- Go `t.Minute()`. -/
def Minute (t : ZonedTime) : Int := t.fixed.Minute

/-- Go `t.Second()`. -/
def Second (t : ZonedTime) : Int := t.fixed.Second

/-- Go `t.Nanosecond()`. -/
def Nanosecond (t : ZonedTime) : Int := t.fixed.Nanosecond

/-- Go `t.Add(d)`. -/
def Add (t : ZonedTime) (d : Int) : ZonedTime := ⟨t.ns + d, t.loc⟩

end ZonedTime

/-- Go `time.Date(year, month, day, hour, min, sec, nsec, loc)` for a `Location`: the
fields are read as if in UTC, the offset in force at that second is looked up, and when
the second less that offset falls outside the zone found, the offset in force at it is
looked up and used.  Of the two instants with the same reading in the hour that is
repeated when daylight saving time ends, this gives the first. -/
def DateIn (year month day hour min sec nsec : Int) (loc : Location) : ZonedTime :=
  let u := Date year month day hour min sec nsec 0
  let unix := u.ns / 1000000000
  let z := loc.lookup unix
  if z.1 ≠ 0 then
    let utc := unix - z.1
    if utc < z.2.1 ∨ utc ≥ z.2.2 then
      ⟨u.ns - (loc.lookup utc).1 * 1000000000, loc⟩
    else
      ⟨u.ns - z.1 * 1000000000, loc⟩
  else
    ⟨u.ns, loc⟩

/-- The loop of `nextFrom` on a time with its `Location`; one unit of fuel per
iteration. -/
def nextLoopIn (cron : Crontab) : Nat → ZonedTime → Option ZonedTime
  | 0, _ => none
  | fuel + 1, next =>
    if !inInt8Slice (int8 next.Month) cron.Months then
      let m := next.Month + 1
      let y := next.Year
      if m > 12 then
        nextLoopIn cron fuel (DateIn (y + 1) 1 1 0 0 0 0 next.loc)
      else
        nextLoopIn cron fuel (DateIn y m 1 0 0 0 0 next.loc)
    else if !inInt8Slice (int8 next.Day) cron.DaysOfMonth
        && !inInt8Slice (int8 next.Weekday) cron.DaysOfWeek then
      let n := next.Add (Hour * 24)
      nextLoopIn cron fuel (DateIn n.Year n.Month n.Day 0 0 0 0 n.loc)
    else if !inInt8Slice (int8 next.Hour) cron.Hours then
      let n := next.Add Hour
      nextLoopIn cron fuel (DateIn n.Year n.Month n.Day n.Hour 0 0 0 n.loc)
    else if !inInt8Slice (int8 next.Minute) cron.Minutes then
      let n := next.Add Minute
      nextLoopIn cron fuel (DateIn n.Year n.Month n.Day n.Hour n.Minute 0 0 n.loc)
    else
      some next

/-- The method `Crontab.nextFrom` on a time with its `Location`, with the fuel of its
loop.  On a location without transitions it is `nextFrom` on the fixed offset. -/
def nextFromIn (cron : Crontab) (fuel : Nat) (start : ZonedTime) : Option ZonedTime :=
  let n := start.Add Minute
  nextLoopIn cron fuel (DateIn n.Year n.Month n.Day n.Hour n.Minute 0 0 n.loc)

/-- A time of a fixed-offset location as a time with that `Location`. -/
def Time.zoned (t : Time) : ZonedTime := ⟨t.ns, ⟨t.loc, []⟩⟩

/-- The zone America/New_York through 2023: Eastern Standard Time (UTC-5) until
2023-03-12 07:00:00 UTC, Eastern Daylight Time (UTC-4) until 2023-11-05 06:00:00 UTC, and
Eastern Standard Time after it. -/
def newYork : Location := ⟨-18000, [(1678604400, -14400), (1699164000, -18000)]⟩

/-! ## Steps whose expansion ends -/

/-- No number that follows a `/` among the five tokens ahead is a multiple of 128: as an
`int8` such a step is 0 or -128, and `makeRangeOfInt8` need not come to an end with it. -/
def cronParser.stepsEnd (p : cronParser) : Prop :=
  ∀ j, j < 4 → (p.L j).t = .Slash → (p.L (j + 1)).t = .Number →
    digitsVal (p.L (j + 1)).v % 128 ≠ 0

/-! ## Calendar lemmas -/

theorem daysBeforeYear_decomp (a b c d : Int) (hb : 0 ≤ b ∧ b ≤ 3) (hc : 0 ≤ c ∧ c ≤ 24)
    (hd : 0 ≤ d ∧ d ≤ 3) :
    daysBeforeYear (400 * a + 100 * b + 4 * c + d) = 146097 * a + 36524 * b + 1461 * c + 365 * d := by
  have h4 : (400 * a + 100 * b + 4 * c + d) / 4 = 100 * a + 25 * b + c := by omega
  have h100 : (400 * a + 100 * b + 4 * c + d) / 100 = 4 * a + b := by omega
  have h400 : (400 * a + 100 * b + 4 * c + d) / 400 = a := by omega
  simp only [daysBeforeYear, h4, h100, h400]; omega

theorem daysBeforeYear_decomp_succ (a b c d : Int) (hb : 0 ≤ b ∧ b ≤ 3) (hc : 0 ≤ c ∧ c ≤ 24)
    (hd : 0 ≤ d ∧ d ≤ 3) :
    daysBeforeYear (400 * a + 100 * b + 4 * c + d + 1) =
      146097 * a + 36524 * b + 1461 * c + 365 * d + 365 +
        (if d = 3 ∧ (c < 24 ∨ b = 3) then 1 else 0) := by
  have h4 : (400 * a + 100 * b + 4 * c + d + 1) / 4 =
      100 * a + 25 * b + c + (if d = 3 then 1 else 0) := by
    split_ifs <;> omega
  have h100 : (400 * a + 100 * b + 4 * c + d + 1) / 100 =
      4 * a + b + (if d = 3 ∧ c = 24 then 1 else 0) := by
    split_ifs <;> omega
  have h400 : (400 * a + 100 * b + 4 * c + d + 1) / 400 =
      a + (if d = 3 ∧ c = 24 ∧ b = 3 then 1 else 0) := by
    split_ifs <;> omega
  simp only [daysBeforeYear, h4, h100, h400]; split_ifs <;> omega

theorem marchYear_spec (z : Int) :
    z + 719468 = daysBeforeYear (marchYear z).1 + (marchYear z).2 ∧ 0 ≤ (marchYear z).2 ∧
      daysBeforeYear (marchYear z).1 + (marchYear z).2 < daysBeforeYear ((marchYear z).1 + 1) ∧
      (marchYear z).2 ≤ 365 := by
  simp only [marchYear]
  generalize hn400 : (z + 719468) / 146097 = n400
  generalize hr400 : (z + 719468) % 146097 = r400
  generalize hn100 : (if r400 / 36524 ≥ 4 then 3 else r400 / 36524) = n100
  generalize hn4 : (r400 - 36524 * n100) / 1461 = n4
  generalize hr4 : (r400 - 36524 * n100) % 1461 = r4
  generalize hn1 : (if r4 / 365 ≥ 4 then 3 else r4 / 365) = n1
  have b100 : 0 ≤ n100 ∧ n100 ≤ 3 := by subst hn100; split_ifs <;> omega
  have b4 : 0 ≤ n4 ∧ n4 ≤ 24 := by subst hn100; split_ifs at b100 ⊢ <;> omega
  have b1 : 0 ≤ n1 ∧ n1 ≤ 3 := by subst hn1; split_ifs <;> omega
  rw [daysBeforeYear_decomp n400 n100 n4 n1 b100 b4 b1,
    daysBeforeYear_decomp_succ n400 n100 n4 n1 b100 b4 b1]
  subst hn1 hn100
  split_ifs <;> omega

theorem daysBeforeYear_mono (a b : Int) (h : a ≤ b) : daysBeforeYear a ≤ daysBeforeYear b := by
  simp only [daysBeforeYear]; omega

theorem daysBeforeYear_step (Y : Int) : daysBeforeYear Y + 365 ≤ daysBeforeYear (Y + 1) := by
  simp only [daysBeforeYear]; omega

theorem daysBeforeMonth_spec (doy : Int) (h0 : 0 ≤ doy) (h1 : doy ≤ 365) (km : Int) :
    (km ≤ (5 * doy + 2) / 153 ↔ daysBeforeMonth km ≤ doy) ∧ (5 * doy + 2) / 153 ≤ 11 ∧
      0 ≤ (5 * doy + 2) / 153 := by
  simp only [daysBeforeMonth]; omega

/-- The month index and the first day of a month are adjoint: the month of `z` is at least
`k` exactly when `z` is on or after the first day of month `k`. -/
theorem monthIdx_ge_iff (z k : Int) : k ≤ monthIdx z ↔ firstOfMonth k ≤ z := by
  obtain ⟨hz, h0, hlt, h365⟩ := marchYear_spec z
  have hm := daysBeforeMonth_spec (marchYear z).2 h0 h365 (k % 12)
  simp only [monthIdx, firstOfMonth]
  generalize (marchYear z).1 = Y at *
  generalize (marchYear z).2 = doy at *
  generalize hmp : (5 * doy + 2) / 153 = mp at *
  have hk0 : 0 ≤ k % 12 := by omega
  have hk1 : k % 12 ≤ 11 := by omega
  have hH : 0 ≤ daysBeforeMonth (k % 12) ∧ daysBeforeMonth (k % 12) ≤ 337 := by
    simp only [daysBeforeMonth]; omega
  rcases lt_trichotomy Y (k / 12) with hlt' | heq | hgt
  · have := daysBeforeYear_mono (Y + 1) (k / 12) (by omega)
    constructor <;> intro h <;> omega
  · subst heq
    constructor <;> intro h <;> omega
  · have := daysBeforeYear_mono (k / 12 + 1) Y (by omega)
    have := daysBeforeYear_step (k / 12)
    constructor <;> intro h <;> omega

theorem firstOfMonth_le (z : Int) : firstOfMonth (monthIdx z) ≤ z :=
  (monthIdx_ge_iff z _).1 (le_refl _)

theorem lt_firstOfMonth_succ (z : Int) : z < firstOfMonth (monthIdx z + 1) := by
  have := monthIdx_ge_iff z (monthIdx z + 1)
  by_contra h
  have := this.2 (by omega)
  omega

/-- Every day from `z` up to the first day of the next month lies in the month of `z`. -/
theorem monthIdx_eq_of_between (z u : Int) (h1 : z ≤ u) (h2 : u < firstOfMonth (monthIdx z + 1)) :
    monthIdx u = monthIdx z := by
  have a := (monthIdx_ge_iff u (monthIdx z)).2 (le_trans (firstOfMonth_le z) h1)
  have b := monthIdx_ge_iff u (monthIdx z + 1)
  by_contra h
  have := b.1 (by omega)
  omega

theorem civilFromDays_spec (z : Int) :
    (civilFromDays z).2.1 = (monthIdx z + 2) % 12 + 1 ∧
      12 * (civilFromDays z).1 + (civilFromDays z).2.1 - 3 = monthIdx z ∧
      (civilFromDays z).2.2 = z - firstOfMonth (monthIdx z) + 1 := by
  obtain ⟨hz, h0, hlt, h365⟩ := marchYear_spec z
  simp only [civilFromDays, monthIdx, firstOfMonth, daysBeforeMonth]
  generalize (marchYear z).1 = Y at *
  generalize (marchYear z).2 = doy at *
  have hmp : 0 ≤ (5 * doy + 2) / 153 ∧ (5 * doy + 2) / 153 ≤ 11 := by omega
  generalize (5 * doy + 2) / 153 = mp at *
  have e1 : (12 * Y + mp) / 12 = Y := by omega
  have e2 : (12 * Y + mp) % 12 = mp := by omega
  rw [e1, e2]
  split_ifs <;> omega

theorem daysFromCivil_norm (y m : Int) :
    daysFromCivil (y + (m - 1) / 12) ((m - 1) % 12 + 1) 1 = firstOfMonth (12 * y + m - 3) := by
  simp only [daysFromCivil, firstOfMonth, daysBeforeYear, daysBeforeMonth]
  have hq : (12 * y + m - 3) / 12 = if (m - 1) % 12 + 1 ≤ 2 then y + (m - 1) / 12 - 1
      else y + (m - 1) / 12 := by
    split_ifs <;> omega
  have hr : (12 * y + m - 3) % 12 = if (m - 1) % 12 + 1 > 2 then (m - 1) % 12 + 1 - 3
      else (m - 1) % 12 + 1 + 9 := by
    split_ifs <;> omega
  rw [hq, hr]
  generalize (if (m - 1) % 12 + 1 ≤ 2 then y + (m - 1) / 12 - 1 else y + (m - 1) / 12) = Y
  generalize (if (m - 1) % 12 + 1 > 2 then (m - 1) % 12 + 1 - 3 else (m - 1) % 12 + 1 + 9) = mp
  omega


/-! ## Field accessors of `Date` and of a jump -/

theorem Date_loc (y m d h mi s n loc : Int) : (Date y m d h mi s n loc).loc = loc := rfl

theorem Date_wall (y m d h mi s n loc : Int) :
    (Date y m d h mi s n loc).wall =
      ((firstOfMonth (12 * y + m - 3) + (d - 1)) * 86400 + h * 3600 + mi * 60 + s) * 1000000000
        + n := by
  simp only [Date, Time.wall, daysFromCivil_norm]
  ring

theorem Time.days_eq (t : Time) :
    firstOfMonth (12 * t.Year + t.Month - 3) + (t.Day - 1) = t.days := by
  obtain ⟨_, h2, h3⟩ := civilFromDays_spec t.days
  simp only [Time.Year, Time.Month, Time.Day, h2, h3]
  omega

theorem Time.Month_eq (t : Time) : t.Month = (monthIdx t.days + 2) % 12 + 1 :=
  (civilFromDays_spec t.days).1

theorem Time.Day_eq (t : Time) : t.Day = t.days - firstOfMonth (monthIdx t.days) + 1 :=
  (civilFromDays_spec t.days).2.2

theorem Time.Day_bounds (t : Time) : 1 ≤ t.Day ∧ t.Day ≤ 31 := by
  obtain ⟨hz, h0, hlt, h365⟩ := marchYear_spec t.days
  simp only [Time.Day, civilFromDays]
  generalize (marchYear t.days).2 = doy at *
  omega

theorem int8_of_small (x : Int) (h0 : 0 ≤ x) (h1 : x ≤ 127) : int8 x = x := by
  simp only [int8]; omega

theorem Time.int8_Month (t : Time) : int8 t.Month = t.Month :=
  int8_of_small _ (by rw [Time.Month_eq]; omega) (by rw [Time.Month_eq]; omega)

theorem Time.int8_Day (t : Time) : int8 t.Day = t.Day :=
  int8_of_small _ (by have := t.Day_bounds; omega) (by have := t.Day_bounds; omega)

theorem Time.int8_Weekday (t : Time) : int8 t.Weekday = t.Weekday :=
  int8_of_small _ (by simp only [Time.Weekday]; omega) (by simp only [Time.Weekday]; omega)

theorem Time.int8_Hour (t : Time) : int8 t.Hour = t.Hour :=
  int8_of_small _ (by simp only [Time.Hour]; omega) (by simp only [Time.Hour]; omega)

theorem Time.int8_Minute (t : Time) : int8 t.Minute = t.Minute :=
  int8_of_small _ (by simp only [Time.Minute]; omega) (by simp only [Time.Minute]; omega)

/-- Rebuilding a time from its own fields down to the minute drops the seconds. -/
theorem Time.trunc_minute (t : Time) :
    (Date t.Year t.Month t.Day t.Hour t.Minute 0 0 t.loc).wall =
      t.wall - t.wall % 60000000000 := by
  rw [Date_wall, t.days_eq]
  simp only [Time.days, Time.Hour, Time.Minute]
  omega

theorem Time.trunc_hour (t : Time) :
    (Date t.Year t.Month t.Day t.Hour 0 0 0 t.loc).wall = t.wall - t.wall % 3600000000000 := by
  rw [Date_wall, t.days_eq]
  simp only [Time.days, Time.Hour]
  omega

theorem Time.trunc_day (t : Time) :
    (Date t.Year t.Month t.Day 0 0 0 0 t.loc).wall = t.wall - t.wall % 86400000000000 := by
  rw [Date_wall, t.days_eq]
  simp only [Time.days]
  omega

theorem Time.wall_Add (t : Time) (d : Int) : (t.Add d).wall = t.wall + d := by
  simp only [Time.Add, Time.wall]; omega

theorem Time.loc_Add (t : Time) (d : Int) : (t.Add d).loc = t.loc := rfl

/-- The month jump lands on the first day of the next month, whichever branch is taken. -/
theorem Time.next_month (t : Time) :
    (if t.Month + 1 > 12 then Date (t.Year + 1) 1 1 0 0 0 0 t.loc
      else Date t.Year (t.Month + 1) 1 0 0 0 0 t.loc).wall =
      firstOfMonth (monthIdx t.days + 1) * 86400000000000 := by
  obtain ⟨h1, h2, _⟩ := civilFromDays_spec t.days
  have e : 12 * t.Year + t.Month - 3 = monthIdx t.days := h2
  split_ifs with h
  · rw [Date_wall]
    have : 12 * (t.Year + 1) + 1 - 3 = monthIdx t.days + 1 := by
      have := t.Month_eq; omega
    rw [this]; omega
  · rw [Date_wall]
    have : 12 * t.Year + (t.Month + 1) - 3 = monthIdx t.days + 1 := by omega
    rw [this]; omega

/-! ## The loop of `nextFrom` -/

theorem nextLoop_succ (cron : Crontab) (fuel : Nat) (next : Time) :
    nextLoop cron (fuel + 1) next =
      if cron.Matches next then some next else nextLoop cron fuel (jump cron next) := by
  simp only [nextLoop, jump, Crontab.Matches, inInt8Slice, Time.int8_Month, Time.int8_Day,
    Time.int8_Weekday, Time.int8_Hour, Time.int8_Minute, Time.loc_Add, Bool.not_eq_true',
    decide_eq_false_iff_not, Bool.and_eq_true, decide_eq_true_eq, Bool.not_eq_true]
  by_cases h1 : next.Month ∈ cron.Months <;> by_cases h2 : next.Day ∈ cron.DaysOfMonth <;>
    by_cases h3 : next.Weekday ∈ cron.DaysOfWeek <;> by_cases h4 : next.Hour ∈ cron.Hours <;>
    by_cases h5 : next.Minute ∈ cron.Minutes <;> simp [h1, h2, h3, h4, h5] <;> split_ifs <;> rfl


theorem Time.Month_congr (t u : Time) (h : monthIdx u.days = monthIdx t.days) :
    u.Month = t.Month := by
  rw [Time.Month_eq, Time.Month_eq, h]

theorem Time.Day_congr (t u : Time) (h : u.days = t.days) : u.Day = t.Day := by
  rw [Time.Day_eq, Time.Day_eq, h]

/-- One failed pass of the loop moves forward by at least a minute, stays on a minute
boundary, and passes over no matching time. -/
theorem jump_spec (cron : Crontab) (next : Time) (hb : next.wall % 60000000000 = 0)
    (hn : ¬ cron.Matches next) :
    (jump cron next).loc = next.loc ∧ (jump cron next).wall % 60000000000 = 0 ∧
      next.wall + 60000000000 ≤ (jump cron next).wall ∧
      ∀ u : Time, next.wall ≤ u.wall → u.wall < (jump cron next).wall → ¬ cron.Matches u := by
  unfold jump
  simp only [inInt8Slice, Time.int8_Month, Time.int8_Day, Time.int8_Weekday, Time.int8_Hour,
    Time.int8_Minute, Bool.not_eq_true', decide_eq_false_iff_not, Bool.and_eq_true]
  by_cases h1 : next.Month ∈ cron.Months
  · rw [if_neg (not_not.2 h1)]
    by_cases h2 : next.Day ∈ cron.DaysOfMonth ∨ next.Weekday ∈ cron.DaysOfWeek
    · rw [if_neg (by tauto)]
      by_cases h3 : next.Hour ∈ cron.Hours
      · rw [if_neg (not_not.2 h3)]
        have h4 : next.Minute ∉ cron.Minutes := fun h4 => hn ⟨h1, h2, h3, h4⟩
        refine ⟨rfl, ?_, ?_, ?_⟩
        · have := (next.Add Minute).trunc_minute
          rw [Time.loc_Add, Time.wall_Add] at this
          rw [this]; simp only [Minute]; omega
        · have := (next.Add Minute).trunc_minute
          rw [Time.loc_Add, Time.wall_Add] at this
          rw [this]; simp only [Minute]; omega
        · intro u hu1 hu2 hm
          have := (next.Add Minute).trunc_minute
          rw [Time.loc_Add, Time.wall_Add] at this
          rw [this] at hu2; simp only [Minute] at hu2
          have e : u.Minute = next.Minute := by
            simp only [Time.Minute]; omega
          exact h4 (e ▸ hm.2.2.2)
      · rw [if_pos h3]
        refine ⟨rfl, ?_, ?_, ?_⟩
        · have := (next.Add Hour).trunc_hour
          rw [Time.loc_Add, Time.wall_Add] at this
          rw [this]; simp only [Hour]; omega
        · have := (next.Add Hour).trunc_hour
          rw [Time.loc_Add, Time.wall_Add] at this
          rw [this]; simp only [Hour]; omega
        · intro u hu1 hu2 hm
          have := (next.Add Hour).trunc_hour
          rw [Time.loc_Add, Time.wall_Add] at this
          rw [this] at hu2; simp only [Hour] at hu2
          have e : u.Hour = next.Hour := by
            simp only [Time.Hour]; omega
          exact h3 (e ▸ hm.2.2.1)
    · rw [if_pos (by tauto)]
      refine ⟨rfl, ?_, ?_, ?_⟩
      · have := (next.Add (Hour * 24)).trunc_day
        rw [Time.loc_Add, Time.wall_Add] at this
        rw [this]; simp only [Hour]; omega
      · have := (next.Add (Hour * 24)).trunc_day
        rw [Time.loc_Add, Time.wall_Add] at this
        rw [this]; simp only [Hour]; omega
      · intro u hu1 hu2 hm
        have := (next.Add (Hour * 24)).trunc_day
        rw [Time.loc_Add, Time.wall_Add] at this
        rw [this] at hu2; simp only [Hour] at hu2
        have e : u.days = next.days := by
          simp only [Time.days]; omega
        have e1 : u.Day = next.Day := Time.Day_congr _ _ e
        have e2 : u.Weekday = next.Weekday := by simp only [Time.Weekday, e]
        exact h2 (e1 ▸ e2 ▸ hm.2.1)
  · rw [if_pos h1]
    have hw := next.next_month
    have hlt := lt_firstOfMonth_succ next.days
    refine ⟨?_, ?_, ?_, ?_⟩
    · split_ifs <;> rfl
    · rw [hw]; omega
    · rw [hw]; simp only [Time.days] at hlt ⊢; omega
    · intro u hu1 hu2 hm
      rw [hw] at hu2
      have e : monthIdx u.days = monthIdx next.days := by
        apply monthIdx_eq_of_between
        · simp only [Time.days]; omega
        · generalize firstOfMonth (monthIdx next.days + 1) = F at hu2 ⊢
          simp only [Time.days]; omega
      exact h1 (Time.Month_congr _ _ e ▸ hm.1)


theorem Time.wholeMinute_iff (t : Time) : t.WholeMinute ↔ t.wall % 60000000000 = 0 := by
  simp only [Time.WholeMinute, Time.Second, Time.Nanosecond]; omega

/-- What the loop returns matches, is on a minute boundary at or after the start of the
loop, and is the first such time. -/
theorem nextLoop_sound (cron : Crontab) :
    ∀ (fuel : Nat) (next t : Time), next.wall % 60000000000 = 0 →
      nextLoop cron fuel next = some t →
      t.loc = next.loc ∧ t.wall % 60000000000 = 0 ∧ next.wall ≤ t.wall ∧ cron.Matches t ∧
        ∀ u : Time, next.wall ≤ u.wall → u.wall < t.wall → ¬ cron.Matches u := by
  intro fuel
  induction fuel with
  | zero => intro next t _ h; simp [nextLoop] at h
  | succ n ih =>
    intro next t hb h
    rw [nextLoop_succ] at h
    by_cases hm : cron.Matches next
    · rw [if_pos hm] at h
      cases h
      exact ⟨rfl, hb, le_refl _, hm, fun u h1 h2 => absurd h2 (not_lt.2 h1)⟩
    · rw [if_neg hm] at h
      obtain ⟨j1, j2, j3, j4⟩ := jump_spec cron next hb hm
      obtain ⟨r1, r2, r3, r4, r5⟩ := ih _ t j2 h
      refine ⟨r1.trans j1, r2, by omega, r4, ?_⟩
      intro u h1 h2
      by_cases hu : u.wall < (jump cron next).wall
      · exact j4 u h1 hu
      · exact r5 u (not_lt.1 hu) h2

/-- The loop returns as soon as the fuel exceeds the count of minutes up to some matching
time at or after its start. -/
theorem nextLoop_total (cron : Crontab) (u : Time) (hu : cron.Matches u) :
    ∀ (fuel : Nat) (next : Time), next.wall % 60000000000 = 0 → next.wall ≤ u.wall →
      (u.wall - next.wall) / 60000000000 < fuel → ∃ t, nextLoop cron fuel next = some t := by
  intro fuel
  induction fuel with
  | zero => intro next _ h1 h2; exfalso; omega
  | succ n ih =>
    intro next hb h1 h2
    rw [nextLoop_succ]
    by_cases hm : cron.Matches next
    · exact ⟨next, if_pos hm⟩
    · rw [if_neg hm]
      obtain ⟨_, j2, j3, j4⟩ := jump_spec cron next hb hm
      have hle : (jump cron next).wall ≤ u.wall := by
        by_contra hc
        exact j4 u h1 (not_le.1 hc) hu
      exact ih _ j2 hle (by omega)

theorem nextLoop_mono (cron : Crontab) :
    ∀ (fuel k : Nat) (next t : Time), nextLoop cron fuel next = some t →
      nextLoop cron (fuel + k) next = some t := by
  intro fuel
  induction fuel with
  | zero => intro k next t h; simp [nextLoop] at h
  | succ n ih =>
    intro k next t h
    rw [show n + 1 + k = (n + k) + 1 by omega, nextLoop_succ]
    rw [nextLoop_succ] at h
    by_cases hm : cron.Matches next
    · rw [if_pos hm] at h ⊢; exact h
    · rw [if_neg hm] at h ⊢; exact ih k _ t h

theorem nextFrom_eq (cron : Crontab) (fuel : Nat) (start : Time) :
    nextFrom cron fuel start = nextLoop cron fuel (searchStart start) := rfl

theorem searchStart_wall (start : Time) :
    (searchStart start).wall =
      start.wall + 60000000000 - (start.wall + 60000000000) % 60000000000 := by
  have := (start.Add Minute).trunc_minute
  rw [Time.wall_Add] at this
  simpa only [searchStart, Minute] using this

theorem searchStart_loc (start : Time) : (searchStart start).loc = start.loc := rfl

theorem wall_lt_iff (t u : Time) (h : t.loc = u.loc) : t.wall < u.wall ↔ t.ns < u.ns := by
  simp only [Time.wall, h]; omega

/-- Everything `nextFrom` guarantees of a returned time. -/
theorem nextFrom_sound (cron : Crontab) (fuel : Nat) (start t : Time)
    (h : nextFrom cron fuel start = some t) :
    t.loc = start.loc ∧ t.wall % 60000000000 = 0 ∧ start.wall < t.wall ∧ cron.Matches t ∧
      ∀ u : Time, u.wall % 60000000000 = 0 → start.wall < u.wall → u.wall < t.wall →
        ¬ cron.Matches u := by
  rw [nextFrom_eq] at h
  have hw := searchStart_wall start
  obtain ⟨r1, r2, r3, r4, r5⟩ := nextLoop_sound cron fuel _ t (by rw [hw]; omega) h
  refine ⟨r1.trans (searchStart_loc start), r2, by omega, r4, ?_⟩
  intro u hu h1 h2
  exact r5 u (by omega) h2

/-- The search returns when some whole-minute time after `start` matches. -/
theorem nextFrom_total (cron : Crontab) (start u : Time) (hu : cron.Matches u)
    (hb : u.wall % 60000000000 = 0) (hlt : start.wall < u.wall) (fuel : Nat)
    (hf : (u.wall - start.wall) / 60000000000 < fuel) :
    ∃ t, nextFrom cron fuel start = some t := by
  rw [nextFrom_eq]
  have hw := searchStart_wall start
  exact nextLoop_total cron u hu fuel _ (by rw [hw]; omega) (by omega) (by omega)

/-! ## The five field parsers share one shape -/

theorem parseField_eq_parseAny (f : cronField) (fuel : Nat) (p : cronParser) (cron : Crontab) :
    p.parseField f fuel cron = p.parseAny f fuel cron := by
  cases f <;>
    simp only [cronParser.parseField, cronParser.parseAny, cronParser.parseMinutes,
      cronParser.parseHours, cronParser.parseDaysOfMonth, cronParser.parseMonths,
      cronParser.parseDaysOfWeek, cronField.bound, cronField.names, cronField.nameError,
      Crontab.set, reduceCtorEq, if_false, if_true]

/-! ## The ring of tokens -/

theorem Consume_fst (p : cronParser) (t : cronToken) (h : p.Consume.1 = .ok t) : t = p.L 0 := by
  simp only [cronParser.Consume] at h
  split at h
  · simp at h
  · simp only [Except.ok.injEq] at h; exact h.symm

theorem Consume_shift (p : cronParser) (hp : p.WF) :
    p.Consume.2.WF ∧ p.Consume.2.L 0 = p.L 1 ∧ p.Consume.2.L 1 = p.L 2 ∧
      p.Consume.2.L 2 = p.L 3 ∧ p.Consume.2.L 3 = p.L 4 := by
  obtain ⟨lexer, la, cap, head⟩ := p
  obtain ⟨h1, h2, h3⟩ := hp
  simp only at h1 h2 h3
  subst h1
  match la, h3 with
  | [a, b, c, d, e], _ =>
    simp only [cronParser.Consume]
    split <;> (interval_cases head <;> simp [cronParser.WF, cronParser.L])

theorem Match_ok (p : cronParser) (t : cronTokenType) (h : (p.L 0).t = t) : p.Match t = .ok () := by
  simp [cronParser.Match, h]

theorem Match_error (p : cronParser) (t : cronTokenType) (h : (p.L 0).t ≠ t) :
    p.Match t = .error (.expected t (p.L 0)) := by
  simp [cronParser.Match, h]

theorem number_ok (p p2 : cronParser) (v : Int) (h : p.number = .ok (v, p2)) :
    (p.L 0).IntVal = .ok v ∧ p2 = p.Consume.2 := by
  simp only [cronParser.number, cronParser.Match, bind, Except.bind, pure, Except.pure] at h
  split at h
  · simp at h
  · split at h
    · simp at h
    · rename_i t ht
      have := Consume_fst p t ht
      subst this
      split at h
      · simp at h
      · rename_i w hw
        simp only [Except.ok.injEq, Prod.mk.injEq] at h
        exact ⟨h.1 ▸ hw, h.2.symm⟩

theorem IntVal_ok (t : cronToken) (v : Int) (h : t.IntVal = .ok v) : v = digitsVal t.v := by
  simp only [cronToken.IntVal, Atoi] at h
  split_ifs at h
  simp only [Except.ok.injEq] at h
  exact h.symm

theorem cronRange_ok (p p2 : cronParser) (v1 v2 : Int) (hp : p.WF)
    (h : p.cronRange = .ok (v1, v2, p2)) :
    (p.L 0).IntVal = .ok v1 ∧ (p.L 2).IntVal = .ok v2 ∧ p2.WF := by
  obtain ⟨w1, _, s1, _, _⟩ := Consume_shift p hp
  obtain ⟨w2, s2, _, _, _⟩ := Consume_shift _ w1
  obtain ⟨w3, _, _, _, _⟩ := Consume_shift _ w2
  simp only [cronParser.cronRange, cronParser.Match, bind, Except.bind, pure, Except.pure] at h
  split at h
  · cases h
  split at h
  · cases h
  rename_i t1 ht1
  split at h
  · cases h
  rename_i a ha
  split at h
  · cases h
  split at h
  · cases h
  split at h
  · cases h
  split at h
  · cases h
  rename_i t3 ht3
  split at h
  · cases h
  rename_i b hb
  simp only [Except.ok.injEq, Prod.mk.injEq] at h
  obtain ⟨rfl, rfl, rfl⟩ := h
  have e1 := Consume_fst _ _ ht1
  have e3 := Consume_fst _ _ ht3
  rw [s2, s1] at e3
  subst e1 e3
  exact ⟨ha, hb, w3⟩

theorem stepedRange_ok (p p2 : cronParser) (v1 v2 v3 : Int) (hp : p.WF)
    (h : p.stepedRange = .ok (v1, v2, v3, p2)) :
    (p.L 0).IntVal = .ok v1 ∧ (p.L 2).IntVal = .ok v2 ∧ p2.WF := by
  obtain ⟨w1, _, s1, _, _⟩ := Consume_shift p hp
  obtain ⟨w2, s2, _, _, _⟩ := Consume_shift _ w1
  obtain ⟨w3, _, _, _, _⟩ := Consume_shift _ w2
  obtain ⟨w4, _, _, _, _⟩ := Consume_shift _ w3
  obtain ⟨w5, _, _, _, _⟩ := Consume_shift _ w4
  simp only [cronParser.stepedRange, cronParser.Match, bind, Except.bind, pure, Except.pure] at h
  split at h
  · cases h
  split at h
  · cases h
  rename_i t1 ht1
  split at h
  · cases h
  rename_i a ha
  split at h
  · cases h
  split at h
  · cases h
  split at h
  · cases h
  split at h
  · cases h
  rename_i t3 ht3
  split at h
  · cases h
  rename_i b hb
  split at h
  · cases h
  split at h
  · cases h
  split at h
  · cases h
  split at h
  · cases h
  split at h
  · cases h
  simp only [Except.ok.injEq, Prod.mk.injEq] at h
  obtain ⟨rfl, rfl, rfl, rfl⟩ := h
  have e1 := Consume_fst _ _ ht1
  have e3 := Consume_fst _ _ ht3
  rw [s2, s1] at e3
  subst e1 e3
  exact ⟨ha, hb, w5⟩

theorem number_WF (p p2 : cronParser) (v : Int) (hp : p.WF) (h : p.number = .ok (v, p2)) :
    p2.WF := by
  rw [(number_ok p p2 v h).2]; exact (Consume_shift p hp).1

theorem word_WF (p p2 : cronParser) (v : List Nat) (hp : p.WF) (h : p.word = .ok (v, p2)) :
    p2.WF := by
  simp only [cronParser.word, cronParser.Match, bind, Except.bind, pure, Except.pure] at h
  split at h
  · cases h
  split at h
  · cases h
  simp only [Except.ok.injEq, Prod.mk.injEq] at h
  rw [← h.2]; exact (Consume_shift p hp).1

theorem asterisk_WF (p p2 : cronParser) (hp : p.WF) (h : p.asterisk = .ok p2) : p2.WF := by
  simp only [cronParser.asterisk, cronParser.Match, bind, Except.bind, pure, Except.pure] at h
  split at h
  · cases h
  split at h
  · cases h
  simp only [Except.ok.injEq] at h
  rw [← h]; exact (Consume_shift p hp).1

theorem stepedAsterisk_WF (p p2 : cronParser) (v : Int) (hp : p.WF)
    (h : p.stepedAsterisk = .ok (v, p2)) : p2.WF := by
  obtain ⟨w1, _⟩ := Consume_shift p hp
  obtain ⟨w2, _⟩ := Consume_shift _ w1
  obtain ⟨w3, _⟩ := Consume_shift _ w2
  simp only [cronParser.stepedAsterisk, cronParser.Match, bind, Except.bind, pure,
    Except.pure] at h
  split at h
  · cases h
  split at h
  · cases h
  split at h
  · cases h
  split at h
  · cases h
  split at h
  · cases h
  split at h
  · cases h
  split at h
  · cases h
  simp only [Except.ok.injEq, Prod.mk.injEq] at h
  rw [← h.2]; exact w3

theorem list_WF : ∀ (fuel : Nat) (p p2 : cronParser) (c s : List Int), p.WF →
    p.list fuel c = .ok (s, p2) → p2.WF := by
  intro fuel
  induction fuel with
  | zero => intro p p2 c s _ h; simp [cronParser.list] at h
  | succ n ih =>
    intro p p2 c s hp h
    obtain ⟨w1, _⟩ := Consume_shift p hp
    obtain ⟨w2, _⟩ := Consume_shift _ w1
    obtain ⟨w3, _⟩ := Consume_shift _ w2
    simp only [cronParser.list] at h
    split at h
    · cases h
    split at h
    · cases h
    rename_i t1 q hq
    have hq2 : q = p.Consume.2 := by rw [hq]
    subst hq2
    split at h
    · cases h
    rename_i v1 hv1
    by_cases c1 : v1 < 0 ∨ v1 > 59
    · rw [if_pos c1] at h; cases h
    rw [if_neg c1] at h
    split at h
    · cases h
    by_cases c2 : (p.Consume.2.Consume.2.L 1).t = cronTokenType.Comma
    · rw [if_pos c2] at h
      exact ih _ _ _ _ w2 h
    rw [if_neg c2] at h
    split at h
    · cases h
    split at h
    · cases h
    rename_i t2 q2 hq2
    have e : q2 = p.Consume.2.Consume.2.Consume.2 := by rw [hq2]
    subst e
    split at h
    · cases h
    rename_i v2 hv2
    by_cases c3 : v2 < 0 ∨ v2 > 59
    · rw [if_pos c3] at h; cases h
    rw [if_neg c3] at h
    simp only [Outcome.ok.injEq, Prod.mk.injEq] at h
    rw [← h.2]; exact w3

/-! ## What a field parser does to the Crontab and the ring -/

theorem Crontab.get_set (c : Crontab) (f : cronField) (s : List Int) : (c.set f s).get f = s := by
  cases f <;> rfl

theorem Crontab.get_set_ne (c : Crontab) (f g : cronField) (s : List Int) (h : g ≠ f) :
    (c.set f s).get g = c.get g := by
  cases f <;> cases g <;> first | rfl | exact absurd rfl h

/-- A field parser that succeeds replaces the set of its own field and keeps the ring
well formed. -/
theorem parseAny_ok (f : cronField) (fuel : Nat) (p p2 : cronParser) (cron c2 : Crontab)
    (h : p.parseAny f fuel cron = .ok (c2, p2)) :
    (∃ s, c2 = cron.set f s) ∧ (p.WF → p2.WF) := by
  simp only [cronParser.parseAny] at h
  by_cases a1 : (p.L 0).t = cronTokenType.Asterisk
  · rw [if_pos a1] at h
    by_cases a2 : (p.L 1).t = cronTokenType.Slash
    · rw [if_pos a2] at h
      split at h
      · cases h
      rename_i step q hq
      split at h
      · cases h
      simp only [Outcome.ok.injEq, Prod.mk.injEq] at h
      exact ⟨⟨_, h.1.symm⟩, fun hp => h.2 ▸ stepedAsterisk_WF _ _ _ hp hq⟩
    · rw [if_neg a2] at h
      split at h
      · cases h
      rename_i q hq
      by_cases a3 : f = cronField.week
      · rw [if_pos a3] at h
        simp only [Outcome.ok.injEq, Prod.mk.injEq] at h
        exact ⟨⟨_, h.1.symm⟩, fun hp => h.2 ▸ asterisk_WF _ _ hp hq⟩
      · rw [if_neg a3] at h
        split at h
        · cases h
        simp only [Outcome.ok.injEq, Prod.mk.injEq] at h
        exact ⟨⟨_, h.1.symm⟩, fun hp => h.2 ▸ asterisk_WF _ _ hp hq⟩
  rw [if_neg a1] at h
  by_cases a4 : (p.L 0).t = cronTokenType.Number
  · rw [if_pos a4] at h
    by_cases a5 : (p.L 1).t = cronTokenType.Hyphen
    · rw [if_pos a5] at h
      by_cases a6 : (p.L 3).t = cronTokenType.Slash
      · rw [if_pos a6] at h
        split at h
        · cases h
        rename_i v1 v2 v3 q hq
        by_cases b1 : v1 < 0 ∨ v1 > f.bound
        · rw [if_pos b1] at h; cases h
        rw [if_neg b1] at h
        by_cases b2 : v2 < 0 ∨ v2 > f.bound
        · rw [if_pos b2] at h; cases h
        rw [if_neg b2] at h
        by_cases b3 : v1 > v2
        · rw [if_pos b3] at h; cases h
        rw [if_neg b3] at h
        split at h
        · cases h
        simp only [Outcome.ok.injEq, Prod.mk.injEq] at h
        exact ⟨⟨_, h.1.symm⟩, fun hp => h.2 ▸ (stepedRange_ok _ _ _ _ _ hp hq).2.2⟩
      · rw [if_neg a6] at h
        split at h
        · cases h
        rename_i v1 v2 q hq
        by_cases b1 : v1 < 0 ∨ v1 > f.bound
        · rw [if_pos b1] at h; cases h
        rw [if_neg b1] at h
        by_cases b2 : v2 < 0 ∨ v2 > f.bound
        · rw [if_pos b2] at h; cases h
        rw [if_neg b2] at h
        by_cases b3 : v1 > v2
        · rw [if_pos b3] at h; cases h
        rw [if_neg b3] at h
        split at h
        · cases h
        simp only [Outcome.ok.injEq, Prod.mk.injEq] at h
        exact ⟨⟨_, h.1.symm⟩, fun hp => h.2 ▸ (cronRange_ok _ _ _ _ hp hq).2.2⟩
    · rw [if_neg a5] at h
      by_cases a7 : (p.L 1).t = cronTokenType.Comma
      · rw [if_pos a7] at h
        split at h
        · cases h
        · cases h
        rename_i s q hq
        simp only [Outcome.ok.injEq, Prod.mk.injEq] at h
        exact ⟨⟨_, h.1.symm⟩, fun hp => h.2 ▸ list_WF _ _ _ _ _ hp hq⟩
      · rw [if_neg a7] at h
        split at h
        · cases h
        rename_i v q hq
        by_cases b1 : v < 0 ∨ v > f.bound
        · rw [if_pos b1] at h; cases h
        rw [if_neg b1] at h
        simp only [Outcome.ok.injEq, Prod.mk.injEq] at h
        exact ⟨⟨_, h.1.symm⟩, fun hp => h.2 ▸ number_WF _ _ _ hp hq⟩
  rw [if_neg a4] at h
  split at h
  · cases h
  by_cases a8 : (p.L 0).t = cronTokenType.Word
  · rw [if_pos a8] at h
    split at h
    · cases h
    rename_i v q hq
    split at h
    · cases h
    simp only [Outcome.ok.injEq, Prod.mk.injEq] at h
    exact ⟨⟨_, h.1.symm⟩, fun hp => h.2 ▸ word_WF _ _ _ hp hq⟩
  · rw [if_neg a8] at h; cases h

theorem makeRangeLoop_mono (max step : Int) :
    ∀ (fuel k : Nat) (i : Int) (s : List Int), makeRangeLoop max step fuel i = some s →
      makeRangeLoop max step (fuel + k) i = some s := by
  intro fuel
  induction fuel with
  | zero => intro k i s h; simp [makeRangeLoop] at h
  | succ n ih =>
    intro k i s h
    rw [show n + 1 + k = (n + k) + 1 by omega]
    simp only [makeRangeLoop] at h ⊢
    by_cases c : i ≤ max
    · rw [if_pos c] at h ⊢
      cases hr : makeRangeLoop max step n (int8 (i + step)) with
      | none => rw [hr] at h; simp at h
      | some r => rw [hr] at h; rw [ih k _ r hr]; exact h
    · rw [if_neg c] at h ⊢; exact h

/-- The result of `makeRangeOfInt8` does not depend on the fuel once there is one. -/
theorem makeRangeOfInt8_fuel (f1 f2 : Nat) (lo hi step : Int) (s1 s2 : List Int)
    (h1 : makeRangeOfInt8 f1 lo hi step = some s1)
    (h2 : makeRangeOfInt8 f2 lo hi step = some s2) : s1 = s2 := by
  simp only [makeRangeOfInt8] at h1 h2
  rcases Nat.le_total f1 f2 with h | h
  · have := makeRangeLoop_mono hi (int8 step) f1 (f2 - f1) lo s1 h1
    rw [show f1 + (f2 - f1) = f2 by omega, h2] at this
    exact (Option.some.inj this).symm
  · have := makeRangeLoop_mono hi (int8 step) f2 (f1 - f2) lo s2 h2
    rw [show f2 + (f1 - f2) = f1 by omega, h1] at this
    exact Option.some.inj this

/-- A bare `*` gives the whole bound of the field, and nothing for the day of week. -/
theorem parseAny_star (f : cronField) (fuel : Nat) (p p2 : cronParser) (cron c2 : Crontab)
    (h0 : (p.L 0).t = .Asterisk) (h1 : (p.L 1).t ≠ .Slash)
    (h : p.parseAny f fuel cron = .ok (c2, p2)) :
    c2.get f = if f = .week then [] else upTo f.bound.toNat := by
  simp only [cronParser.parseAny] at h
  rw [if_pos h0, if_neg h1] at h
  split at h
  · cases h
  by_cases a3 : f = cronField.week
  · rw [if_pos a3] at h ⊢
    simp only [Outcome.ok.injEq, Prod.mk.injEq] at h
    rw [← h.1, Crontab.get_set]
  · rw [if_neg a3] at h ⊢
    split at h
    · cases h
    rename_i s hs
    simp only [Outcome.ok.injEq, Prod.mk.injEq] at h
    rw [← h.1, Crontab.get_set]
    have key : makeRangeOfInt8 100 (int8 0) (int8 f.bound) 1 = some (upTo f.bound.toNat) := by
      cases f <;> first | exact absurd rfl a3 | decide
    exact makeRangeOfInt8_fuel _ _ _ _ _ _ _ hs key

/-- A field that is one number above the bound of the field is an error. -/
theorem parseAny_number_error (f : cronField) (fuel : Nat) (p : cronParser) (cron : Crontab)
    (h0 : (p.L 0).t = .Number) (h1 : (p.L 1).t ≠ .Hyphen) (h2 : (p.L 1).t ≠ .Comma)
    (hv : f.bound < digitsVal (p.L 0).v) :
    ∃ e, p.parseAny f fuel cron = .error e := by
  simp only [cronParser.parseAny]
  rw [if_neg (by rw [h0]; decide), if_pos h0, if_neg h1, if_neg h2]
  split
  · exact ⟨_, rfl⟩
  rename_i v q hq
  have hv2 := IntVal_ok _ _ (number_ok _ _ _ hq).1
  rw [if_pos (Or.inr (by omega))]
  exact ⟨_, rfl⟩

/-- A field that begins as a range whose first number is above the second is an error. -/
theorem parseAny_range_error (f : cronField) (fuel : Nat) (p : cronParser) (cron : Crontab)
    (hp : p.WF) (h0 : (p.L 0).t = .Number) (h1 : (p.L 1).t = .Hyphen)
    (hv : digitsVal (p.L 2).v < digitsVal (p.L 0).v) :
    ∃ e, p.parseAny f fuel cron = .error e := by
  simp only [cronParser.parseAny]
  rw [if_neg (by rw [h0]; decide), if_pos h0, if_pos h1]
  by_cases a6 : (p.L 3).t = cronTokenType.Slash
  · rw [if_pos a6]
    split
    · exact ⟨_, rfl⟩
    rename_i v1 v2 v3 q hq
    obtain ⟨e1, e2, _⟩ := stepedRange_ok _ _ _ _ _ hp hq
    have := IntVal_ok _ _ e1
    have := IntVal_ok _ _ e2
    by_cases b1 : v1 < 0 ∨ v1 > f.bound
    · rw [if_pos b1]; exact ⟨_, rfl⟩
    rw [if_neg b1]
    by_cases b2 : v2 < 0 ∨ v2 > f.bound
    · rw [if_pos b2]; exact ⟨_, rfl⟩
    rw [if_neg b2, if_pos (by omega)]
    exact ⟨_, rfl⟩
  · rw [if_neg a6]
    split
    · exact ⟨_, rfl⟩
    rename_i v1 v2 q hq
    obtain ⟨e1, e2, _⟩ := cronRange_ok _ _ _ _ hp hq
    have := IntVal_ok _ _ e1
    have := IntVal_ok _ _ e2
    by_cases b1 : v1 < 0 ∨ v1 > f.bound
    · rw [if_pos b1]; exact ⟨_, rfl⟩
    rw [if_neg b1]
    by_cases b2 : v2 < 0 ∨ v2 > f.bound
    · rw [if_pos b2]; exact ⟨_, rfl⟩
    rw [if_neg b2, if_pos (by omega)]
    exact ⟨_, rfl⟩

/-! ## `NewCrontab` field by field -/

theorem fillLookahead_length : ∀ (n : Nat) (r r2 : List Nat) (ts : List cronToken),
    fillLookahead n r = .ok (ts, r2) → ts.length = n := by
  intro n
  induction n with
  | zero => intro r r2 ts h; simp only [fillLookahead, Except.ok.injEq, Prod.mk.injEq] at h
            rw [← h.1]; rfl
  | succ n ih =>
    intro r r2 ts h
    simp only [fillLookahead] at h
    split at h
    · cases h
    split at h
    · cases h
    rename_i ts2 r3 h3
    simp only [Except.ok.injEq, Prod.mk.injEq] at h
    rw [← h.1, List.length_cons, ih _ _ _ h3]

theorem newCronParser_WF (s : List Nat) (p : cronParser) (h : newCronParser s 5 = .ok p) :
    p.WF := by
  simp only [newCronParser] at h
  split at h
  · cases h
  rename_i ts r hts
  simp only [Except.ok.injEq] at h
  subst h
  exact ⟨rfl, Nat.zero_lt_succ 4, fillLookahead_length _ _ _ _ hts⟩

theorem andThen_ok (o : Outcome (Crontab × cronParser))
    (k : cronParser → Crontab → Outcome (Crontab × cronParser)) (c : Crontab) (p : cronParser)
    (h : o.andThen k = .ok (c, p)) : ∃ c0 p0, o = .ok (c0, p0) ∧ k p0 c0 = .ok (c, p) := by
  cases o with
  | ok a => exact ⟨a.1, a.2, rfl, h⟩
  | error e => cases h
  | timeout => cases h

/-- The field after `f` in the order of `Parse`. -/
theorem fieldStart_next (fuel : Nat) (s : List Nat) :
    fieldStart fuel s .hour = (fieldStart fuel s .minute).andThen (cronParser.parseField .minute fuel) ∧
    fieldStart fuel s .day = (fieldStart fuel s .hour).andThen (cronParser.parseField .hour fuel) ∧
    fieldStart fuel s .month = (fieldStart fuel s .day).andThen (cronParser.parseField .day fuel) ∧
    fieldStart fuel s .week = (fieldStart fuel s .month).andThen (cronParser.parseField .month fuel) :=
  ⟨rfl, rfl, rfl, rfl⟩

theorem NewCrontab_eq (fuel : Nat) (s : List Nat) :
    NewCrontab fuel s =
      match (fieldStart fuel s .week).andThen (cronParser.parseField .week fuel) with
      | .ok (cron, _) =>
        .ok { cron with
          Minutes := sortInt8Slice cron.Minutes
          Hours := sortInt8Slice cron.Hours
          DaysOfMonth := sortInt8Slice cron.DaysOfMonth
          Months := sortInt8Slice cron.Months
          DaysOfWeek := sortInt8Slice cron.DaysOfWeek }
      | .error e => .error e
      | .timeout => .timeout := by
  simp only [NewCrontab, fieldStart, atMinutes, cronParser.Parse, cronParser.parseField]
  cases newCronParser s 5 with
  | error e => rfl
  | ok p0 =>
    simp only [Outcome.andThen]
    cases cronParser.parseMinutes fuel p0 ⟨[], [], [], [], [], s⟩ with
    | error e => rfl
    | timeout => rfl
    | ok a1 =>
      obtain ⟨c1, p1⟩ := a1
      simp only
      cases cronParser.parseHours fuel p1 c1 with
      | error e => rfl
      | timeout => rfl
      | ok a2 =>
        obtain ⟨c2, p2⟩ := a2
        simp only
        cases cronParser.parseDaysOfMonth fuel p2 c2 with
        | error e => rfl
        | timeout => rfl
        | ok a3 =>
          obtain ⟨c3, p3⟩ := a3
          simp only
          cases cronParser.parseMonths fuel p3 c3 with
          | error e => rfl
          | timeout => rfl
          | ok a4 =>
            obtain ⟨c4, p4⟩ := a4
            simp only [cronParser.parseField]
            cases cronParser.parseDaysOfWeek fuel p4 c4 with
            | error e => rfl
            | timeout => rfl
            | ok a5 => rfl

theorem fieldStart_WF (fuel : Nat) (s : List Nat) (f : cronField) (c : Crontab)
    (p : cronParser) (h : fieldStart fuel s f = .ok (c, p)) : p.WF := by
  have hmin : ∀ c p, fieldStart fuel s .minute = .ok (c, p) → p.WF := by
    intro c p h
    simp only [fieldStart, atMinutes] at h
    split at h
    · cases h
    rename_i q hq
    simp only [Outcome.ok.injEq, Prod.mk.injEq] at h
    exact h.2 ▸ newCronParser_WF s q hq
  have step : ∀ (g : cronField) (o : Outcome (Crontab × cronParser)),
      (∀ c p, o = .ok (c, p) → p.WF) →
      ∀ c p, o.andThen (cronParser.parseField g fuel) = .ok (c, p) → p.WF := by
    intro g o ho c p h
    obtain ⟨c0, p0, e0, e1⟩ := andThen_ok _ _ _ _ h
    rw [parseField_eq_parseAny] at e1
    exact (parseAny_ok _ _ _ _ _ _ e1).2 (ho _ _ e0)
  obtain ⟨e1, e2, e3, e4⟩ := fieldStart_next fuel s
  have hh := step .minute _ hmin
  rw [← e1] at hh
  have hd := step .hour _ hh
  rw [← e2] at hd
  have hmo := step .day _ hd
  rw [← e3] at hmo
  have hw := step .month _ hmo
  rw [← e4] at hw
  cases f
  · exact hmin c p h
  · exact hh c p h
  · exact hd c p h
  · exact hmo c p h
  · exact hw c p h

/-- An error of a field parser, reached without error before it, is the answer of
`NewCrontab`. -/
theorem NewCrontab_error_of_field (fuel : Nat) (s : List Nat) (f : cronField) (c : Crontab)
    (p : cronParser) (e : CronError) (h : fieldStart fuel s f = .ok (c, p))
    (he : p.parseField f fuel c = .error e) : NewCrontab fuel s = .error e := by
  obtain ⟨e1, e2, e3, e4⟩ := fieldStart_next fuel s
  rw [NewCrontab_eq]
  cases f
  · rw [e4, e3, e2, e1, h]; simp only [Outcome.andThen, he]
  · rw [e4, e3, e2, h]; simp only [Outcome.andThen, he]
  · rw [e4, e3, h]; simp only [Outcome.andThen, he]
  · rw [e4, h]; simp only [Outcome.andThen, he]
  · rw [h]; simp only [Outcome.andThen, he]

theorem parseField_frame (g f : cronField) (fuel : Nat) (p p2 : cronParser) (c c2 : Crontab)
    (h : p.parseField g fuel c = .ok (c2, p2)) (hne : f ≠ g) : c2.get f = c.get f := by
  rw [parseField_eq_parseAny] at h
  obtain ⟨⟨s, hs⟩, _⟩ := parseAny_ok _ _ _ _ _ _ h
  rw [hs, Crontab.get_set_ne _ _ _ _ hne]

/-- In an accepted expression every field parser succeeded, and the set of a field in the
answer is the sorted set its parser made. -/
theorem NewCrontab_ok_field (fuel : Nat) (s : List Nat) (c : Crontab) (f : cronField)
    (c0 : Crontab) (p : cronParser) (h : NewCrontab fuel s = .ok c)
    (hs : fieldStart fuel s f = .ok (c0, p)) :
    ∃ c1 p1, p.parseField f fuel c0 = .ok (c1, p1) ∧ c.get f = sortInt8Slice (c1.get f) := by
  obtain ⟨e1, e2, e3, e4⟩ := fieldStart_next fuel s
  rw [NewCrontab_eq] at h
  split at h
  · rename_i c5 p5 h5
    simp only [Outcome.ok.injEq] at h
    have hget : ∀ g, c.get g = sortInt8Slice (c5.get g) := by
      intro g; rw [← h]; cases g <;> rfl
    obtain ⟨c4, p4, s4, k4⟩ := andThen_ok _ _ _ _ h5
    have s4' := s4
    rw [e4] at s4'
    obtain ⟨c3, p3, s3, k3⟩ := andThen_ok _ _ _ _ s4'
    have s3' := s3
    rw [e3] at s3'
    obtain ⟨c2, p2, s2, k2⟩ := andThen_ok _ _ _ _ s3'
    have s2' := s2
    rw [e2] at s2'
    obtain ⟨c1, p1, s1, k1⟩ := andThen_ok _ _ _ _ s2'
    have s1' := s1
    rw [e1] at s1'
    obtain ⟨d0, q0, s0, k0⟩ := andThen_ok _ _ _ _ s1'
    cases f
    · rw [s0] at hs
      simp only [Outcome.ok.injEq, Prod.mk.injEq] at hs
      obtain ⟨rfl, rfl⟩ := hs
      refine ⟨_, _, k0, ?_⟩
      rw [hget, parseField_frame _ _ _ _ _ _ _ k4 (by decide),
        parseField_frame _ _ _ _ _ _ _ k3 (by decide),
        parseField_frame _ _ _ _ _ _ _ k2 (by decide),
        parseField_frame _ _ _ _ _ _ _ k1 (by decide)]
    · rw [s1] at hs
      simp only [Outcome.ok.injEq, Prod.mk.injEq] at hs
      obtain ⟨rfl, rfl⟩ := hs
      refine ⟨_, _, k1, ?_⟩
      rw [hget, parseField_frame _ _ _ _ _ _ _ k4 (by decide),
        parseField_frame _ _ _ _ _ _ _ k3 (by decide),
        parseField_frame _ _ _ _ _ _ _ k2 (by decide)]
    · rw [s2] at hs
      simp only [Outcome.ok.injEq, Prod.mk.injEq] at hs
      obtain ⟨rfl, rfl⟩ := hs
      refine ⟨_, _, k2, ?_⟩
      rw [hget, parseField_frame _ _ _ _ _ _ _ k4 (by decide),
        parseField_frame _ _ _ _ _ _ _ k3 (by decide)]
    · rw [s3] at hs
      simp only [Outcome.ok.injEq, Prod.mk.injEq] at hs
      obtain ⟨rfl, rfl⟩ := hs
      refine ⟨_, _, k3, ?_⟩
      rw [hget, parseField_frame _ _ _ _ _ _ _ k4 (by decide)]
    · rw [s4] at hs
      simp only [Outcome.ok.injEq, Prod.mk.injEq] at hs
      obtain ⟨rfl, rfl⟩ := hs
      exact ⟨_, _, k4, hget _⟩
  · cases h
  · cases h

/-- In an accepted expression the parser came to every field. -/
theorem NewCrontab_ok_fieldStart (fuel : Nat) (s : List Nat) (c : Crontab) (f : cronField)
    (h : NewCrontab fuel s = .ok c) : ∃ c0 p, fieldStart fuel s f = .ok (c0, p) := by
  obtain ⟨e1, e2, e3, e4⟩ := fieldStart_next fuel s
  rw [NewCrontab_eq] at h
  split at h
  · rename_i c5 p5 h5
    obtain ⟨c4, p4, s4, k4⟩ := andThen_ok _ _ _ _ h5
    have s4' := s4
    rw [e4] at s4'
    obtain ⟨c3, p3, s3, k3⟩ := andThen_ok _ _ _ _ s4'
    have s3' := s3
    rw [e3] at s3'
    obtain ⟨c2, p2, s2, k2⟩ := andThen_ok _ _ _ _ s3'
    have s2' := s2
    rw [e2] at s2'
    obtain ⟨c1, p1, s1, k1⟩ := andThen_ok _ _ _ _ s2'
    have s1' := s1
    rw [e1] at s1'
    obtain ⟨d0, q0, s0, k0⟩ := andThen_ok _ _ _ _ s1'
    cases f
    · exact ⟨_, _, s0⟩
    · exact ⟨_, _, s1⟩
    · exact ⟨_, _, s2⟩
    · exact ⟨_, _, s3⟩
    · exact ⟨_, _, s4⟩
  · cases h
  · cases h

/-! ## Small facts used by the claims -/

theorem mem_upTo (n : Nat) (x : Int) : x ∈ upTo n ↔ 0 ≤ x ∧ x ≤ n := by
  simp only [upTo, List.mem_map, List.mem_range]
  constructor
  · rintro ⟨a, ha, rfl⟩
    simp only [Int.ofNat_eq_coe]; omega
  · rintro ⟨h0, h1⟩
    exact ⟨x.toNat, by omega, by simp only [Int.ofNat_eq_coe]; omega⟩

theorem Time.ext_wall (t u : Time) (h1 : t.loc = u.loc) (h2 : t.wall = u.wall) : t = u := by
  cases t; cases u
  simp only [Time.wall] at h2
  simp only at h1
  subst h1
  simp only [Time.mk.injEq, and_true]
  omega


/-! ## The lexer, byte by byte -/
theorem skipSpaces_append (ws : List Nat) (b : Nat) (r : List Nat)
    (hws : ∀ x ∈ ws, isSpace x = true) (hb : isSpace b = false) :
    skipSpaces (ws ++ b :: r) = some (b, r) := by
  induction ws with
  | nil => simp [skipSpaces, hb]
  | cons x xs ih =>
    have hx : isSpace x = true := hws x (List.mem_cons_self _ _)
    simp only [List.cons_append, skipSpaces, hx, if_true]
    exact ih (fun y hy => hws y (List.mem_cons_of_mem _ hy))

theorem span_run (q : Nat → Bool) (ds rest : List Nat) (hds : ∀ x ∈ ds, q x = true)
    (hrest : ∀ x, rest.head? = some x → q x = false) :
    (ds ++ rest).span q = (ds, rest) := by
  induction ds with
  | nil =>
    cases rest with
    | nil => rfl
    | cons x xs =>
      have := hrest x rfl
      simp [List.span_eq_take_drop, List.takeWhile, List.dropWhile, this]
  | cons d ds ih =>
    have hd : q d = true := hds d (List.mem_cons_self _ _)
    have := ih (fun y hy => hds y (List.mem_cons_of_mem _ hy))
    simp only [List.span_eq_take_drop, Prod.mk.injEq] at this ⊢
    simp [List.takeWhile, List.dropWhile, hd, this.1, this.2]

theorem isDigit_not_space (b : Nat) (h : isDigit b = true) : isSpace b = false := by
  simp only [isDigit, decide_eq_true_eq] at h
  simp only [isSpace, Bool.or_eq_false_iff, beq_eq_false_iff_ne]
  omega

theorem skipSpaces_eq_dropWhile (r : List Nat) :
    skipSpaces r =
      match r.dropWhile isSpace with
      | [] => none
      | b :: r2 => some (b, r2) := by
  induction r with
  | nil => rfl
  | cons x xs ih =>
    by_cases hx : isSpace x = true
    · simp only [skipSpaces, hx, if_true, List.dropWhile_cons_of_pos hx]
      exact ih
    · simp only [skipSpaces, hx, if_false, List.dropWhile_cons_of_neg hx]
      simp

/-! ## Schedules whose month, day and hour sets admit every date -/

theorem nextFrom_fuel_unique (c : Crontab) (f1 f2 : Nat) (start a b : Time)
    (h1 : nextFrom c f1 start = some a) (h2 : nextFrom c f2 start = some b) : a = b := by
  rw [nextFrom_eq] at h1 h2
  have e1 := nextLoop_mono c f1 f2 _ a h1
  have e2 := nextLoop_mono c f2 f1 _ b h2
  rw [Nat.add_comm] at e2
  rw [e1] at e2
  exact Option.some.inj e2

/-- With every month, day and hour admitted, a time matches when its minute does. -/
theorem matches_of_minute (ms : List Int) (txt : List Nat) (t : Time) (h : t.Minute ∈ ms) :
    (⟨ms, upTo 23, upTo 31, upTo 12, [], txt⟩ : Crontab).Matches t := by
  refine ⟨?_, Or.inl ?_, ?_, h⟩
  · rw [mem_upTo, Time.Month_eq]; omega
  · rw [mem_upTo]; have := t.Day_bounds; omega
  · rw [mem_upTo]; simp only [Time.Hour]; omega

/-- For the quarter-hour schedule, the search from a time on a quarter hour gives the time
fifteen minutes later. -/
theorem quarter_next (txt : List Nat) (t1 : Time) (hb : t1.wall % 900000000000 = 0) :
    nextFrom ⟨[0, 15, 30, 45], upTo 23, upTo 31, upTo 12, [], txt⟩ 16 t1 =
      some (t1.Add (Minute * 15)) := by
  generalize hc : (⟨[0, 15, 30, 45], upTo 23, upTo 31, upTo 12, [], txt⟩ : Crontab) = c
  have hUw : (t1.Add (Minute * 15)).wall = t1.wall + 900000000000 := by
    rw [Time.wall_Add]; simp only [Minute]; omega
  have hUm : c.Matches (t1.Add (Minute * 15)) := by
    subst hc
    apply matches_of_minute
    simp only [Time.Minute, hUw, List.mem_cons, List.mem_singleton, List.not_mem_nil, or_false]
    omega
  obtain ⟨t, ht⟩ := nextFrom_total c t1 _ hUm (by omega) (by omega) 16 (by omega)
  rw [ht]
  obtain ⟨r1, r2, r3, r4, r5⟩ := nextFrom_sound c 16 t1 t ht
  have hle : t.wall ≤ (t1.Add (Minute * 15)).wall := by
    by_contra hc2
    exact r5 _ (by omega) (by omega) (not_le.1 hc2) hUm
  have hmin : t.Minute ∈ c.Minutes := r4.2.2.2
  subst hc
  simp only [List.mem_cons, List.mem_singleton, List.not_mem_nil, or_false, Time.Minute]
    at hmin
  congr 1
  refine Time.ext_wall t (t1.Add (Minute * 15)) r1 ?_
  omega

/-- For the quarter-hour schedule the search returns from every start, on a quarter
hour. -/
theorem quarter_first (txt : List Nat) (start : Time) :
    ∃ t1, nextFrom ⟨[0, 15, 30, 45], upTo 23, upTo 31, upTo 12, [], txt⟩ 16 start = some t1 ∧
      t1.wall % 900000000000 = 0 := by
  generalize hc : (⟨[0, 15, 30, 45], upTo 23, upTo 31, upTo 12, [], txt⟩ : Crontab) = c
  let u : Time := ⟨(start.wall / 900000000000 + 1) * 900000000000 - start.loc * 1000000000,
    start.loc⟩
  have huw : u.wall = (start.wall / 900000000000 + 1) * 900000000000 := by
    simp only [u, Time.wall]; omega
  have hum : c.Matches u := by
    subst hc
    apply matches_of_minute
    simp only [Time.Minute, huw, List.mem_cons, List.mem_singleton, List.not_mem_nil, or_false]
    omega
  obtain ⟨t, ht⟩ := nextFrom_total c start u hum (by omega) (by omega) 16 (by omega)
  refine ⟨t, ht, ?_⟩
  obtain ⟨_, r2, _, r4, _⟩ := nextFrom_sound c 16 start t ht
  have hmin : t.Minute ∈ c.Minutes := r4.2.2.2
  subst hc
  simp only [List.mem_cons, List.mem_singleton, List.not_mem_nil, or_false, Time.Minute]
    at hmin
  omega

/-! ## Sorting and names -/

theorem sortInt8Slice_sorted (s : List Int) : (sortInt8Slice s).Sorted (· ≤ ·) :=
  List.sorted_insertionSort (· ≤ ·) s

theorem sortInt8Slice_perm (s : List Int) : (sortInt8Slice s).Perm s :=
  List.perm_insertionSort (· ≤ ·) s

theorem lookup_nameTable (w : List Nat) :
    ∀ (names : List String) (first : Int),
      (nameTable names first).lookup w = nameNumber names first w := by
  intro names
  induction names with
  | nil => intro first; rfl
  | cons n rest ih =>
    intro first
    simp only [nameTable, nameNumber, List.lookup]
    by_cases h : w = bytes n
    · simp [h]
    · have : (w == bytes n) = false := by simpa using h
      simp only [this, if_neg h]
      exact ih (first + 1)

theorem lookup_eq_nameNumber (w : List Nat) :
    cronMonthMap.lookup w = nameNumber monthNames 1 w ∧
      cronWeekMap.lookup w = nameNumber weekNames 0 w := by
  have e1 : cronMonthMap = nameTable monthNames 1 := by decide
  have e2 : cronWeekMap = nameTable weekNames 0 := by decide
  rw [e1, e2]
  exact ⟨lookup_nameTable w _ _, lookup_nameTable w _ _⟩

theorem word_ok (p p2 : cronParser) (v : List Nat) (h : p.word = .ok (v, p2)) :
    v = (p.L 0).v ∧ p2 = p.Consume.2 := by
  simp only [cronParser.word, cronParser.Match, bind, Except.bind, pure, Except.pure] at h
  split at h
  · cases h
  split at h
  · cases h
  rename_i t ht
  simp only [Except.ok.injEq, Prod.mk.injEq] at h
  rw [← h.1, ← h.2, Consume_fst p t ht]
  exact ⟨rfl, rfl⟩

/-- A field that is a word gets the number the name table gives the lower-cased word, and
is an error when the table has none. -/
theorem parseAny_word (f : cronField) (fuel : Nat) (p : cronParser) (cron : Crontab)
    (names : List (List Nat × Int)) (hf : f.names = some names) (h0 : (p.L 0).t = .Word) :
    (∀ c2 p2, p.parseAny f fuel cron = .ok (c2, p2) →
      ∃ n, names.lookup (toLower (p.L 0).v) = some n ∧ c2.get f = [int8 n]) ∧
    (names.lookup (toLower (p.L 0).v) = none → ∃ e, p.parseAny f fuel cron = .error e) := by
  simp only [cronParser.parseAny]
  rw [if_neg (by rw [h0]; decide), if_neg (by rw [h0]; decide), hf]
  simp only [h0, if_true]
  constructor
  · intro c2 p2 h
    split at h
    · cases h
    rename_i v q hq
    obtain ⟨rfl, _⟩ := word_ok _ _ _ hq
    split at h
    · cases h
    rename_i n hn
    simp only [Outcome.ok.injEq, Prod.mk.injEq] at h
    exact ⟨n, hn, by rw [← h.1, Crontab.get_set]⟩
  · intro hnone
    split
    · exact ⟨_, rfl⟩
    rename_i v q hq
    obtain ⟨rfl, _⟩ := word_ok _ _ _ hq
    rw [hnone]
    exact ⟨_, rfl⟩

/-! ## Every step of a field parser is a `Consume` -/

theorem asterisk_closed (Q : cronParser → Prop) (p p2 : cronParser)
    (h : p.asterisk = .ok p2) (h1 : Q p.Consume.2) : Q p2 := by
  simp only [cronParser.asterisk, cronParser.Match, bind, Except.bind, pure, Except.pure] at h
  split at h
  · cases h
  split at h
  · cases h
  simp only [Except.ok.injEq] at h
  exact h ▸ h1

theorem stepedAsterisk_closed (Q : cronParser → Prop) (hQ : ∀ q, Q q → Q q.Consume.2)
    (p p2 : cronParser) (v : Int) (h : p.stepedAsterisk = .ok (v, p2)) (h1 : Q p.Consume.2) :
    Q p2 := by
  simp only [cronParser.stepedAsterisk, cronParser.Match, bind, Except.bind, pure,
    Except.pure] at h
  split at h
  · cases h
  split at h
  · cases h
  split at h
  · cases h
  split at h
  · cases h
  split at h
  · cases h
  split at h
  · cases h
  split at h
  · cases h
  simp only [Except.ok.injEq, Prod.mk.injEq] at h
  exact h.2 ▸ hQ _ (hQ _ h1)

theorem cronRange_closed (Q : cronParser → Prop) (hQ : ∀ q, Q q → Q q.Consume.2)
    (p p2 : cronParser) (v1 v2 : Int) (h : p.cronRange = .ok (v1, v2, p2))
    (h1 : Q p.Consume.2) : Q p2 := by
  simp only [cronParser.cronRange, cronParser.Match, bind, Except.bind, pure, Except.pure] at h
  split at h
  · cases h
  split at h
  · cases h
  split at h
  · cases h
  split at h
  · cases h
  split at h
  · cases h
  split at h
  · cases h
  split at h
  · cases h
  split at h
  · cases h
  simp only [Except.ok.injEq, Prod.mk.injEq] at h
  exact h.2.2 ▸ hQ _ (hQ _ h1)

theorem stepedRange_closed (Q : cronParser → Prop) (hQ : ∀ q, Q q → Q q.Consume.2)
    (p p2 : cronParser) (v1 v2 v3 : Int) (h : p.stepedRange = .ok (v1, v2, v3, p2))
    (h1 : Q p.Consume.2) : Q p2 := by
  simp only [cronParser.stepedRange, cronParser.Match, bind, Except.bind, pure, Except.pure] at h
  split at h
  · cases h
  split at h
  · cases h
  split at h
  · cases h
  split at h
  · cases h
  split at h
  · cases h
  split at h
  · cases h
  split at h
  · cases h
  split at h
  · cases h
  split at h
  · cases h
  split at h
  · cases h
  split at h
  · cases h
  split at h
  · cases h
  split at h
  · cases h
  simp only [Except.ok.injEq, Prod.mk.injEq] at h
  exact h.2.2.2 ▸ hQ _ (hQ _ (hQ _ (hQ _ h1)))

theorem list_closed (Q : cronParser → Prop) (hQ : ∀ q, Q q → Q q.Consume.2) :
    ∀ (fuel : Nat) (p p2 : cronParser) (c s : List Int),
      p.list fuel c = .ok (s, p2) → Q p.Consume.2 → Q p2 := by
  intro fuel
  induction fuel with
  | zero => intro p p2 c s h; simp [cronParser.list] at h
  | succ n ih =>
    intro p p2 c s h h1
    simp only [cronParser.list] at h
    split at h
    · cases h
    split at h
    · cases h
    rename_i t1 q hq
    have hq2 : q = p.Consume.2 := by rw [hq]
    subst hq2
    split at h
    · cases h
    rename_i v1 hv1
    by_cases c1 : v1 < 0 ∨ v1 > 59
    · rw [if_pos c1] at h; cases h
    rw [if_neg c1] at h
    split at h
    · cases h
    by_cases c2 : (p.Consume.2.Consume.2.L 1).t = cronTokenType.Comma
    · rw [if_pos c2] at h
      exact ih _ _ _ _ h (hQ _ (hQ _ h1))
    rw [if_neg c2] at h
    split at h
    · cases h
    split at h
    · cases h
    rename_i t2 q2 hq2
    have e : q2 = p.Consume.2.Consume.2.Consume.2 := by rw [hq2]
    subst e
    split at h
    · cases h
    rename_i v2 hv2
    by_cases c3 : v2 < 0 ∨ v2 > 59
    · rw [if_pos c3] at h; cases h
    rw [if_neg c3] at h
    simp only [Outcome.ok.injEq, Prod.mk.injEq] at h
    exact h.2 ▸ hQ _ (hQ _ h1)

/-- A field parser that succeeds leaves the parser as its first `Consume` and some more
leave it: what holds after one `Consume` and is kept by every `Consume` holds at the end. -/
theorem parseAny_closed (Q : cronParser → Prop) (hQ : ∀ q, Q q → Q q.Consume.2)
    (f : cronField) (fuel : Nat) (p p2 : cronParser) (cron c2 : Crontab)
    (h : p.parseAny f fuel cron = .ok (c2, p2)) (h1 : Q p.Consume.2) : Q p2 := by
  simp only [cronParser.parseAny] at h
  by_cases a1 : (p.L 0).t = cronTokenType.Asterisk
  · rw [if_pos a1] at h
    by_cases a2 : (p.L 1).t = cronTokenType.Slash
    · rw [if_pos a2] at h
      split at h
      · cases h
      rename_i step q hq
      split at h
      · cases h
      simp only [Outcome.ok.injEq, Prod.mk.injEq] at h
      exact h.2 ▸ stepedAsterisk_closed Q hQ _ _ _ hq h1
    · rw [if_neg a2] at h
      split at h
      · cases h
      rename_i q hq
      by_cases a3 : f = cronField.week
      · rw [if_pos a3] at h
        simp only [Outcome.ok.injEq, Prod.mk.injEq] at h
        exact h.2 ▸ asterisk_closed Q _ _ hq h1
      · rw [if_neg a3] at h
        split at h
        · cases h
        simp only [Outcome.ok.injEq, Prod.mk.injEq] at h
        exact h.2 ▸ asterisk_closed Q _ _ hq h1
  rw [if_neg a1] at h
  by_cases a4 : (p.L 0).t = cronTokenType.Number
  · rw [if_pos a4] at h
    by_cases a5 : (p.L 1).t = cronTokenType.Hyphen
    · rw [if_pos a5] at h
      by_cases a6 : (p.L 3).t = cronTokenType.Slash
      · rw [if_pos a6] at h
        split at h
        · cases h
        rename_i v1 v2 v3 q hq
        by_cases b1 : v1 < 0 ∨ v1 > f.bound
        · rw [if_pos b1] at h; cases h
        rw [if_neg b1] at h
        by_cases b2 : v2 < 0 ∨ v2 > f.bound
        · rw [if_pos b2] at h; cases h
        rw [if_neg b2] at h
        by_cases b3 : v1 > v2
        · rw [if_pos b3] at h; cases h
        rw [if_neg b3] at h
        split at h
        · cases h
        simp only [Outcome.ok.injEq, Prod.mk.injEq] at h
        exact h.2 ▸ stepedRange_closed Q hQ _ _ _ _ _ hq h1
      · rw [if_neg a6] at h
        split at h
        · cases h
        rename_i v1 v2 q hq
        by_cases b1 : v1 < 0 ∨ v1 > f.bound
        · rw [if_pos b1] at h; cases h
        rw [if_neg b1] at h
        by_cases b2 : v2 < 0 ∨ v2 > f.bound
        · rw [if_pos b2] at h; cases h
        rw [if_neg b2] at h
        by_cases b3 : v1 > v2
        · rw [if_pos b3] at h; cases h
        rw [if_neg b3] at h
        split at h
        · cases h
        simp only [Outcome.ok.injEq, Prod.mk.injEq] at h
        exact h.2 ▸ cronRange_closed Q hQ _ _ _ _ hq h1
    · rw [if_neg a5] at h
      by_cases a7 : (p.L 1).t = cronTokenType.Comma
      · rw [if_pos a7] at h
        split at h
        · cases h
        · cases h
        rename_i s q hq
        simp only [Outcome.ok.injEq, Prod.mk.injEq] at h
        exact h.2 ▸ list_closed Q hQ _ _ _ _ _ hq h1
      · rw [if_neg a7] at h
        split at h
        · cases h
        rename_i v q hq
        by_cases b1 : v < 0 ∨ v > f.bound
        · rw [if_pos b1] at h; cases h
        rw [if_neg b1] at h
        simp only [Outcome.ok.injEq, Prod.mk.injEq] at h
        exact h.2 ▸ (number_ok _ _ _ hq).2 ▸ h1
  rw [if_neg a4] at h
  split at h
  · cases h
  by_cases a8 : (p.L 0).t = cronTokenType.Word
  · rw [if_pos a8] at h
    split at h
    · cases h
    rename_i v q hq
    split at h
    · cases h
    simp only [Outcome.ok.injEq, Prod.mk.injEq] at h
    exact h.2 ▸ (word_ok _ _ _ hq).2 ▸ h1
  · rw [if_neg a8] at h; cases h

/-- A field parser whose head token is EOF returns an error. -/
theorem parseAny_eof_error (f : cronField) (fuel : Nat) (p : cronParser) (cron : Crontab)
    (h0 : (p.L 0).t = .EOF) : ∃ e, p.parseAny f fuel cron = .error e := by
  simp only [cronParser.parseAny]
  rw [if_neg (by rw [h0]; decide), if_neg (by rw [h0]; decide)]
  split
  · exact ⟨_, rfl⟩
  · rw [if_neg (by rw [h0]; decide)]; exact ⟨_, rfl⟩

/-! ## An input that ends within the first five tokens -/

theorem NextToken_eof (r : List Nat) (t : cronToken) (h : (NextToken r).1 = .ok t)
    (ht : t.t = .EOF) : (NextToken r).2 = [] := by
  simp only [NextToken] at h ⊢
  split at h
  · rfl
  · split_ifs at h <;> simp only [Except.ok.injEq] at h <;> subst h <;> cases ht

theorem fillLookahead_eof : ∀ (n : Nat) (r r2 : List Nat) (ts : List cronToken),
    fillLookahead n r = .ok (ts, r2) → ∀ i, i < n → (ts.getD i ⟨.EOF, []⟩).t = .EOF →
      r2 = [] ∧ ∀ j, i ≤ j → (ts.getD j ⟨.EOF, []⟩).t = .EOF := by
  intro n
  induction n with
  | zero => intro r r2 ts _ i hi; omega
  | succ n ih =>
    intro r r2 ts h i hi hti
    simp only [fillLookahead] at h
    split at h
    · cases h
    rename_i t r1 hnt
    split at h
    · cases h
    rename_i ts2 r3 h3
    simp only [Except.ok.injEq, Prod.mk.injEq] at h
    obtain ⟨rfl, rfl⟩ := h
    have hlen := fillLookahead_length _ _ _ _ h3
    cases i with
    | zero =>
      simp only [List.getD_cons_zero] at hti
      have hr1 : r1 = [] := by
        have := NextToken_eof r t (by rw [hnt]) hti
        rw [hnt] at this; exact this
      subst hr1
      -- from the empty input every further token is EOF
      have hall : ∀ (m : Nat) (ts3 : List cronToken) (r4 : List Nat),
          fillLookahead m [] = .ok (ts3, r4) →
            r4 = [] ∧ ∀ j, (ts3.getD j ⟨.EOF, []⟩).t = .EOF := by
        intro m
        induction m with
        | zero =>
          intro ts3 r4 h4
          simp only [fillLookahead, Except.ok.injEq, Prod.mk.injEq] at h4
          obtain ⟨rfl, rfl⟩ := h4
          exact ⟨rfl, fun j => by simp⟩
        | succ m ihm =>
          intro ts3 r4 h4
          simp only [fillLookahead, NextToken, skipSpaces] at h4
          split at h4
          · cases h4
          rename_i ts5 r5 h5
          simp only [Except.ok.injEq, Prod.mk.injEq] at h4
          obtain ⟨rfl, rfl⟩ := h4
          obtain ⟨e1, e2⟩ := ihm _ _ h5
          refine ⟨e1, fun j => ?_⟩
          cases j with
          | zero => rfl
          | succ j => simpa using e2 j
      obtain ⟨e1, e2⟩ := hall _ _ _ h3
      refine ⟨e1, fun j _ => ?_⟩
      cases j with
      | zero => simpa using hti
      | succ j => simpa using e2 j
    | succ i =>
      simp only [List.getD_cons_succ] at hti
      obtain ⟨e1, e2⟩ := ih _ _ _ h3 i (by omega) hti
      refine ⟨e1, fun j hj => ?_⟩
      cases j with
      | zero => omega
      | succ j => simpa using e2 j (by omega)

theorem newCronParser_eofFrom (s : List Nat) (p : cronParser) (i : Nat)
    (h : newCronParser s 5 = .ok p) (hi : i < 5) (he : (p.L i).t = .EOF) : p.eofFrom 4 := by
  have hwf := newCronParser_WF s p h
  simp only [newCronParser] at h
  split at h
  · cases h
  rename_i ts r hts
  simp only [Except.ok.injEq] at h
  subst h
  have hi5 : (i + 0) % 5 = i := by omega
  simp only [cronParser.L, hi5] at he
  obtain ⟨e1, e2⟩ := fillLookahead_eof _ _ _ _ hts i hi he
  refine ⟨hwf, e1, fun j h4 h5 => ?_⟩
  have : j = 4 := by omega
  subst this
  simp only [cronParser.L]
  exact e2 4 (by omega)

theorem eofFrom_Consume (p : cronParser) (k : Nat) (h : p.eofFrom k) :
    p.Consume.2.eofFrom (k - 1) := by
  obtain ⟨hwf, hl, he⟩ := h
  obtain ⟨w1, s0, s1, s2, s3⟩ := Consume_shift p hwf
  have hlast : p.Consume.2.lexer = [] ∧ (p.Consume.2.L 4).t = .EOF := by
    obtain ⟨lexer, la, cap, head⟩ := p
    obtain ⟨h1, h2, h3⟩ := hwf
    simp only at h1 h2 h3 hl
    subst h1 hl
    match la, h3 with
    | [a, b, c, d, e], _ =>
      simp only [cronParser.Consume, NextToken, skipSpaces]
      interval_cases head <;> simp [cronParser.L]
  refine ⟨w1, hlast.1, fun i h1 h2 => ?_⟩
  have hi : i = 0 ∨ i = 1 ∨ i = 2 ∨ i = 3 ∨ i = 4 := by omega
  rcases hi with rfl | rfl | rfl | rfl | rfl
  · rw [s0]; exact he 1 (by omega) (by omega)
  · rw [s1]; exact he 2 (by omega) (by omega)
  · rw [s2]; exact he 3 (by omega) (by omega)
  · rw [s3]; exact he 4 (by omega) (by omega)
  · exact hlast.2

theorem eofFrom_mono (p : cronParser) (k k2 : Nat) (hk : k ≤ k2) (h : p.eofFrom k) :
    p.eofFrom k2 :=
  ⟨h.1, h.2.1, fun i h1 h2 => h.2.2 i (by omega) h2⟩

/-- A field parser that succeeds takes at least one token off a ring that is running out. -/
theorem parseAny_eofFrom (f : cronField) (fuel : Nat) (p p2 : cronParser) (cron c2 : Crontab)
    (k : Nat) (hp : p.eofFrom k) (h : p.parseAny f fuel cron = .ok (c2, p2)) :
    p2.eofFrom (k - 1) :=
  parseAny_closed (fun q => q.eofFrom (k - 1))
    (fun q hq => eofFrom_mono _ _ _ (by omega) (eofFrom_Consume q _ hq))
    f fuel p p2 cron c2 h (eofFrom_Consume p k hp)

/-- With the input ending within the first five tokens, `NewCrontab` never returns a
Crontab: one of the five field parsers meets the EOF token. -/
theorem NewCrontab_too_short (s : List Nat) (p : cronParser) (i : Nat)
    (h : newCronParser s 5 = .ok p) (hi : i < 5) (he : (p.L i).t = .EOF) (fuel : Nat)
    (c : Crontab) : NewCrontab fuel s ≠ .ok c := by
  intro hok
  have h0 := newCronParser_eofFrom s p i h hi he
  obtain ⟨e1, e2, e3, e4⟩ := fieldStart_next fuel s
  have hmin : fieldStart fuel s .minute = .ok (⟨[], [], [], [], [], s⟩, p) := by
    simp only [fieldStart, atMinutes, h]
  have step : ∀ (g : cronField) (k : Nat) (c0 c1 : Crontab) (q q1 : cronParser),
      q.eofFrom k → fieldStart fuel s g = .ok (c0, q) →
      (fieldStart fuel s g).andThen (cronParser.parseField g fuel) = .ok (c1, q1) →
      q1.eofFrom (k - 1) := by
    intro g k c0 c1 q q1 hq hs hn
    rw [hs] at hn
    simp only [Outcome.andThen, parseField_eq_parseAny] at hn
    exact parseAny_eofFrom g fuel q q1 c0 c1 k hq hn
  obtain ⟨c1, p1, s1⟩ := NewCrontab_ok_fieldStart fuel s c .hour hok
  obtain ⟨c2, p2, s2⟩ := NewCrontab_ok_fieldStart fuel s c .day hok
  obtain ⟨c3, p3, s3⟩ := NewCrontab_ok_fieldStart fuel s c .month hok
  obtain ⟨c4, p4, s4⟩ := NewCrontab_ok_fieldStart fuel s c .week hok
  have q1 := step .minute 4 _ c1 p p1 h0 hmin (e1 ▸ s1)
  have q2 := step .hour 3 _ c2 p1 p2 q1 s1 (e2 ▸ s2)
  have q3 := step .day 2 _ c3 p2 p3 q2 s2 (e3 ▸ s3)
  have q4 := step .month 1 _ c4 p3 p4 q3 s3 (e4 ▸ s4)
  obtain ⟨c5, p5, k5, _⟩ := NewCrontab_ok_field fuel s c .week c4 p4 hok s4
  obtain ⟨e, he5⟩ := parseAny_eof_error .week fuel p4 c4 (q4.2.2 0 (by omega) (by omega))
  rw [parseField_eq_parseAny, he5] at k5
  cases k5

/-- No fuel lets `makeRangeOfInt8` finish with the step 0 when the range is not empty. -/
theorem makeRangeLoop_zero (max i : Int) (h : i ≤ max) (h0 : -128 ≤ i) (h1 : i ≤ 127) :
    ∀ fuel, makeRangeLoop max 0 fuel i = none := by
  intro fuel
  induction fuel with
  | zero => rfl
  | succ n ih =>
    have e : int8 (i + 0) = i := by simp only [int8]; omega
    simp only [makeRangeLoop, if_pos h, e, ih, Option.map_none']

theorem NewCrontab_star_slash_zero (fuel : Nat) : NewCrontab fuel (bytes "*/0") = .timeout := by
  have hp : newCronParser (bytes "*/0") 5 =
      .ok ⟨[], [⟨.Asterisk, [42]⟩, ⟨.Slash, [47]⟩, ⟨.Number, [48]⟩, ⟨.EOF, bytes "<EOF>"⟩,
        ⟨.EOF, bytes "<EOF>"⟩], 5, 0⟩ := rfl
  have hs : (⟨[], [⟨.Asterisk, [42]⟩, ⟨.Slash, [47]⟩, ⟨.Number, [48]⟩, ⟨.EOF, bytes "<EOF>"⟩,
      ⟨.EOF, bytes "<EOF>"⟩], 5, 0⟩ : cronParser).stepedAsterisk =
      .ok (0, ⟨[], [⟨.EOF, bytes "<EOF>"⟩, ⟨.EOF, bytes "<EOF>"⟩, ⟨.EOF, bytes "<EOF>"⟩,
        ⟨.EOF, bytes "<EOF>"⟩, ⟨.EOF, bytes "<EOF>"⟩], 5, 3⟩) := rfl
  have h0 : ((⟨[], [⟨.Asterisk, [42]⟩, ⟨.Slash, [47]⟩, ⟨.Number, [48]⟩, ⟨.EOF, bytes "<EOF>"⟩,
      ⟨.EOF, bytes "<EOF>"⟩], 5, 0⟩ : cronParser).L 0).t = .Asterisk := rfl
  have h1 : ((⟨[], [⟨.Asterisk, [42]⟩, ⟨.Slash, [47]⟩, ⟨.Number, [48]⟩, ⟨.EOF, bytes "<EOF>"⟩,
      ⟨.EOF, bytes "<EOF>"⟩], 5, 0⟩ : cronParser).L 1).t = .Slash := rfl
  have hm : makeRangeOfInt8 fuel (int8 0) (int8 59) 0 = none :=
    makeRangeLoop_zero _ _ (by decide) (by decide) (by decide) fuel
  simp only [NewCrontab, hp, cronParser.Parse, cronParser.parseMinutes]
  rw [if_pos h0, if_pos h1]
  simp only [hs, hm]

theorem nameNumber_bounds (w : List Nat) :
    ∀ (names : List String) (first k : Int), nameNumber names first w = some k →
      first ≤ k ∧ k < first + names.length := by
  intro names
  induction names with
  | nil => intro first k h; cases h
  | cons n rest ih =>
    intro first k h
    simp only [nameNumber] at h
    by_cases hw : w = bytes n
    · rw [if_pos hw] at h
      simp only [Option.some.injEq] at h
      simp only [List.length_cons, Nat.cast_add, Nat.cast_one]
      omega
    · rw [if_neg hw] at h
      have := ih _ _ h
      simp only [List.length_cons, Nat.cast_add, Nat.cast_one]
      omega

theorem nameNumber_month_bounds (w : List Nat) (k : Int)
    (h : nameNumber monthNames 1 w = some k) : 1 ≤ k ∧ k ≤ 12 := by
  have := nameNumber_bounds w _ _ _ h
  simp only [monthNames, List.length_cons, List.length_nil] at this
  omega

theorem nameNumber_week_bounds (w : List Nat) (k : Int)
    (h : nameNumber weekNames 0 w = some k) : 0 ≤ k ∧ k ≤ 6 := by
  have := nameNumber_bounds w _ _ _ h
  simp only [weekNames, List.length_cons, List.length_nil] at this
  omega

theorem sortInt8Slice_singleton (k : Int) : sortInt8Slice [k] = [k] := rfl


/-- What `NewCrontab` does with a field that is a word, for the two fields with names. -/
theorem NewCrontab_word (f : cronField) (names : List (List Nat × Int))
    (hf : f.names = some names) (fuel : Nat) (s : List Nat) (c0 : Crontab) (p : cronParser)
    (hs : fieldStart fuel s f = .ok (c0, p)) (h0 : (p.L 0).t = .Word) :
    (∀ c, NewCrontab fuel s = .ok c →
      ∃ n, names.lookup (toLower (p.L 0).v) = some n ∧ c.get f = [int8 n]) ∧
    (names.lookup (toLower (p.L 0).v) = none → ∃ e, NewCrontab fuel s = .error e) := by
  obtain ⟨w1, w2⟩ := parseAny_word f fuel p c0 names hf h0
  constructor
  · intro c h
    obtain ⟨c1, p1, hk, hg⟩ := NewCrontab_ok_field fuel s c f c0 p h hs
    rw [parseField_eq_parseAny] at hk
    obtain ⟨n, hn, hc1⟩ := w1 c1 p1 hk
    exact ⟨n, hn, by rw [hg, hc1, sortInt8Slice_singleton]⟩
  · intro hnone
    obtain ⟨e, he⟩ := w2 hnone
    rw [← parseField_eq_parseAny] at he
    exact ⟨e, NewCrontab_error_of_field fuel s f c0 p e hs he⟩

/-! ## The step zero, and the wildcard day of month -/

theorem NewCrontab_step_zero (fuel : Nat) :
    NewCrontab fuel (bytes "*/0 * * * *") = .timeout := by
  have hp : newCronParser (bytes "*/0 * * * *") 5 =
      .ok ⟨bytes " * *", [⟨.Asterisk, [42]⟩, ⟨.Slash, [47]⟩, ⟨.Number, [48]⟩,
        ⟨.Asterisk, [42]⟩, ⟨.Asterisk, [42]⟩], 5, 0⟩ := rfl
  have hs : (⟨bytes " * *", [⟨.Asterisk, [42]⟩, ⟨.Slash, [47]⟩, ⟨.Number, [48]⟩,
      ⟨.Asterisk, [42]⟩, ⟨.Asterisk, [42]⟩], 5, 0⟩ : cronParser).stepedAsterisk =
      .ok (0, ⟨[], [⟨.Asterisk, [42]⟩, ⟨.Asterisk, [42]⟩, ⟨.EOF, bytes "<EOF>"⟩,
        ⟨.Asterisk, [42]⟩, ⟨.Asterisk, [42]⟩], 5, 3⟩) := rfl
  have h0 : ((⟨bytes " * *", [⟨.Asterisk, [42]⟩, ⟨.Slash, [47]⟩, ⟨.Number, [48]⟩,
      ⟨.Asterisk, [42]⟩, ⟨.Asterisk, [42]⟩], 5, 0⟩ : cronParser).L 0).t = .Asterisk := rfl
  have h1 : ((⟨bytes " * *", [⟨.Asterisk, [42]⟩, ⟨.Slash, [47]⟩, ⟨.Number, [48]⟩,
      ⟨.Asterisk, [42]⟩, ⟨.Asterisk, [42]⟩], 5, 0⟩ : cronParser).L 1).t = .Slash := rfl
  have hm : makeRangeOfInt8 fuel (int8 0) (int8 59) 0 = none :=
    makeRangeLoop_zero _ _ (by decide) (by decide) (by decide) fuel
  simp only [NewCrontab, hp, cronParser.Parse, cronParser.parseMinutes]
  rw [if_pos h0, if_pos h1]
  simp only [hs, hm]

/-- With the day-of-month set 0..31 the day check of the loop passes on every day, so the
loop does not look at the days of week. -/
theorem nextLoop_wildcard_day (c1 c2 : Crontab) (hm : c1.Minutes = c2.Minutes)
    (hh : c1.Hours = c2.Hours) (hmo : c1.Months = c2.Months)
    (hd1 : c1.DaysOfMonth = upTo 31) (hd2 : c2.DaysOfMonth = upTo 31) :
    ∀ (fuel : Nat) (next : Time), nextLoop c1 fuel next = nextLoop c2 fuel next := by
  have hday : ∀ t : Time, t.Day ∈ upTo 31 := by
    intro t; rw [mem_upTo]; have := t.Day_bounds; omega
  have hmatch : ∀ t : Time, c1.Matches t ↔ c2.Matches t := by
    intro t
    simp only [Crontab.Matches, hm, hh, hmo, hd1, hd2, hday t, true_or]
  have hjump : ∀ t : Time, jump c1 t = jump c2 t := by
    intro t
    simp only [jump, hm, hh, hmo, hd1, hd2, inInt8Slice, Time.int8_Day, hday t, decide_True,
      Bool.not_true, Bool.false_and]
  intro fuel
  induction fuel with
  | zero => intro next; rfl
  | succ n ih =>
    intro next
    rw [nextLoop_succ, nextLoop_succ, hjump, ih]
    by_cases h : c1.Matches next
    · rw [if_pos h, if_pos ((hmatch next).1 h)]
    · rw [if_neg h, if_neg (fun h2 => h ((hmatch next).2 h2))]

/-! ## The lexer on an input with ` *` after it -/

theorem span_append_stop (q : Nat → Bool) (x : Nat) (m : List Nat) (hx : q x = false) :
    ∀ l : List Nat, (l ++ x :: m).span q = ((l.span q).1, (l.span q).2 ++ x :: m) := by
  intro l
  induction l with
  | nil => simp [List.span_eq_take_drop, List.takeWhile, List.dropWhile, hx]
  | cons a l ih =>
    simp only [List.span_eq_take_drop, Prod.mk.injEq] at ih ⊢
    by_cases ha : q a = true
    · simp [List.takeWhile, List.dropWhile, ha, ih.1, ih.2]
    · simp [List.takeWhile, List.dropWhile, ha]

theorem skipSpaces_extra : ∀ r : List Nat,
    skipSpaces (r ++ [32, 42]) =
      match skipSpaces r with
      | none => some (42, [])
      | some (b, r1) => some (b, r1 ++ [32, 42]) := by
  intro r
  induction r with
  | nil => rfl
  | cons a r ih =>
    by_cases ha : isSpace a = true
    · simp only [List.cons_append, skipSpaces, ha, if_true]; exact ih
    · simp only [List.cons_append, skipSpaces, ha, if_false, Bool.false_eq_true]
      rfl

/-- What the lexer returns on the longer input, from what it returns on the shorter. -/
theorem NextToken_extra (r : List Nat) :
    NextToken (r ++ [32, 42]) =
      match NextToken r with
      | (.ok t, r1) =>
        if t.t = .EOF then (.ok ⟨.Asterisk, [42]⟩, []) else (.ok t, r1 ++ [32, 42])
      | (.error e, r1) => (.error e, r1 ++ [32, 42]) := by
  simp only [NextToken, skipSpaces_extra]
  cases hs : skipSpaces r with
  | none => rfl
  | some a =>
    obtain ⟨b, r1⟩ := a
    simp only
    by_cases h1 : isDigit b = true
    · have hsp := span_append_stop isDigit 32 [42] (by decide) r1
      simp only [List.span_eq_take_drop, Prod.mk.injEq] at hsp
      simp [h1, hsp.1, hsp.2]
    simp only [h1, if_false, Bool.false_eq_true]
    by_cases h2 : b = 42
    · simp [h2]
    simp only [h2, if_false]
    by_cases h3 : b = 45
    · simp [h3]
    simp only [h3, if_false]
    by_cases h4 : b = 47
    · simp [h4]
    simp only [h4, if_false]
    by_cases h5 : b = 44
    · simp [h5]
    simp only [h5, if_false]
    by_cases h6 : isLetter b = true
    · have hsp := span_append_stop isLetter 32 [42] (by decide) r1
      simp only [List.span_eq_take_drop, Prod.mk.injEq] at hsp
      simp [h6, hsp.1, hsp.2]
    simp only [h6, if_false, Bool.false_eq_true]

theorem NextToken_lexRel (r r2 : List Nat) (h : lexRel r r2) :
    (∀ e, (NextToken r).1 = .error e → (NextToken r2).1 = .error e) ∧
    (∀ t, (NextToken r).1 = .ok t → ∃ t2, (NextToken r2).1 = .ok t2 ∧ tokRel t t2) ∧
    lexRel (NextToken r).2 (NextToken r2).2 := by
  rcases h with h | ⟨h1, h2⟩
  · subst h
    rw [NextToken_extra]
    cases hn : NextToken r with
    | mk res r1 =>
      cases res with
      | error e =>
        simp only
        refine ⟨fun e2 he => he, fun t ht => (by cases ht), Or.inl rfl⟩
      | ok t =>
        simp only
        by_cases ht : t.t = .EOF
        · simp only [ht, if_true]
          have hr1 : r1 = [] := by
            have := NextToken_eof r t (by rw [hn]) ht
            rw [hn] at this; exact this
          refine ⟨fun e he => (by cases he), fun t2 ht2 => ⟨_, rfl, ?_⟩, Or.inr ⟨hr1, rfl⟩⟩
          simp only [Except.ok.injEq] at ht2
          subst ht2
          exact Or.inr ⟨ht, rfl⟩
        · simp only [ht, if_false]
          refine ⟨fun e he => (by cases he), fun t2 ht2 => ⟨t, rfl, ?_⟩, Or.inl rfl⟩
          simp only [Except.ok.injEq] at ht2
          exact Or.inl ht2.symm
  · subst h1 h2
    exact ⟨fun e he => he, fun t ht => ⟨t, ht, Or.inl rfl⟩, Or.inr ⟨rfl, rfl⟩⟩

/-! ## One `Consume` in both runs -/

/-- What `Consume` returns and leaves, from what the lexer returns. -/
theorem Consume_result (p : cronParser) (hp : p.WF) :
    p.Consume.2.lexer = (NextToken p.lexer).2 ∧
    p.Consume.2.L 4 =
      (match (NextToken p.lexer).1 with
      | .ok t => t
      | .error _ => p.L 0) ∧
    p.Consume.1 =
      (match (NextToken p.lexer).1 with
      | .ok _ => .ok (p.L 0)
      | .error e => .error e) := by
  obtain ⟨lexer, la, cap, head⟩ := p
  obtain ⟨h1, h2, h3⟩ := hp
  simp only at h1 h2 h3
  subst h1
  match la, h3 with
  | [a, b, c, d, e], _ =>
    simp only [cronParser.Consume]
    cases hn : NextToken lexer with
    | mk res r1 =>
      cases res with
      | error e2 => interval_cases head <;> simp [cronParser.L]
      | ok t => interval_cases head <;> simp [cronParser.L]

theorem tokRel_eq (a b : cronToken) (x : cronTokenType) (h : tokRel a b) (ha : a.t = x)
    (hx : x ≠ .EOF) : b = a := by
  rcases h with h | ⟨h1, _⟩
  · exact h.symm
  · exact absurd (ha ▸ h1) hx

theorem tokRel_test (a b : cronToken) (x : cronTokenType) (h : tokRel a b) (hx : x ≠ .EOF)
    (hx2 : x ≠ .Asterisk) : a.t = x ↔ b.t = x := by
  rcases h with h | ⟨h1, h2⟩
  · rw [h]
  · rw [h1, h2]
    exact ⟨fun e => absurd e.symm hx, fun e => absurd e.symm hx2⟩

theorem Consume_sim (p p2 : cronParser) (h : p.Sim p2) :
    p.Consume.2.Sim p2.Consume.2 ∧
      (∀ t, p.Consume.1 = .ok t → p2.Consume.1 = .ok (p2.L 0)) := by
  obtain ⟨w1, w2, ht, hl⟩ := h
  obtain ⟨a1, a2, a3⟩ := Consume_result p w1
  obtain ⟨b1, b2, b3⟩ := Consume_result p2 w2
  obtain ⟨v1, s0, s1, s2, s3⟩ := Consume_shift p w1
  obtain ⟨v2, u0, u1, u2, u3⟩ := Consume_shift p2 w2
  obtain ⟨n1, n2, n3⟩ := NextToken_lexRel _ _ hl
  refine ⟨⟨v1, v2, fun i hi => ?_, by rw [a1, b1]; exact n3⟩, fun t hc => ?_⟩
  · have hi5 : i = 0 ∨ i = 1 ∨ i = 2 ∨ i = 3 ∨ i = 4 := by omega
    rcases hi5 with rfl | rfl | rfl | rfl | rfl
    · rw [s0, u0]; exact ht 1 (by omega)
    · rw [s1, u1]; exact ht 2 (by omega)
    · rw [s2, u2]; exact ht 3 (by omega)
    · rw [s3, u3]; exact ht 4 (by omega)
    · rw [a2, b2]
      cases hn : (NextToken p.lexer).1 with
      | error e =>
        rw [n1 e hn]
        exact ht 0 (by omega)
      | ok t =>
        obtain ⟨t2, e2, r2⟩ := n2 t hn
        rw [e2]
        exact r2
  · rw [a3] at hc
    rw [b3]
    cases hn : (NextToken p.lexer).1 with
    | error e => rw [hn] at hc; cases hc
    | ok t1 =>
      obtain ⟨t2, e2, _⟩ := n2 t1 hn
      rw [e2]

/-- A token that `Match` accepted in the first run is the same token in the second. -/
theorem Sim_head (p p2 : cronParser) (h : p.Sim p2) (x : cronTokenType) (hx : x ≠ .EOF)
    (h0 : (p.L 0).t = x) : p2.L 0 = p.L 0 :=
  tokRel_eq _ _ x (h.2.2.1 0 (by omega)) h0 hx

/-! ## The steps of the field parsers as `Match` and `Consume` pairs -/

theorem take_ok (p q : cronParser) (t : cronTokenType) (tok : cronToken)
    (h : p.take t = .ok (tok, q)) :
    (p.L 0).t = t ∧ p.Consume.1 = .ok tok ∧ q = p.Consume.2 ∧ tok = p.L 0 := by
  simp only [cronParser.take, cronParser.Match] at h
  by_cases h0 : (p.L 0).t = t
  · simp only [h0, ne_eq, not_true_eq_false, if_false] at h
    cases hc : p.Consume.1 with
    | error e => rw [hc] at h; cases h
    | ok tok2 =>
      rw [hc] at h
      simp only [Except.ok.injEq, Prod.mk.injEq] at h
      exact ⟨h0, h.1 ▸ rfl, h.2.symm, h.1 ▸ Consume_fst p tok2 hc⟩
  · simp only [ne_eq, h0, not_false_eq_true, if_true] at h
    cases h

theorem take_sim (p p2 q : cronParser) (t : cronTokenType) (tok : cronToken) (hs : p.Sim p2)
    (ht : t ≠ .EOF) (h : p.take t = .ok (tok, q)) :
    p2.take t = .ok (tok, p2.Consume.2) ∧ q.Sim p2.Consume.2 := by
  obtain ⟨h0, hc, hq, htok⟩ := take_ok p q t tok h
  obtain ⟨s1, s2⟩ := Consume_sim p p2 hs
  have e0 := Sim_head p p2 hs t ht h0
  subst hq
  refine ⟨?_, s1⟩
  simp only [cronParser.take, cronParser.Match, e0, h0, ne_eq, not_true_eq_false, if_false,
    s2 tok hc, htok]

theorem number_take (p : cronParser) :
    p.number =
      match p.take .Number with
      | .error e => .error e
      | .ok (tok, q) =>
        match tok.IntVal with
        | .error e => .error e
        | .ok v => .ok (v, q) := by
  simp only [cronParser.number, cronParser.take, bind, Except.bind, pure, Except.pure]
  cases p.Match .Number with
  | error e => rfl
  | ok u =>
    simp only
    cases p.Consume.1 with
    | error e => simp only
    | ok tok =>
      simp only
      cases tok.IntVal <;> rfl

theorem word_take (p : cronParser) :
    p.word =
      match p.take .Word with
      | .error e => .error e
      | .ok (tok, q) => .ok (tok.StrVal, q) := by
  simp only [cronParser.word, cronParser.take, bind, Except.bind, pure, Except.pure]
  cases p.Match .Word with
  | error e => rfl
  | ok u =>
    simp only
    cases p.Consume.1 with
    | error e => simp only
    | ok tok => simp only

theorem asterisk_take (p : cronParser) :
    p.asterisk =
      match p.take .Asterisk with
      | .error e => .error e
      | .ok (_, q) => .ok q := by
  simp only [cronParser.asterisk, cronParser.take, bind, Except.bind, pure, Except.pure]
  cases p.Match .Asterisk with
  | error e => rfl
  | ok u =>
    simp only
    cases p.Consume.1 with
    | error e => simp only
    | ok tok => simp only

theorem cronRange_take (p : cronParser) :
    p.cronRange =
      match p.take .Number with
      | .error e => .error e
      | .ok (b, q1) =>
        match b.IntVal with
        | .error e => .error e
        | .ok v1 =>
          match q1.take .Hyphen with
          | .error e => .error e
          | .ok (_, q2) =>
            match q2.take .Number with
            | .error e => .error e
            | .ok (e, q3) =>
              match e.IntVal with
              | .error e => .error e
              | .ok v2 => .ok (v1, v2, q3) := by
  simp only [cronParser.cronRange, cronParser.take, bind, Except.bind, pure, Except.pure]
  cases p.Match .Number with
  | error e => rfl
  | ok u =>
    simp only
    cases p.Consume.1 with
    | error e => simp only
    | ok b =>
      simp only
      cases b.IntVal with
      | error e => rfl
      | ok v1 =>
        simp only
        cases p.Consume.2.Match .Hyphen with
        | error e => rfl
        | ok u2 =>
          simp only
          cases p.Consume.2.Consume.1 with
          | error e => simp only
          | ok h =>
            simp only
            cases p.Consume.2.Consume.2.Match .Number with
            | error e => rfl
            | ok u3 =>
              simp only
              cases p.Consume.2.Consume.2.Consume.1 with
              | error e => simp only
              | ok e =>
                simp only
                cases e.IntVal <;> rfl

theorem stepedAsterisk_take (p : cronParser) :
    p.stepedAsterisk =
      match p.take .Asterisk with
      | .error e => .error e
      | .ok (_, q1) =>
        match q1.take .Slash with
        | .error e => .error e
        | .ok (_, q2) =>
          match q2.take .Number with
          | .error e => .error e
          | .ok (num, q3) =>
            match num.IntVal with
            | .error e => .error e
            | .ok step => .ok (step, q3) := by
  simp only [cronParser.stepedAsterisk, cronParser.take, bind, Except.bind, pure, Except.pure]
  cases p.Match .Asterisk with
  | error e => rfl
  | ok u =>
    simp only
    cases p.Consume.1 with
    | error e => simp only
    | ok b =>
      simp only
      cases p.Consume.2.Match .Slash with
      | error e => rfl
      | ok u2 =>
        simp only
        cases p.Consume.2.Consume.1 with
        | error e => simp only
        | ok h =>
          simp only
          cases p.Consume.2.Consume.2.Match .Number with
          | error e => rfl
          | ok u3 =>
            simp only
            cases p.Consume.2.Consume.2.Consume.1 with
            | error e => simp only
            | ok e =>
              simp only
              cases e.IntVal <;> rfl

theorem stepedRange_take (p : cronParser) :
    p.stepedRange =
      match p.take .Number with
      | .error e => .error e
      | .ok (b, q1) =>
        match b.IntVal with
        | .error e => .error e
        | .ok v1 =>
          match q1.take .Hyphen with
          | .error e => .error e
          | .ok (_, q2) =>
            match q2.take .Number with
            | .error e => .error e
            | .ok (e, q3) =>
              match e.IntVal with
              | .error e => .error e
              | .ok v2 =>
                match q3.take .Slash with
                | .error e => .error e
                | .ok (_, q4) =>
                  match q4.take .Number with
                  | .error e => .error e
                  | .ok (s, q5) =>
                    match s.IntVal with
                    | .error e => .error e
                    | .ok v3 => .ok (v1, v2, v3, q5) := by
  simp only [cronParser.stepedRange, cronParser.take, bind, Except.bind, pure, Except.pure]
  cases p.Match .Number with
  | error e => rfl
  | ok u =>
    simp only
    cases p.Consume.1 with
    | error e => simp only
    | ok b =>
      simp only
      cases b.IntVal with
      | error e => rfl
      | ok v1 =>
        simp only
        cases p.Consume.2.Match .Hyphen with
        | error e => rfl
        | ok u2 =>
          simp only
          cases p.Consume.2.Consume.1 with
          | error e => simp only
          | ok h =>
            simp only
            cases p.Consume.2.Consume.2.Match .Number with
            | error e => rfl
            | ok u3 =>
              simp only
              cases p.Consume.2.Consume.2.Consume.1 with
              | error e => simp only
              | ok e =>
                simp only
                cases e.IntVal with
                | error e => rfl
                | ok v2 =>
                  simp only
                  cases p.Consume.2.Consume.2.Consume.2.Match .Slash with
                  | error e => rfl
                  | ok u4 =>
                    simp only
                    cases p.Consume.2.Consume.2.Consume.2.Consume.1 with
                    | error e => simp only
                    | ok sl =>
                      simp only
                      cases p.Consume.2.Consume.2.Consume.2.Consume.2.Match .Number with
                      | error e => rfl
                      | ok u5 =>
                        simp only
                        cases p.Consume.2.Consume.2.Consume.2.Consume.2.Consume.1 with
                        | error e => simp only
                        | ok s =>
                          simp only
                          cases s.IntVal <;> rfl

/-! ## The field parsers in both runs -/

theorem number_sim (p p2 q : cronParser) (v : Int) (hs : p.Sim p2)
    (h : p.number = .ok (v, q)) : ∃ q2, p2.number = .ok (v, q2) ∧ q.Sim q2 := by
  rw [number_take] at h ⊢
  cases t1 : p.take .Number with
  | error e => rw [t1] at h; cases h
  | ok a =>
    obtain ⟨b, q1⟩ := a
    obtain ⟨e1, s1⟩ := take_sim p p2 q1 _ b hs (by decide) t1
    rw [t1] at h; rw [e1]
    simp only at h ⊢
    cases hv : b.IntVal with
    | error e => rw [hv] at h; cases h
    | ok v1 =>
      rw [hv] at h
      simp only [Except.ok.injEq, Prod.mk.injEq] at h ⊢
      exact ⟨_, ⟨h.1, rfl⟩, h.2 ▸ s1⟩

theorem word_sim (p p2 q : cronParser) (v : List Nat) (hs : p.Sim p2)
    (h : p.word = .ok (v, q)) : ∃ q2, p2.word = .ok (v, q2) ∧ q.Sim q2 := by
  rw [word_take] at h ⊢
  cases t1 : p.take .Word with
  | error e => rw [t1] at h; cases h
  | ok a =>
    obtain ⟨b, q1⟩ := a
    obtain ⟨e1, s1⟩ := take_sim p p2 q1 _ b hs (by decide) t1
    rw [t1] at h; rw [e1]
    simp only [Except.ok.injEq, Prod.mk.injEq] at h ⊢
    exact ⟨_, ⟨h.1, rfl⟩, h.2 ▸ s1⟩

theorem asterisk_sim (p p2 q : cronParser) (hs : p.Sim p2) (h : p.asterisk = .ok q) :
    ∃ q2, p2.asterisk = .ok q2 ∧ q.Sim q2 := by
  rw [asterisk_take] at h ⊢
  cases t1 : p.take .Asterisk with
  | error e => rw [t1] at h; cases h
  | ok a =>
    obtain ⟨b, q1⟩ := a
    obtain ⟨e1, s1⟩ := take_sim p p2 q1 _ b hs (by decide) t1
    rw [t1] at h; rw [e1]
    simp only [Except.ok.injEq] at h ⊢
    exact ⟨_, rfl, h ▸ s1⟩

theorem stepedAsterisk_sim (p p2 q : cronParser) (v : Int) (hs : p.Sim p2)
    (h : p.stepedAsterisk = .ok (v, q)) :
    ∃ q2, p2.stepedAsterisk = .ok (v, q2) ∧ q.Sim q2 := by
  rw [stepedAsterisk_take] at h ⊢
  cases t1 : p.take .Asterisk with
  | error e => rw [t1] at h; cases h
  | ok a1 =>
    obtain ⟨b1, q1⟩ := a1
    obtain ⟨e1, s1⟩ := take_sim p p2 q1 _ b1 hs (by decide) t1
    rw [t1] at h; rw [e1]
    simp only at h ⊢
    cases t2 : q1.take .Slash with
    | error e => rw [t2] at h; cases h
    | ok a2 =>
      obtain ⟨b2, q2⟩ := a2
      obtain ⟨e2, s2⟩ := take_sim q1 _ q2 _ b2 s1 (by decide) t2
      rw [t2] at h; rw [e2]
      simp only at h ⊢
      cases t3 : q2.take .Number with
      | error e => rw [t3] at h; cases h
      | ok a3 =>
        obtain ⟨b3, q3⟩ := a3
        obtain ⟨e3, s3⟩ := take_sim q2 _ q3 _ b3 s2 (by decide) t3
        rw [t3] at h; rw [e3]
        simp only at h ⊢
        cases hv : b3.IntVal with
        | error e => rw [hv] at h; cases h
        | ok v3 =>
          rw [hv] at h
          simp only [Except.ok.injEq, Prod.mk.injEq] at h ⊢
          exact ⟨_, ⟨h.1, rfl⟩, h.2 ▸ s3⟩

theorem cronRange_sim (p p2 q : cronParser) (v1 v2 : Int) (hs : p.Sim p2)
    (h : p.cronRange = .ok (v1, v2, q)) :
    ∃ q2, p2.cronRange = .ok (v1, v2, q2) ∧ q.Sim q2 := by
  rw [cronRange_take] at h ⊢
  cases t1 : p.take .Number with
  | error e => rw [t1] at h; cases h
  | ok a1 =>
    obtain ⟨b1, q1⟩ := a1
    obtain ⟨e1, s1⟩ := take_sim p p2 q1 _ b1 hs (by decide) t1
    rw [t1] at h; rw [e1]
    simp only at h ⊢
    cases hv1 : b1.IntVal with
    | error e => rw [hv1] at h; cases h
    | ok w1 =>
      rw [hv1] at h
      simp only at h ⊢
      cases t2 : q1.take .Hyphen with
      | error e => rw [t2] at h; cases h
      | ok a2 =>
        obtain ⟨b2, q2⟩ := a2
        obtain ⟨e2, s2⟩ := take_sim q1 _ q2 _ b2 s1 (by decide) t2
        rw [t2] at h; rw [e2]
        simp only at h ⊢
        cases t3 : q2.take .Number with
        | error e => rw [t3] at h; cases h
        | ok a3 =>
          obtain ⟨b3, q3⟩ := a3
          obtain ⟨e3, s3⟩ := take_sim q2 _ q3 _ b3 s2 (by decide) t3
          rw [t3] at h; rw [e3]
          simp only at h ⊢
          cases hv : b3.IntVal with
          | error e => rw [hv] at h; cases h
          | ok w2 =>
            rw [hv] at h
            simp only [Except.ok.injEq, Prod.mk.injEq] at h ⊢
            exact ⟨_, ⟨h.1, h.2.1, rfl⟩, h.2.2 ▸ s3⟩

theorem stepedRange_sim (p p2 q : cronParser) (v1 v2 v3 : Int) (hs : p.Sim p2)
    (h : p.stepedRange = .ok (v1, v2, v3, q)) :
    ∃ q2, p2.stepedRange = .ok (v1, v2, v3, q2) ∧ q.Sim q2 := by
  rw [stepedRange_take] at h ⊢
  cases t1 : p.take .Number with
  | error e => rw [t1] at h; cases h
  | ok a1 =>
    obtain ⟨b1, q1⟩ := a1
    obtain ⟨e1, s1⟩ := take_sim p p2 q1 _ b1 hs (by decide) t1
    rw [t1] at h; rw [e1]
    simp only at h ⊢
    cases hv1 : b1.IntVal with
    | error e => rw [hv1] at h; cases h
    | ok w1 =>
      rw [hv1] at h
      simp only at h ⊢
      cases t2 : q1.take .Hyphen with
      | error e => rw [t2] at h; cases h
      | ok a2 =>
        obtain ⟨b2, q2⟩ := a2
        obtain ⟨e2, s2⟩ := take_sim q1 _ q2 _ b2 s1 (by decide) t2
        rw [t2] at h; rw [e2]
        simp only at h ⊢
        cases t3 : q2.take .Number with
        | error e => rw [t3] at h; cases h
        | ok a3 =>
          obtain ⟨b3, q3⟩ := a3
          obtain ⟨e3, s3⟩ := take_sim q2 _ q3 _ b3 s2 (by decide) t3
          rw [t3] at h; rw [e3]
          simp only at h ⊢
          cases hv2 : b3.IntVal with
          | error e => rw [hv2] at h; cases h
          | ok w2 =>
            rw [hv2] at h
            simp only at h ⊢
            cases t4 : q3.take .Slash with
            | error e => rw [t4] at h; cases h
            | ok a4 =>
              obtain ⟨b4, q4⟩ := a4
              obtain ⟨e4, s4⟩ := take_sim q3 _ q4 _ b4 s3 (by decide) t4
              rw [t4] at h; rw [e4]
              simp only at h ⊢
              cases t5 : q4.take .Number with
              | error e => rw [t5] at h; cases h
              | ok a5 =>
                obtain ⟨b5, q5⟩ := a5
                obtain ⟨e5, s5⟩ := take_sim q4 _ q5 _ b5 s4 (by decide) t5
                rw [t5] at h; rw [e5]
                simp only at h ⊢
                cases hv3 : b5.IntVal with
                | error e => rw [hv3] at h; cases h
                | ok w3 =>
                  rw [hv3] at h
                  simp only [Except.ok.injEq, Prod.mk.injEq] at h ⊢
                  exact ⟨_, ⟨h.1, h.2.1, h.2.2.1, rfl⟩, h.2.2.2 ▸ s5⟩

theorem list_succ (fuel : Nat) (p : cronParser) (c : List Int) :
    p.list (fuel + 1) c =
      match p.take .Number with
      | .error e => .error e
      | .ok (t1, q1) =>
        match t1.IntVal with
        | .error e => .error e
        | .ok v1 =>
          if v1 < 0 ∨ v1 > 59 then .error (.outOfBound .minute v1)
          else
            match q1.Match .Comma with
            | .error e => .error e
            | .ok _ =>
              if (q1.Consume.2.L 1).t = .Comma then
                cronParser.list fuel q1.Consume.2 (c ++ [int8 v1])
              else
                match q1.Consume.2.take .Number with
                | .error e => .error e
                | .ok (t2, q3) =>
                  match t2.IntVal with
                  | .error e => .error e
                  | .ok v2 =>
                    if v2 < 0 ∨ v2 > 59 then .error (.outOfBound .minute v2)
                    else .ok (c ++ [int8 v1] ++ [int8 v2], q3) := by
  simp only [cronParser.list, cronParser.take]
  cases p.Match .Number with
  | error e => rfl
  | ok u =>
    simp only
    cases hc : p.Consume with
    | mk r q =>
      cases r with
      | error e => rfl
      | ok t1 =>
        simp only
        cases t1.IntVal with
        | error e => rfl
        | ok v1 =>
          simp only
          by_cases c1 : v1 < 0 ∨ v1 > 59
          · rw [if_pos c1, if_pos c1]
          rw [if_neg c1, if_neg c1]
          cases q.Match .Comma with
          | error e => rfl
          | ok u2 =>
            simp only
            by_cases c2 : (q.Consume.2.L 1).t = .Comma
            · rw [if_pos c2, if_pos c2]
            rw [if_neg c2, if_neg c2]
            cases q.Consume.2.Match .Number with
            | error e => rfl
            | ok u3 =>
              simp only
              cases hc2 : q.Consume.2.Consume with
              | mk r2 q3 =>
                cases r2 with
                | error e => rfl
                | ok t2 => simp only

theorem list_sim : ∀ (fuel : Nat) (p p2 q : cronParser) (c s : List Int), p.Sim p2 →
    p.list fuel c = .ok (s, q) → ∃ q2, p2.list fuel c = .ok (s, q2) ∧ q.Sim q2 := by
  intro fuel
  induction fuel with
  | zero => intro p p2 q c s _ h; simp [cronParser.list] at h
  | succ n ih =>
    intro p p2 q c s hs h
    rw [list_succ] at h ⊢
    cases t1 : p.take .Number with
    | error e => rw [t1] at h; cases h
    | ok a1 =>
      obtain ⟨b1, q1⟩ := a1
      obtain ⟨e1, s1⟩ := take_sim p p2 q1 _ b1 hs (by decide) t1
      rw [t1] at h; rw [e1]
      simp only at h ⊢
      cases hv1 : b1.IntVal with
      | error e => rw [hv1] at h; cases h
      | ok v1 =>
        rw [hv1] at h
        simp only at h ⊢
        by_cases c1 : v1 < 0 ∨ v1 > 59
        · rw [if_pos c1] at h; cases h
        rw [if_neg c1] at h ⊢
        by_cases hm : (q1.L 0).t = .Comma
        · have e0 := Sim_head q1 _ s1 .Comma (by decide) hm
          rw [Match_ok q1 _ hm] at h
          rw [Match_ok _ _ (e0 ▸ hm)]
          simp only at h ⊢
          have s2 := (Consume_sim q1 _ s1).1
          have ht := tokRel_test _ _ .Comma (s2.2.2.1 1 (by omega)) (by decide) (by decide)
          by_cases c2 : (q1.Consume.2.L 1).t = .Comma
          · rw [if_pos c2] at h
            rw [if_pos (ht.1 c2)]
            exact ih _ _ _ _ _ s2 h
          · rw [if_neg c2] at h
            rw [if_neg (fun hc => c2 (ht.2 hc))]
            cases t3 : q1.Consume.2.take .Number with
            | error e => rw [t3] at h; cases h
            | ok a3 =>
              obtain ⟨b3, q3⟩ := a3
              obtain ⟨e3, s3⟩ := take_sim _ _ q3 _ b3 s2 (by decide) t3
              rw [t3] at h; rw [e3]
              simp only at h ⊢
              cases hv2 : b3.IntVal with
              | error e => rw [hv2] at h; cases h
              | ok v2 =>
                rw [hv2] at h
                simp only at h ⊢
                by_cases c3 : v2 < 0 ∨ v2 > 59
                · rw [if_pos c3] at h; cases h
                rw [if_neg c3] at h ⊢
                simp only [Outcome.ok.injEq, Prod.mk.injEq] at h ⊢
                exact ⟨_, ⟨h.1, rfl⟩, h.2 ▸ s3⟩
        · rw [Match_error q1 _ hm] at h
          cases h

/-- A field parser that succeeds in the first run succeeds in the second, with the same
set for its field. -/
theorem parseAny_sim (f : cronField) (fuel : Nat) (p p2 q : cronParser)
    (cron c2 cron2 : Crontab) (hs : p.Sim p2) (h : p.parseAny f fuel cron = .ok (c2, q)) :
    ∃ q2, p2.parseAny f fuel cron2 = .ok (cron2.set f (c2.get f), q2) ∧ q.Sim q2 := by
  have hne : (p.L 0).t ≠ .EOF := by
    intro he
    obtain ⟨e, he2⟩ := parseAny_eof_error f fuel p cron he
    rw [he2] at h; cases h
  have e0 : p2.L 0 = p.L 0 := Sim_head p p2 hs _ hne rfl
  have t1 : ∀ x, x ≠ cronTokenType.EOF → x ≠ cronTokenType.Asterisk →
      ((p.L 1).t = x ↔ (p2.L 1).t = x) :=
    fun x h1 h2 => tokRel_test _ _ x (hs.2.2.1 1 (by omega)) h1 h2
  have t3 : (p.L 3).t = .Slash ↔ (p2.L 3).t = .Slash :=
    tokRel_test _ _ _ (hs.2.2.1 3 (by omega)) (by decide) (by decide)
  simp only [cronParser.parseAny] at h ⊢
  rw [e0]
  by_cases a1 : (p.L 0).t = cronTokenType.Asterisk
  · rw [if_pos a1] at h ⊢
    by_cases a2 : (p.L 1).t = cronTokenType.Slash
    · rw [if_pos a2] at h
      rw [if_pos ((t1 _ (by decide) (by decide)).1 a2)]
      cases hx : p.stepedAsterisk with
      | error e => rw [hx] at h; cases h
      | ok a =>
        obtain ⟨step, q1⟩ := a
        obtain ⟨q2, hx2, s2⟩ := stepedAsterisk_sim p p2 q1 step hs hx
        rw [hx] at h; rw [hx2]
        simp only at h ⊢
        cases hr : makeRangeOfInt8 fuel (int8 0) (int8 f.bound) step with
        | none => rw [hr] at h; cases h
        | some s =>
          rw [hr] at h
          simp only [Outcome.ok.injEq, Prod.mk.injEq] at h ⊢
          exact ⟨q2, ⟨by rw [← h.1, Crontab.get_set], rfl⟩, h.2 ▸ s2⟩
    · rw [if_neg a2] at h
      rw [if_neg (fun hc => a2 ((t1 _ (by decide) (by decide)).2 hc))]
      cases hx : p.asterisk with
      | error e => rw [hx] at h; cases h
      | ok q1 =>
        obtain ⟨q2, hx2, s2⟩ := asterisk_sim p p2 q1 hs hx
        rw [hx] at h; rw [hx2]
        simp only at h ⊢
        by_cases a3 : f = cronField.week
        · rw [if_pos a3] at h ⊢
          simp only [Outcome.ok.injEq, Prod.mk.injEq] at h ⊢
          exact ⟨q2, ⟨by rw [← h.1, Crontab.get_set], rfl⟩, h.2 ▸ s2⟩
        · rw [if_neg a3] at h ⊢
          cases hr : makeRangeOfInt8 fuel (int8 0) (int8 f.bound) 1 with
          | none => rw [hr] at h; cases h
          | some s =>
            rw [hr] at h
            simp only [Outcome.ok.injEq, Prod.mk.injEq] at h ⊢
            exact ⟨q2, ⟨by rw [← h.1, Crontab.get_set], rfl⟩, h.2 ▸ s2⟩
  rw [if_neg a1] at h ⊢
  by_cases a4 : (p.L 0).t = cronTokenType.Number
  · rw [if_pos a4] at h ⊢
    by_cases a5 : (p.L 1).t = cronTokenType.Hyphen
    · rw [if_pos a5] at h
      rw [if_pos ((t1 _ (by decide) (by decide)).1 a5)]
      by_cases a6 : (p.L 3).t = cronTokenType.Slash
      · rw [if_pos a6] at h
        rw [if_pos (t3.1 a6)]
        cases hx : p.stepedRange with
        | error e => rw [hx] at h; cases h
        | ok a =>
          obtain ⟨v1, v2, v3, q1⟩ := a
          obtain ⟨q2, hx2, s2⟩ := stepedRange_sim p p2 q1 v1 v2 v3 hs hx
          rw [hx] at h; rw [hx2]
          simp only at h ⊢
          by_cases b1 : v1 < 0 ∨ v1 > f.bound
          · rw [if_pos b1] at h; cases h
          rw [if_neg b1] at h ⊢
          by_cases b2 : v2 < 0 ∨ v2 > f.bound
          · rw [if_pos b2] at h; cases h
          rw [if_neg b2] at h ⊢
          by_cases b3 : v1 > v2
          · rw [if_pos b3] at h; cases h
          rw [if_neg b3] at h ⊢
          cases hr : makeRangeOfInt8 fuel (int8 v1) (int8 v2) v3 with
          | none => rw [hr] at h; cases h
          | some s =>
            rw [hr] at h
            simp only [Outcome.ok.injEq, Prod.mk.injEq] at h ⊢
            exact ⟨q2, ⟨by rw [← h.1, Crontab.get_set], rfl⟩, h.2 ▸ s2⟩
      · rw [if_neg a6] at h
        rw [if_neg (fun hc => a6 (t3.2 hc))]
        cases hx : p.cronRange with
        | error e => rw [hx] at h; cases h
        | ok a =>
          obtain ⟨v1, v2, q1⟩ := a
          obtain ⟨q2, hx2, s2⟩ := cronRange_sim p p2 q1 v1 v2 hs hx
          rw [hx] at h; rw [hx2]
          simp only at h ⊢
          by_cases b1 : v1 < 0 ∨ v1 > f.bound
          · rw [if_pos b1] at h; cases h
          rw [if_neg b1] at h ⊢
          by_cases b2 : v2 < 0 ∨ v2 > f.bound
          · rw [if_pos b2] at h; cases h
          rw [if_neg b2] at h ⊢
          by_cases b3 : v1 > v2
          · rw [if_pos b3] at h; cases h
          rw [if_neg b3] at h ⊢
          cases hr : makeRangeOfInt8 fuel (int8 v1) (int8 v2) 1 with
          | none => rw [hr] at h; cases h
          | some s =>
            rw [hr] at h
            simp only [Outcome.ok.injEq, Prod.mk.injEq] at h ⊢
            exact ⟨q2, ⟨by rw [← h.1, Crontab.get_set], rfl⟩, h.2 ▸ s2⟩
    · rw [if_neg a5] at h
      rw [if_neg (fun hc => a5 ((t1 _ (by decide) (by decide)).2 hc))]
      by_cases a7 : (p.L 1).t = cronTokenType.Comma
      · rw [if_pos a7] at h
        rw [if_pos ((t1 _ (by decide) (by decide)).1 a7)]
        cases hx : p.list fuel [] with
        | error e => rw [hx] at h; cases h
        | timeout => rw [hx] at h; cases h
        | ok a =>
          obtain ⟨s, q1⟩ := a
          obtain ⟨q2, hx2, s2⟩ := list_sim fuel p p2 q1 [] s hs hx
          rw [hx] at h; rw [hx2]
          simp only [Outcome.ok.injEq, Prod.mk.injEq] at h ⊢
          exact ⟨q2, ⟨by rw [← h.1, Crontab.get_set], rfl⟩, h.2 ▸ s2⟩
      · rw [if_neg a7] at h
        rw [if_neg (fun hc => a7 ((t1 _ (by decide) (by decide)).2 hc))]
        cases hx : p.number with
        | error e => rw [hx] at h; cases h
        | ok a =>
          obtain ⟨v, q1⟩ := a
          obtain ⟨q2, hx2, s2⟩ := number_sim p p2 q1 v hs hx
          rw [hx] at h; rw [hx2]
          simp only at h ⊢
          by_cases b1 : v < 0 ∨ v > f.bound
          · rw [if_pos b1] at h; cases h
          rw [if_neg b1] at h ⊢
          simp only [Outcome.ok.injEq, Prod.mk.injEq] at h ⊢
          exact ⟨q2, ⟨by rw [← h.1, Crontab.get_set], rfl⟩, h.2 ▸ s2⟩
  rw [if_neg a4] at h ⊢
  cases hn : f.names with
  | none => rw [hn] at h; cases h
  | some names =>
    rw [hn] at h
    simp only at h ⊢
    by_cases a8 : (p.L 0).t = cronTokenType.Word
    · rw [if_pos a8] at h ⊢
      cases hx : p.word with
      | error e => rw [hx] at h; cases h
      | ok a =>
        obtain ⟨v, q1⟩ := a
        obtain ⟨q2, hx2, s2⟩ := word_sim p p2 q1 v hs hx
        rw [hx] at h; rw [hx2]
        simp only at h ⊢
        cases hl : names.lookup (toLower v) with
        | none => rw [hl] at h; cases h
        | some n =>
          rw [hl] at h
          simp only [Outcome.ok.injEq, Prod.mk.injEq] at h ⊢
          exact ⟨q2, ⟨by rw [← h.1, Crontab.get_set], rfl⟩, h.2 ▸ s2⟩
    · rw [if_neg a8] at h; cases h

/-! ## `NewCrontab` on an accepted expression with ` *` after it -/

theorem tokRel_refl (a : cronToken) : tokRel a a := Or.inl rfl

theorem fillLookahead_sim : ∀ (n : Nat) (r r2 r1 : List Nat) (ts : List cronToken),
    lexRel r r2 → fillLookahead n r = .ok (ts, r1) →
    ∃ ts2 r3, fillLookahead n r2 = .ok (ts2, r3) ∧ lexRel r1 r3 ∧
      ∀ i, tokRel (ts.getD i ⟨.EOF, []⟩) (ts2.getD i ⟨.EOF, []⟩) := by
  intro n
  induction n with
  | zero =>
    intro r r2 r1 ts hl h
    simp only [fillLookahead, Except.ok.injEq, Prod.mk.injEq] at h
    obtain ⟨rfl, rfl⟩ := h
    exact ⟨[], r2, rfl, hl, fun i => tokRel_refl _⟩
  | succ n ih =>
    intro r r2 r1 ts hl h
    obtain ⟨n1, n2, n3⟩ := NextToken_lexRel r r2 hl
    simp only [fillLookahead] at h ⊢
    cases hn : NextToken r with
    | mk res ra =>
      rw [hn] at h n1 n2 n3
      cases res with
      | error e => cases h
      | ok t =>
        simp only at h
        obtain ⟨t2, e2, rel⟩ := n2 t rfl
        cases hn2 : NextToken r2 with
        | mk res2 rb =>
          rw [hn2] at e2 n3
          simp only at e2 n3
          subst e2
          simp only
          cases hf : fillLookahead n ra with
          | error e => rw [hf] at h; cases h
          | ok a =>
            obtain ⟨ts1, rc⟩ := a
            rw [hf] at h
            simp only [Except.ok.injEq, Prod.mk.injEq] at h
            obtain ⟨rfl, rfl⟩ := h
            obtain ⟨ts2, r3, f2, l2, rel2⟩ := ih ra rb rc ts1 n3 hf
            rw [f2]
            refine ⟨t2 :: ts2, r3, rfl, l2, fun i => ?_⟩
            cases i with
            | zero => exact rel
            | succ i => simpa using rel2 i

theorem newCronParser_sim (s : List Nat) (p : cronParser) (h : newCronParser s 5 = .ok p) :
    ∃ p2, newCronParser (s ++ [32, 42]) 5 = .ok p2 ∧ p.Sim p2 := by
  have hwf := newCronParser_WF s p h
  simp only [newCronParser] at h ⊢
  cases hf : fillLookahead 5 s with
  | error e => rw [hf] at h; cases h
  | ok a =>
    obtain ⟨ts, r1⟩ := a
    rw [hf] at h
    simp only [Except.ok.injEq] at h
    subst h
    obtain ⟨ts2, r3, f2, l2, rel⟩ := fillLookahead_sim 5 s _ r1 ts (Or.inl rfl) hf
    rw [f2]
    refine ⟨_, rfl, hwf, newCronParser_WF (s ++ [32, 42]) _ (by simp only [newCronParser, f2]),
      fun i hi => ?_, l2⟩
    have hi5 : (i + 0) % 5 = i := by omega
    simp only [cronParser.L, hi5]
    exact rel i

theorem parseField_sim (f : cronField) (fuel : Nat) (p p2 q : cronParser)
    (cron c2 cron2 : Crontab) (hs : p.Sim p2) (h : p.parseField f fuel cron = .ok (c2, q)) :
    (∃ q2, p2.parseField f fuel cron2 = .ok (cron2.set f (c2.get f), q2) ∧ q.Sim q2) ∧
      c2 = cron.set f (c2.get f) := by
  rw [parseField_eq_parseAny] at h
  constructor
  · rw [parseField_eq_parseAny]
    exact parseAny_sim f fuel p p2 q cron c2 cron2 hs h
  · obtain ⟨⟨s, hs2⟩, _⟩ := parseAny_ok f fuel p q cron c2 h
    rw [hs2, Crontab.get_set]

/-- An accepted expression with a space and `*` after it is accepted, with the same five
field sets. -/
theorem NewCrontab_extra (fuel : Nat) (s : List Nat) (c : Crontab)
    (h : NewCrontab fuel s = .ok c) :
    NewCrontab fuel (s ++ [32, 42]) = .ok { c with Text := s ++ [32, 42] } := by
  simp only [NewCrontab] at h ⊢
  cases hp : newCronParser s 5 with
  | error e => rw [hp] at h; cases h
  | ok p =>
    obtain ⟨p2, hp2, s0⟩ := newCronParser_sim s p hp
    rw [hp] at h; rw [hp2]
    simp only [cronParser.Parse] at h ⊢
    cases h1 : cronParser.parseMinutes fuel p ⟨[], [], [], [], [], s⟩ with
    | error e => rw [h1] at h; cases h
    | timeout => rw [h1] at h; cases h
    | ok a1 =>
      obtain ⟨c1, q1⟩ := a1
      obtain ⟨⟨r1, k1, s1⟩, d1⟩ := parseField_sim .minute fuel p p2 q1 _ c1
        ⟨[], [], [], [], [], s ++ [32, 42]⟩ s0 h1
      rw [h1] at h
      simp only [cronParser.parseField] at k1
      rw [k1]
      simp only at h ⊢
      cases h2 : cronParser.parseHours fuel q1 c1 with
      | error e => rw [h2] at h; cases h
      | timeout => rw [h2] at h; cases h
      | ok a2 =>
        obtain ⟨c2, q2⟩ := a2
        obtain ⟨⟨r2, k2, s2⟩, d2⟩ := parseField_sim .hour fuel q1 r1 q2 c1 c2
          ((⟨[], [], [], [], [], s ++ [32, 42]⟩ : Crontab).set .minute (c1.get .minute)) s1 h2
        rw [h2] at h
        simp only [cronParser.parseField] at k2
        rw [k2]
        simp only at h ⊢
        cases h3 : cronParser.parseDaysOfMonth fuel q2 c2 with
        | error e => rw [h3] at h; cases h
        | timeout => rw [h3] at h; cases h
        | ok a3 =>
          obtain ⟨c3, q3⟩ := a3
          obtain ⟨⟨r3, k3, s3⟩, d3⟩ := parseField_sim .day fuel q2 r2 q3 c2 c3
            (((⟨[], [], [], [], [], s ++ [32, 42]⟩ : Crontab).set .minute
              (c1.get .minute)).set .hour (c2.get .hour)) s2 h3
          rw [h3] at h
          simp only [cronParser.parseField] at k3
          rw [k3]
          simp only at h ⊢
          cases h4 : cronParser.parseMonths fuel q3 c3 with
          | error e => rw [h4] at h; cases h
          | timeout => rw [h4] at h; cases h
          | ok a4 =>
            obtain ⟨c4, q4⟩ := a4
            obtain ⟨⟨r4, k4, s4⟩, d4⟩ := parseField_sim .month fuel q3 r3 q4 c3 c4
              ((((⟨[], [], [], [], [], s ++ [32, 42]⟩ : Crontab).set .minute
                (c1.get .minute)).set .hour (c2.get .hour)).set .day (c3.get .day)) s3 h4
            rw [h4] at h
            simp only [cronParser.parseField] at k4
            rw [k4]
            simp only at h ⊢
            cases h5 : cronParser.parseDaysOfWeek fuel q4 c4 with
            | error e => rw [h5] at h; cases h
            | timeout => rw [h5] at h; cases h
            | ok a5 =>
              obtain ⟨c5, q5⟩ := a5
              obtain ⟨⟨r5, k5, s5⟩, d5⟩ := parseField_sim .week fuel q4 r4 q5 c4 c5
                (((((⟨[], [], [], [], [], s ++ [32, 42]⟩ : Crontab).set .minute
                  (c1.get .minute)).set .hour (c2.get .hour)).set .day (c3.get .day)).set
                    .month (c4.get .month)) s4 h5
              rw [h5] at h
              simp only [cronParser.parseField] at k5
              rw [k5]
              simp only [Outcome.ok.injEq] at h ⊢
              rw [← h, d5, d4, d3, d2, d1]
              simp only [Crontab.set, Crontab.get]

/-! ## A location without transitions is a fixed offset -/

theorem lookup_fixed (off sec : Int) :
    (⟨off, []⟩ : Location).lookup sec = (off, lookupAlpha, lookupOmega) := rfl

theorem Time.fixed_zoned (t : Time) : t.zoned.fixed = t := rfl

theorem Time.loc_zoned (t : Time) : t.zoned.loc = ⟨t.loc, []⟩ := rfl

theorem Time.Add_zoned (t : Time) (d : Int) : t.zoned.Add d = (t.Add d).zoned := rfl

theorem ZonedTime.eq_zoned (z : ZonedTime) (h : z.loc.tx = []) :
    z = (⟨z.ns, z.loc.first⟩ : Time).zoned := by
  obtain ⟨ns, first, tx⟩ := z
  simp only at h
  subst h
  rfl

theorem DateIn_fixed (y m d h mi s n off : Int) :
    DateIn y m d h mi s n ⟨off, []⟩ = (Date y m d h mi s n off).zoned := by
  simp only [DateIn, lookup_fixed, Time.zoned, Date, ite_self]
  by_cases h0 : off = 0
  · subst h0
    simp
  · rw [if_pos h0]
    simp only [ZonedTime.mk.injEq, and_true]
    ring

theorem nextLoopIn_fixed (cron : Crontab) :
    ∀ (fuel : Nat) (t : Time),
      nextLoopIn cron fuel t.zoned = (nextLoop cron fuel t).map Time.zoned := by
  intro fuel
  induction fuel with
  | zero => intro t; rfl
  | succ fuel ih =>
    intro t
    simp only [nextLoopIn, nextLoop, ZonedTime.Year, ZonedTime.Month, ZonedTime.Day,
      ZonedTime.Weekday, ZonedTime.Hour, ZonedTime.Minute, Time.Add_zoned, Time.fixed_zoned,
      Time.loc_zoned, DateIn_fixed, ih]
    split_ifs <;> rfl

theorem nextFromIn_fixed (cron : Crontab) (fuel : Nat) (t : Time) :
    nextFromIn cron fuel t.zoned = (nextFrom cron fuel t).map Time.zoned := by
  simp only [nextFromIn, nextFrom, ZonedTime.Year, ZonedTime.Month, ZonedTime.Day,
    ZonedTime.Hour, ZonedTime.Minute, Time.Add_zoned, Time.fixed_zoned, Time.loc_zoned,
    DateIn_fixed, nextLoopIn_fixed]

theorem nextFromIn_fixed_some (cron : Crontab) (fuel : Nat) (z t : ZonedTime)
    (hz : z.loc.tx = []) (h : nextFromIn cron fuel z = some t) :
    ∃ t0, nextFrom cron fuel ⟨z.ns, z.loc.first⟩ = some t0 ∧ t = t0.zoned := by
  rw [z.eq_zoned hz, nextFromIn_fixed] at h
  cases h0 : nextFrom cron fuel ⟨z.ns, z.loc.first⟩ with
  | none => rw [h0] at h; cases h
  | some t0 =>
    rw [h0] at h
    simp only [Option.map_some', Option.some.injEq] at h
    exact ⟨t0, rfl, h.symm⟩

/-! ## The loop of `nextFrom` at a zone transition -/

theorem nextLoopIn_hour (cron : Crontab) (fuel : Nat) (next : ZonedTime)
    (h1 : inInt8Slice (int8 next.Month) cron.Months = true)
    (h2 : inInt8Slice (int8 next.Day) cron.DaysOfMonth = true)
    (h3 : inInt8Slice (int8 next.Hour) cron.Hours = false) :
    nextLoopIn cron (fuel + 1) next =
      nextLoopIn cron fuel (DateIn (next.Add Hour).Year (next.Add Hour).Month
        (next.Add Hour).Day (next.Add Hour).Hour 0 0 0 next.loc) := by
  simp only [nextLoopIn, h1, h2, h3, Bool.not_true, Bool.not_false, Bool.false_and,
    Bool.false_eq_true, if_false, if_true, ZonedTime.Add]

/-- With the hours `[9]` the loop of `nextFrom` in New York does not leave 2023-11-05
01:00 EDT: an hour later it is 01:00 EST, and `time.Date` of that reading is 01:00 EDT
again. -/
theorem nextLoopIn_newYork_stuck (fuel : Nat) :
    nextLoopIn ⟨[0], [9], upTo 31, upTo 12, [], bytes "0 9 * * *"⟩ fuel
      ⟨1699160400000000000, newYork⟩ = none := by
  induction fuel with
  | zero => rfl
  | succ fuel ih =>
    rw [nextLoopIn_hour _ _ _ (by decide) (by decide) (by decide)]
    exact ih

/-- From 2023-11-04 23:00:00 in New York (03:00:00 UTC of the next day) the search for
`0 9 * * *` returns for no fuel, although 09:00 of 2023-11-05 in New York, ten hours
ahead, passes the four checks: the search goes by 00:00 EDT to 01:00 EDT and stays
there. -/
theorem nextFromIn_newYork_stuck :
    (∀ fuel, nextFromIn ⟨[0], [9], upTo 31, upTo 12, [], bytes "0 9 * * *"⟩ fuel
      ⟨1699153200000000000, newYork⟩ = none) ∧
    (ZonedTime.mk 1699192800000000000 newYork).Month = 11 ∧
    (ZonedTime.mk 1699192800000000000 newYork).Day = 5 ∧
    (ZonedTime.mk 1699192800000000000 newYork).Hour = 9 ∧
    (ZonedTime.mk 1699192800000000000 newYork).Minute = 0 := by
  refine ⟨fun fuel => ?_, by decide, by decide, by decide, by decide⟩
  have h0 : nextFromIn ⟨[0], [9], upTo 31, upTo 12, [], bytes "0 9 * * *"⟩ fuel
      ⟨1699153200000000000, newYork⟩ =
    nextLoopIn ⟨[0], [9], upTo 31, upTo 12, [], bytes "0 9 * * *"⟩ fuel
      ⟨1699153260000000000, newYork⟩ := by
    simp only [nextFromIn]
    congr 1
  have h1 : ∀ n, nextLoopIn ⟨[0], [9], upTo 31, upTo 12, [], bytes "0 9 * * *"⟩ (n + 1)
      ⟨1699153260000000000, newYork⟩ =
    nextLoopIn ⟨[0], [9], upTo 31, upTo 12, [], bytes "0 9 * * *"⟩ n
      ⟨1699156800000000000, newYork⟩ := by
    intro n
    rw [nextLoopIn_hour _ _ _ (by decide) (by decide) (by decide)]
    congr 1
  have h2 : ∀ n, nextLoopIn ⟨[0], [9], upTo 31, upTo 12, [], bytes "0 9 * * *"⟩ (n + 1)
      ⟨1699156800000000000, newYork⟩ =
    nextLoopIn ⟨[0], [9], upTo 31, upTo 12, [], bytes "0 9 * * *"⟩ n
      ⟨1699160400000000000, newYork⟩ := by
    intro n
    rw [nextLoopIn_hour _ _ _ (by decide) (by decide) (by decide)]
    congr 1
  rw [h0]
  match fuel with
  | 0 => rfl
  | 1 => rw [h1]; rfl
  | n + 2 => rw [h1, h2]; exact nextLoopIn_newYork_stuck n

/-! ## Names in every letter case -/

theorem toLower_letter (x a : Nat) (ha : 97 ≤ a ∧ a ≤ 122)
    (h : (if 65 ≤ x ∧ x ≤ 90 then x + 32 else x) = a) : x = a ∨ x = a - 32 := by
  split_ifs at h <;> omega

/-- The words that `toLower` takes to a given word of three small letters: each letter
small or capital. -/
theorem toLower_three (w : List Nat) (a b c : Nat) (ha : 97 ≤ a ∧ a ≤ 122)
    (hb : 97 ≤ b ∧ b ≤ 122) (hc : 97 ≤ c ∧ c ≤ 122) (h : toLower w = [a, b, c]) :
    ∃ x y z, w = [x, y, z] ∧ (x = a ∨ x = a - 32) ∧ (y = b ∨ y = b - 32) ∧
      (z = c ∨ z = c - 32) := by
  match w, h with
  | [x, y, z], h =>
    simp only [toLower, List.map_cons, List.map_nil, List.cons.injEq, and_true] at h
    exact ⟨x, y, z, rfl, toLower_letter x a ha h.1, toLower_letter y b hb h.2.1,
      toLower_letter z c hc h.2.2⟩

/-- A field that is a word of the name table is parsed to the number of the name, when the
lexer gives a token for the ring. -/
theorem parseAny_word_ok (f : cronField) (fuel : Nat) (p : cronParser) (cron : Crontab)
    (names : List (List Nat × Int)) (n : Int) (hp : p.WF) (hf : f.names = some names)
    (h0 : (p.L 0).t = .Word) (hl : ∀ e, (NextToken p.lexer).1 ≠ .error e)
    (hn : names.lookup (toLower (p.L 0).v) = some n) :
    p.parseAny f fuel cron = .ok (cron.set f [int8 n], p.Consume.2) := by
  have hc : p.Consume.1 = .ok (p.L 0) := by
    rw [(Consume_result p hp).2.2]
    cases hx : (NextToken p.lexer).1 with
    | error e => exact absurd hx (hl e)
    | ok t => rfl
  have hw : p.word = .ok ((p.L 0).v, p.Consume.2) := by
    simp only [cronParser.word, Match_ok p .Word h0, bind, Except.bind, pure, Except.pure]
    cases hx : p.Consume with
    | mk r q =>
      have h1 : r = .ok (p.L 0) := by rw [← hc, hx]
      subst h1
      rfl
  simp only [cronParser.parseAny]
  rw [if_neg (by rw [h0]; decide), if_neg (by rw [h0]; decide), hf]
  simp only [h0, if_true, hw, hn]

/-! ## Steps with which `makeRangeOfInt8` comes to an end -/

theorem int8_bounds (x : Int) : -128 ≤ int8 x ∧ int8 x ≤ 127 := by
  simp only [int8]; omega

theorem int8_add_int8 (a b : Int) : int8 (int8 a + b) = int8 (a + b) := by
  simp only [int8]; omega

/-- The loop of `makeRangeOfInt8` ends within the fuel when the counter gets above `max`
within that many passes. -/
theorem makeRangeLoop_ends (max d : Int) :
    ∀ (fuel : Nat) (i : Int), -128 ≤ i → i ≤ 127 →
      (∃ k : Nat, k < fuel ∧ max < int8 (i + k * d)) →
      ∃ s, makeRangeLoop max d fuel i = some s := by
  intro fuel
  induction fuel with
  | zero => rintro i _ _ ⟨k, hk, _⟩; omega
  | succ n ih =>
    rintro i h0 h1 ⟨k, hk, hm⟩
    simp only [makeRangeLoop]
    by_cases c : i ≤ max
    · rw [if_pos c]
      have hk0 : k ≠ 0 := by
        rintro rfl
        simp only [int8, Nat.cast_zero, zero_mul, add_zero] at hm
        omega
      obtain ⟨k2, rfl⟩ := Nat.exists_eq_succ_of_ne_zero hk0
      obtain ⟨s, hs⟩ := ih (int8 (i + d)) (int8_bounds _).1 (int8_bounds _).2
        ⟨k2, by omega, by
          rw [int8_add_int8]
          have e : i + d + (k2 : Int) * d = i + ((k2 + 1 : Nat) : Int) * d := by
            push_cast; ring
          rw [e]; exact hm⟩
      exact ⟨i :: s, by rw [hs]; rfl⟩
    · rw [if_neg c]; exact ⟨[], rfl⟩

/-- A step that is no multiple of 128 has a multiple, by a power of two up to 64, that is
64 or 192 modulo 256. -/
theorem step_quarter (d : Int) (h0 : -128 ≤ d) (h1 : d ≤ 127) (h : d % 128 ≠ 0) :
    ∃ K : Nat, K ≤ 64 ∧ (((K : Int) * d) % 256 = 64 ∨ ((K : Int) * d) % 256 = 192) := by
  by_cases c1 : d % 2 ≠ 0
  · exact ⟨64, by omega, by push_cast; omega⟩
  by_cases c2 : d % 4 ≠ 0
  · exact ⟨32, by omega, by push_cast; omega⟩
  by_cases c3 : d % 8 ≠ 0
  · exact ⟨16, by omega, by push_cast; omega⟩
  by_cases c4 : d % 16 ≠ 0
  · exact ⟨8, by omega, by push_cast; omega⟩
  by_cases c5 : d % 32 ≠ 0
  · exact ⟨4, by omega, by push_cast; omega⟩
  by_cases c6 : d % 64 ≠ 0
  · exact ⟨2, by omega, by push_cast; omega⟩
  · exact ⟨1, by omega, by push_cast; omega⟩

/-- With a step that is no multiple of 128 the counter gets above `max`, when `max` is
below 64, within 192 passes. -/
theorem counter_passes (i d max : Int) (h0 : -128 ≤ d) (h1 : d ≤ 127) (h : d % 128 ≠ 0)
    (hmax : max ≤ 63) : ∃ k : Nat, k < 193 ∧ max < int8 (i + k * d) := by
  obtain ⟨K, hK, hq⟩ := step_quarter d h0 h1 h
  generalize he : (K : Int) * d = e at hq
  have key : max < int8 (i + 0 * e) ∨ max < int8 (i + 1 * e) ∨ max < int8 (i + 2 * e) ∨
      max < int8 (i + 3 * e) := by
    simp only [int8]; omega
  rcases key with k0 | k1 | k2 | k3
  · exact ⟨0 * K, by omega, by push_cast; rw [mul_assoc, he]; exact k0⟩
  · exact ⟨1 * K, by omega, by push_cast; rw [mul_assoc, he]; exact k1⟩
  · exact ⟨2 * K, by omega, by push_cast; rw [mul_assoc, he]; exact k2⟩
  · exact ⟨3 * K, by omega, by push_cast; rw [mul_assoc, he]; exact k3⟩

/-- The function `makeRangeOfInt8` returns, with a fuel of 193 passes or more, for every
step that is no multiple of 128 and every `max` below 64. -/
theorem makeRangeOfInt8_ends (fuel : Nat) (min max step : Int) (hf : 193 ≤ fuel)
    (hmin : -128 ≤ min ∧ min ≤ 127) (hmax : max ≤ 63) (h : step % 128 ≠ 0) :
    ∃ s, makeRangeOfInt8 fuel min max step = some s := by
  simp only [makeRangeOfInt8]
  have hd : int8 step % 128 ≠ 0 := by simp only [int8]; omega
  obtain ⟨k, hk, hm⟩ := counter_passes min (int8 step) max (int8_bounds _).1 (int8_bounds _).2
    hd hmax
  exact makeRangeLoop_ends max (int8 step) fuel min hmin.1 hmin.2 ⟨k, by omega, hm⟩

/-- With a step that is a multiple of 128 the counter of `makeRangeOfInt8` goes between
`min` and `min - 128`, so for `0 <= min <= max` no fuel lets the function finish. -/
theorem makeRangeOfInt8_never (min max step : Int) (h0 : 0 ≤ min) (h1 : min ≤ max)
    (h2 : max ≤ 127) (h : step % 128 = 0) : ∀ fuel, makeRangeOfInt8 fuel min max step = none := by
  have key : ∀ (fuel : Nat) (i : Int), i = min ∨ i = int8 (min + int8 step) →
      makeRangeLoop max (int8 step) fuel i = none := by
    intro fuel
    induction fuel with
    | zero => intro i _; rfl
    | succ n ih =>
      intro i hi
      have hle : i ≤ max := by
        rcases hi with rfl | rfl
        · exact h1
        · simp only [int8]; omega
      have hn : int8 (i + int8 step) = min ∨ int8 (i + int8 step) = int8 (min + int8 step) := by
        rcases hi with rfl | rfl
        · exact Or.inr rfl
        · simp only [int8]; omega
      simp only [makeRangeLoop, if_pos hle, ih _ hn, Option.map_none']
  intro fuel
  exact key fuel min (Or.inl rfl)

/-! ## An input that ends within the first five tokens and has no step of 128 -/

theorem bound_le (f : cronField) : 0 ≤ f.bound ∧ f.bound ≤ 59 := by
  cases f <;> decide

theorem stepedAsterisk_step (p p2 : cronParser) (v : Int) (hp : p.WF)
    (h : p.stepedAsterisk = .ok (v, p2)) :
    (p.L 1).t = .Slash ∧ (p.L 2).t = .Number ∧ v = digitsVal (p.L 2).v := by
  obtain ⟨w1, s10, s11, _, _⟩ := Consume_shift p hp
  obtain ⟨_, s20, _, _, _⟩ := Consume_shift _ w1
  rw [stepedAsterisk_take] at h
  cases h1 : p.take .Asterisk with
  | error e => rw [h1] at h; cases h
  | ok a1 =>
    obtain ⟨t1, q1⟩ := a1
    rw [h1] at h
    simp only at h
    obtain ⟨_, _, rfl, _⟩ := take_ok _ _ _ _ h1
    cases h2 : p.Consume.2.take .Slash with
    | error e => rw [h2] at h; cases h
    | ok a2 =>
      obtain ⟨t2, q2⟩ := a2
      rw [h2] at h
      simp only at h
      obtain ⟨e2, _, rfl, _⟩ := take_ok _ _ _ _ h2
      cases h3 : p.Consume.2.Consume.2.take .Number with
      | error e => rw [h3] at h; cases h
      | ok a3 =>
        obtain ⟨t3, q3⟩ := a3
        rw [h3] at h
        simp only at h
        obtain ⟨e3, _, rfl, rfl⟩ := take_ok _ _ _ _ h3
        cases h4 : (p.Consume.2.Consume.2.L 0).IntVal with
        | error e => rw [h4] at h; cases h
        | ok step =>
          rw [h4] at h
          simp only [Except.ok.injEq, Prod.mk.injEq] at h
          have hv := IntVal_ok _ _ h4
          rw [s20, s11] at e3 hv
          rw [s10] at e2
          exact ⟨e2, e3, h.1 ▸ hv⟩

theorem stepedRange_step (p p2 : cronParser) (v1 v2 v3 : Int) (hp : p.WF)
    (h : p.stepedRange = .ok (v1, v2, v3, p2)) :
    (p.L 3).t = .Slash ∧ (p.L 4).t = .Number ∧ v3 = digitsVal (p.L 4).v := by
  obtain ⟨w1, _, _, _, s13⟩ := Consume_shift p hp
  obtain ⟨w2, _, _, s22, _⟩ := Consume_shift _ w1
  obtain ⟨w3, _, s31, _, _⟩ := Consume_shift _ w2
  obtain ⟨_, s40, _, _, _⟩ := Consume_shift _ w3
  have hs13 : p.Consume.2.Consume.2.Consume.2.L 0 = p.L 3 := by
    obtain ⟨_, s0, _, _, _⟩ := Consume_shift _ w2
    obtain ⟨_, _, t1, _, _⟩ := Consume_shift _ w1
    obtain ⟨_, _, _, u2, _⟩ := Consume_shift p hp
    rw [s0, t1, u2]
  have hs14 : p.Consume.2.Consume.2.Consume.2.Consume.2.L 0 = p.L 4 := by
    rw [s40, s31, s22, s13]
  rw [stepedRange_take] at h
  cases h1 : p.take .Number with
  | error e => rw [h1] at h; cases h
  | ok a1 =>
    obtain ⟨t1, q1⟩ := a1
    rw [h1] at h
    simp only at h
    obtain ⟨_, _, rfl, _⟩ := take_ok _ _ _ _ h1
    cases i1 : t1.IntVal with
    | error e => rw [i1] at h; cases h
    | ok x1 =>
      rw [i1] at h
      simp only at h
      cases h2 : p.Consume.2.take .Hyphen with
      | error e => rw [h2] at h; cases h
      | ok a2 =>
        obtain ⟨t2, q2⟩ := a2
        rw [h2] at h
        simp only at h
        obtain ⟨_, _, rfl, _⟩ := take_ok _ _ _ _ h2
        cases h3 : p.Consume.2.Consume.2.take .Number with
        | error e => rw [h3] at h; cases h
        | ok a3 =>
          obtain ⟨t3, q3⟩ := a3
          rw [h3] at h
          simp only at h
          obtain ⟨_, _, rfl, _⟩ := take_ok _ _ _ _ h3
          cases i3 : t3.IntVal with
          | error e => rw [i3] at h; cases h
          | ok x3 =>
            rw [i3] at h
            simp only at h
            cases h4 : p.Consume.2.Consume.2.Consume.2.take .Slash with
            | error e => rw [h4] at h; cases h
            | ok a4 =>
              obtain ⟨t4, q4⟩ := a4
              rw [h4] at h
              simp only at h
              obtain ⟨e4, _, rfl, _⟩ := take_ok _ _ _ _ h4
              cases h5 : p.Consume.2.Consume.2.Consume.2.Consume.2.take .Number with
              | error e => rw [h5] at h; cases h
              | ok a5 =>
                obtain ⟨t5, q5⟩ := a5
                rw [h5] at h
                simp only at h
                obtain ⟨e5, _, rfl, rfl⟩ := take_ok _ _ _ _ h5
                cases i5 : (p.Consume.2.Consume.2.Consume.2.Consume.2.L 0).IntVal with
                | error e => rw [i5] at h; cases h
                | ok x5 =>
                  rw [i5] at h
                  simp only [Except.ok.injEq, Prod.mk.injEq] at h
                  have hv := IntVal_ok _ _ i5
                  rw [hs14] at e5 hv
                  rw [hs13] at e4
                  exact ⟨e4, e5, h.2.2.1 ▸ hv⟩

/-- The recursion of `list` ends when the input has ended: each pass takes two tokens
that are not the EOF token. -/
theorem list_returns : ∀ (fuel k : Nat) (p : cronParser) (c : List Int), p.eofFrom k →
    k < 2 * fuel → p.list fuel c ≠ .timeout := by
  intro fuel
  induction fuel with
  | zero => intro k p c _ hk; omega
  | succ n ih =>
    intro k p c hp hk
    rw [list_succ]
    cases h1 : p.take .Number with
    | error e => simp only; intro h; cases h
    | ok a1 =>
      obtain ⟨t1, q1⟩ := a1
      obtain ⟨_, _, rfl, _⟩ := take_ok _ _ _ _ h1
      simp only
      cases t1.IntVal with
      | error e => simp only; intro h; cases h
      | ok v1 =>
        simp only
        by_cases c1 : v1 < 0 ∨ v1 > 59
        · rw [if_pos c1]; intro h; cases h
        rw [if_neg c1]
        cases p.Consume.2.Match .Comma with
        | error e => simp only; intro h; cases h
        | ok u =>
          simp only
          have hq := eofFrom_Consume _ _ (eofFrom_Consume p k hp)
          by_cases c2 : (p.Consume.2.Consume.2.L 1).t = .Comma
          · rw [if_pos c2]
            have hk2 : ¬ k - 1 - 1 ≤ 1 := by
              intro hle
              have := hq.2.2 1 hle (by omega)
              rw [this] at c2
              cases c2
            exact ih (k - 1 - 1) _ _ hq (by omega)
          · rw [if_neg c2]
            cases p.Consume.2.Consume.2.take .Number with
            | error e => simp only; intro h; cases h
            | ok a2 =>
              obtain ⟨t2, q3⟩ := a2
              simp only
              cases t2.IntVal with
              | error e => simp only; intro h; cases h
              | ok v2 =>
                simp only
                by_cases c3 : v2 < 0 ∨ v2 > 59
                · rw [if_pos c3]; intro h; cases h
                · rw [if_neg c3]; intro h; cases h

theorem stepsEnd_Consume (p : cronParser) (hp : p.eofFrom 4) (hs : p.stepsEnd) :
    p.Consume.2.eofFrom 4 ∧ p.Consume.2.stepsEnd := by
  have he := eofFrom_Consume p 4 hp
  refine ⟨eofFrom_mono _ _ _ (by omega) he, ?_⟩
  obtain ⟨_, s0, s1, s2, s3⟩ := Consume_shift p hp.1
  intro j hj h1 h2
  have hj4 : j = 0 ∨ j = 1 ∨ j = 2 ∨ j = 3 := by omega
  rcases hj4 with rfl | rfl | rfl | rfl
  · rw [s0] at h1; rw [s1] at h2 ⊢; exact hs 1 (by omega) h1 h2
  · rw [s1] at h1; rw [s2] at h2 ⊢; exact hs 2 (by omega) h1 h2
  · rw [s2] at h1; rw [s3] at h2 ⊢; exact hs 3 (by omega) h1 h2
  · have := he.2.2 4 (by omega) (by omega)
    rw [this] at h2
    cases h2

/-- A field parser returns, with a fuel of 193 or more, when the input has ended within
the tokens ahead and no step among them is a multiple of 128. -/
theorem parseAny_returns (f : cronField) (fuel : Nat) (p : cronParser) (cron : Crontab)
    (hf : 193 ≤ fuel) (hp : p.eofFrom 4) (hs : p.stepsEnd) :
    p.parseAny f fuel cron ≠ .timeout := by
  obtain ⟨hb0, hb1⟩ := bound_le f
  have small : ∀ x : Int, ¬ (x < 0 ∨ x > f.bound) → int8 x = x ∧ 0 ≤ x ∧ x ≤ 59 := by
    intro x hx
    have : 0 ≤ x ∧ x ≤ 59 := by omega
    exact ⟨int8_of_small x this.1 (by omega), this⟩
  simp only [cronParser.parseAny]
  by_cases a1 : (p.L 0).t = cronTokenType.Asterisk
  · rw [if_pos a1]
    by_cases a2 : (p.L 1).t = cronTokenType.Slash
    · rw [if_pos a2]
      cases hq : p.stepedAsterisk with
      | error e => simp only; intro h; cases h
      | ok a =>
        obtain ⟨step, q⟩ := a
        obtain ⟨e1, e2, e3⟩ := stepedAsterisk_step p q step hp.1 hq
        have hstep : step % 128 ≠ 0 := by
          have : digitsVal (p.L 2).v % 128 ≠ 0 := hs 1 (by omega) e1 e2
          rw [e3]; omega
        obtain ⟨s, hm⟩ := makeRangeOfInt8_ends fuel (int8 0) (int8 f.bound) step hf
          (int8_bounds _) (by rw [int8_of_small _ hb0 (by omega)]; omega) hstep
        simp only [hm]
        intro h; cases h
    · rw [if_neg a2]
      cases hq : p.asterisk with
      | error e => simp only; intro h; cases h
      | ok q =>
        simp only
        by_cases a3 : f = cronField.week
        · rw [if_pos a3]; intro h; cases h
        · rw [if_neg a3]
          obtain ⟨s, hm⟩ := makeRangeOfInt8_ends fuel (int8 0) (int8 f.bound) 1 hf
            (int8_bounds _) (by rw [int8_of_small _ hb0 (by omega)]; omega) (by decide)
          simp only [hm]
          intro h; cases h
  rw [if_neg a1]
  by_cases a4 : (p.L 0).t = cronTokenType.Number
  · rw [if_pos a4]
    by_cases a5 : (p.L 1).t = cronTokenType.Hyphen
    · rw [if_pos a5]
      by_cases a6 : (p.L 3).t = cronTokenType.Slash
      · rw [if_pos a6]
        cases hq : p.stepedRange with
        | error e => simp only; intro h; cases h
        | ok a =>
          obtain ⟨v1, v2, v3, q⟩ := a
          simp only
          by_cases b1 : v1 < 0 ∨ v1 > f.bound
          · rw [if_pos b1]; intro h; cases h
          rw [if_neg b1]
          by_cases b2 : v2 < 0 ∨ v2 > f.bound
          · rw [if_pos b2]; intro h; cases h
          rw [if_neg b2]
          by_cases b3 : v1 > v2
          · rw [if_pos b3]; intro h; cases h
          rw [if_neg b3]
          obtain ⟨e1, e2, e3⟩ := stepedRange_step p q v1 v2 v3 hp.1 hq
          have hstep : v3 % 128 ≠ 0 := by
            have : digitsVal (p.L 4).v % 128 ≠ 0 := hs 3 (by omega) e1 e2
            rw [e3]; omega
          obtain ⟨s, hm⟩ := makeRangeOfInt8_ends fuel (int8 v1) (int8 v2) v3 hf
            (int8_bounds _) (by rw [(small v2 b2).1]; have := (small v2 b2).2; omega) hstep
          simp only [hm]
          intro h; cases h
      · rw [if_neg a6]
        cases hq : p.cronRange with
        | error e => simp only; intro h; cases h
        | ok a =>
          obtain ⟨v1, v2, q⟩ := a
          simp only
          by_cases b1 : v1 < 0 ∨ v1 > f.bound
          · rw [if_pos b1]; intro h; cases h
          rw [if_neg b1]
          by_cases b2 : v2 < 0 ∨ v2 > f.bound
          · rw [if_pos b2]; intro h; cases h
          rw [if_neg b2]
          by_cases b3 : v1 > v2
          · rw [if_pos b3]; intro h; cases h
          rw [if_neg b3]
          obtain ⟨s, hm⟩ := makeRangeOfInt8_ends fuel (int8 v1) (int8 v2) 1 hf
            (int8_bounds _) (by rw [(small v2 b2).1]; have := (small v2 b2).2; omega)
            (by decide)
          simp only [hm]
          intro h; cases h
    · rw [if_neg a5]
      by_cases a7 : (p.L 1).t = cronTokenType.Comma
      · rw [if_pos a7]
        have hl := list_returns fuel 4 p [] hp (by omega)
        cases hq : p.list fuel [] with
        | error e => simp only; intro h; cases h
        | timeout => exact absurd hq hl
        | ok a => simp only; intro h; cases h
      · rw [if_neg a7]
        cases hq : p.number with
        | error e => simp only; intro h; cases h
        | ok a =>
          obtain ⟨v, q⟩ := a
          simp only
          by_cases b1 : v < 0 ∨ v > f.bound
          · rw [if_pos b1]; intro h; cases h
          · rw [if_neg b1]; intro h; cases h
  rw [if_neg a4]
  cases hn : f.names with
  | none => simp only; intro h; cases h
  | some names =>
    simp only
    by_cases a8 : (p.L 0).t = cronTokenType.Word
    · rw [if_pos a8]
      cases hq : p.word with
      | error e => simp only; intro h; cases h
      | ok a =>
        obtain ⟨v, q⟩ := a
        simp only
        cases names.lookup (toLower v) with
        | none => simp only; intro h; cases h
        | some n => simp only; intro h; cases h
    · rw [if_neg a8]; intro h; cases h

/-- With the input ending within the first five tokens and no step among them a multiple
of 128, `NewCrontab` returns with a fuel of 193 or more. -/
theorem NewCrontab_returns (s : List Nat) (p : cronParser) (i : Nat)
    (h : newCronParser s 5 = .ok p) (hi : i < 5) (he : (p.L i).t = .EOF) (hs : p.stepsEnd)
    (fuel : Nat) (hf : 193 ≤ fuel) : NewCrontab fuel s ≠ .timeout := by
  have h0 := newCronParser_eofFrom s p i h hi he
  have step : ∀ (g : cronField) (o : Outcome (Crontab × cronParser)),
      (o ≠ .timeout ∧ ∀ c q, o = .ok (c, q) → q.eofFrom 4 ∧ q.stepsEnd) →
      (o.andThen (cronParser.parseField g fuel) ≠ .timeout ∧
        ∀ c q, o.andThen (cronParser.parseField g fuel) = .ok (c, q) →
          q.eofFrom 4 ∧ q.stepsEnd) := by
    intro g o ho
    cases o with
    | timeout => exact absurd rfl ho.1
    | error e =>
      exact ⟨fun h => (by cases h), fun c q h => (by cases h)⟩
    | ok a =>
      obtain ⟨c0, q0⟩ := a
      obtain ⟨k1, k2⟩ := ho.2 c0 q0 rfl
      simp only [Outcome.andThen, parseField_eq_parseAny]
      refine ⟨parseAny_returns g fuel q0 c0 hf k1 k2, fun c q hq => ?_⟩
      exact parseAny_closed (fun r => r.eofFrom 4 ∧ r.stepsEnd)
        (fun r hr => stepsEnd_Consume r hr.1 hr.2) g fuel q0 q c0 c hq
        (stepsEnd_Consume q0 k1 k2)
  have hmin : fieldStart fuel s .minute ≠ .timeout ∧
      ∀ c q, fieldStart fuel s .minute = .ok (c, q) → q.eofFrom 4 ∧ q.stepsEnd := by
    simp only [fieldStart, atMinutes, h]
    refine ⟨fun h => (by cases h), fun c q hq => ?_⟩
    simp only [Outcome.ok.injEq, Prod.mk.injEq] at hq
    exact hq.2 ▸ ⟨h0, hs⟩
  obtain ⟨e1, e2, e3, e4⟩ := fieldStart_next fuel s
  have hh := step .minute _ hmin
  rw [← e1] at hh
  have hd := step .hour _ hh
  rw [← e2] at hd
  have hmo := step .day _ hd
  rw [← e3] at hmo
  have hw := step .month _ hmo
  rw [← e4] at hw
  have hend := (step .week _ hw).1
  rw [NewCrontab_eq]
  cases hr : (fieldStart fuel s .week).andThen (cronParser.parseField .week fuel) with
  | timeout => exact absurd hr hend
  | error e => simp only; intro h; cases h
  | ok a => simp only; intro h; cases h

/-! ## A single number above the bound, and a range behind the step zero -/

/-- A field at which the ring holds a number above the bound of the field, with no `-`
and no `,` as the next token, makes `NewCrontab` return an error.  After a lexer error
that `list` dropped, the ring can hold a `,` that the input does not have there. -/
theorem number_above_bound_error (fuel : Nat) (s : List Nat) (f : cronField) (c0 : Crontab)
    (p : cronParser) (hs : fieldStart fuel s f = .ok (c0, p)) (h0 : (p.L 0).t = .Number)
    (h1 : (p.L 1).t ≠ .Hyphen) (h2 : (p.L 1).t ≠ .Comma) (hv : f.bound < digitsVal (p.L 0).v) :
    ∃ e, NewCrontab fuel s = .error e := by
  obtain ⟨e, he⟩ := parseAny_number_error f fuel p c0 h0 h1 h2 hv
  rw [← parseField_eq_parseAny] at he
  exact ⟨e, NewCrontab_error_of_field fuel s f c0 p e hs he⟩

theorem NewCrontab_step_zero_range (fuel : Nat) :
    NewCrontab fuel (bytes "*/0 20-10 * * *") = .timeout := by
  have hp : newCronParser (bytes "*/0 20-10 * * *") 5 =
      .ok ⟨bytes "10 * * *", [⟨.Asterisk, [42]⟩, ⟨.Slash, [47]⟩, ⟨.Number, [48]⟩,
        ⟨.Number, [50, 48]⟩, ⟨.Hyphen, [45]⟩], 5, 0⟩ := rfl
  have hs : (⟨bytes "10 * * *", [⟨.Asterisk, [42]⟩, ⟨.Slash, [47]⟩, ⟨.Number, [48]⟩,
      ⟨.Number, [50, 48]⟩, ⟨.Hyphen, [45]⟩], 5, 0⟩ : cronParser).stepedAsterisk =
      .ok (0, ⟨bytes " *", [⟨.Number, [49, 48]⟩, ⟨.Asterisk, [42]⟩, ⟨.Asterisk, [42]⟩,
        ⟨.Number, [50, 48]⟩, ⟨.Hyphen, [45]⟩], 5, 3⟩) := rfl
  have h0 : ((⟨bytes "10 * * *", [⟨.Asterisk, [42]⟩, ⟨.Slash, [47]⟩, ⟨.Number, [48]⟩,
      ⟨.Number, [50, 48]⟩, ⟨.Hyphen, [45]⟩], 5, 0⟩ : cronParser).L 0).t = .Asterisk := rfl
  have h1 : ((⟨bytes "10 * * *", [⟨.Asterisk, [42]⟩, ⟨.Slash, [47]⟩, ⟨.Number, [48]⟩,
      ⟨.Number, [50, 48]⟩, ⟨.Hyphen, [45]⟩], 5, 0⟩ : cronParser).L 1).t = .Slash := rfl
  have hm : makeRangeOfInt8 fuel (int8 0) (int8 59) 0 = none :=
    makeRangeLoop_zero _ _ (by decide) (by decide) (by decide) fuel
  simp only [NewCrontab, hp, cronParser.Parse, cronParser.parseMinutes]
  rw [if_pos h0, if_pos h1]
  simp only [hs, hm]

/-! ## Claims about `nextFrom` -/

/-- C1: a time returned by `nextFrom` is the next matching one: no whole-minute time
strictly between `start` and the result (in the zone of `start`) passes the four checks
of the loop.  And for `*/10 * * * *` a start at 12:00:03 of any day gives 12:10:00 of
that day. -/
theorem nextFrom_is_next :
    (∀ (c : Crontab) (fuel : Nat) (start t : Time), nextFrom c fuel start = some t →
      ∀ u : Time, u.loc = start.loc → u.WholeMinute → start.ns < u.ns → u.ns < t.ns →
        ¬ (u.Month ∈ c.Months ∧ u.Hour ∈ c.Hours ∧ u.Minute ∈ c.Minutes ∧
          (u.Day ∈ c.DaysOfMonth ∨ u.Weekday ∈ c.DaysOfWeek))) ∧
    NewCrontab 300 (bytes "*/10 * * * *") =
      .ok ⟨[0, 10, 20, 30, 40, 50], upTo 23, upTo 31, upTo 12, [], bytes "*/10 * * * *"⟩ ∧
    ∀ start : Time, start.Hour = 12 → start.Minute = 0 → start.Second = 3 →
      nextFrom ⟨[0, 10, 20, 30, 40, 50], upTo 23, upTo 31, upTo 12, [], bytes "*/10 * * * *"⟩
        10 start = some (Date start.Year start.Month start.Day 12 10 0 0 start.loc) := by
  refine ⟨?_, by decide, ?_⟩
  · intro c fuel start t h u hl hu h1 h2 hm
    obtain ⟨r1, _, _, _, r5⟩ := nextFrom_sound c fuel start t h
    refine r5 u ((Time.wholeMinute_iff u).1 hu) ((wall_lt_iff _ _ hl.symm).2 h1)
      ((wall_lt_iff _ _ (hl.trans r1.symm)).2 h2) ⟨hm.1, hm.2.2.2, hm.2.1, hm.2.2.1⟩
  · intro start hh hmi hs
    generalize hc : (⟨[0, 10, 20, 30, 40, 50], upTo 23, upTo 31, upTo 12, [],
      bytes "*/10 * * * *"⟩ : Crontab) = c
    generalize hU : Date start.Year start.Month start.Day 12 10 0 0 start.loc = U
    have hUw : U.wall = start.days * 86400000000000 + 43800000000000 := by
      rw [← hU, Date_wall, start.days_eq]; omega
    have hUl : U.loc = start.loc := by rw [← hU]; rfl
    have hsw : start.wall - start.days * 86400000000000 - 43203000000000 < 1000000000 ∧
        0 ≤ start.wall - start.days * 86400000000000 - 43203000000000 := by
      simp only [Time.Hour, Time.Minute, Time.Second, Time.days] at *
      omega
    have hUm : c.Matches U := by
      subst hc
      refine ⟨?_, Or.inl ?_, ?_, ?_⟩
      · rw [mem_upTo, Time.Month_eq]; omega
      · rw [mem_upTo]; have := U.Day_bounds; omega
      · rw [mem_upTo]; simp only [Time.Hour]; omega
      · have : U.Minute = 10 := by simp only [Time.Minute]; omega
        rw [this]; decide
    obtain ⟨t, ht⟩ := nextFrom_total c start U hUm (by omega) (by omega) 10 (by omega)
    rw [ht]
    obtain ⟨r1, r2, r3, r4, r5⟩ := nextFrom_sound c 10 start t ht
    have hle : t.wall ≤ U.wall := by
      by_contra hc'
      exact r5 U (by omega) (by omega) (not_le.1 hc') hUm
    have hmin : t.Minute ∈ c.Minutes := r4.2.2.2
    subst hc
    simp only [List.mem_cons, List.mem_singleton, List.not_mem_nil, or_false, Time.Minute]
      at hmin
    congr 1
    apply Time.ext_wall _ _ (r1.trans hUl.symm)
    omega

/-- C1 at work: for `*/10 * * * *` and 2023-06-15 12:00:03 UTC, whose next time is
12:10:00, the whole minute 12:05:00 in between does not pass the checks. -/
theorem nextFrom_is_next_witness :
    nextFrom ⟨[0, 10, 20, 30, 40, 50], upTo 23, upTo 31, upTo 12, [], bytes "*/10 * * * *"⟩
        10 (Date 2023 6 15 12 0 3 0 0) = some (Date 2023 6 15 12 10 0 0 0) ∧
      ¬ ((Date 2023 6 15 12 5 0 0 0).Month ∈ upTo 12 ∧
        (Date 2023 6 15 12 5 0 0 0).Hour ∈ upTo 23 ∧
        (Date 2023 6 15 12 5 0 0 0).Minute ∈ ([0, 10, 20, 30, 40, 50] : List Int) ∧
        ((Date 2023 6 15 12 5 0 0 0).Day ∈ upTo 31 ∨
          (Date 2023 6 15 12 5 0 0 0).Weekday ∈ ([] : List Int))) :=
  ⟨by decide,
    nextFrom_is_next.1
      ⟨[0, 10, 20, 30, 40, 50], upTo 23, upTo 31, upTo 12, [], bytes "*/10 * * * *"⟩ 10
      (Date 2023 6 15 12 0 3 0 0) (Date 2023 6 15 12 10 0 0 0) (by decide)
      (Date 2023 6 15 12 5 0 0 0) (by decide) (by decide) (by decide) (by decide)⟩

/-- C2 as stated fails where daylight saving time ends: in New York, for `0 * * * *` and
2023-11-05 01:50:30 EDT (05:50:30 UTC), `nextFrom` returns 01:00:00 EDT of that day
(05:00:00 UTC), which is 50 minutes and 30 seconds before the start.  The minute after
01:59 EDT is 01:00 EST, and `time.Date` of the reading 01:00 is 01:00 EDT. -/
theorem nextFrom_after_start_counterexample :
    nextFromIn ⟨[0], upTo 23, upTo 31, upTo 12, [], bytes "0 * * * *"⟩ 12
        ⟨1699163430000000000, newYork⟩ = some ⟨1699160400000000000, newYork⟩ ∧
      (ZonedTime.mk 1699163430000000000 newYork).offset = -14400 ∧
      (ZonedTime.mk 1699163430000000000 newYork).Hour = 1 ∧
      (ZonedTime.mk 1699163430000000000 newYork).Minute = 50 ∧
      (ZonedTime.mk 1699160400000000000 newYork).offset = -14400 ∧
      (ZonedTime.mk 1699160400000000000 newYork).Hour = 1 ∧
      (ZonedTime.mk 1699160400000000000 newYork).Minute = 0 ∧
      ¬ (ZonedTime.mk 1699163430000000000 newYork).ns <
        (ZonedTime.mk 1699160400000000000 newYork).ns := by
  decide

/-- C2, amended: in a location without zone transitions (a fixed offset, UTC among them)
a time returned by `nextFrom` is strictly after `start`. -/
theorem nextFrom_after_start (c : Crontab) (fuel : Nat) (start t : ZonedTime)
    (hfix : start.loc.tx = []) (h : nextFromIn c fuel start = some t) : start.ns < t.ns := by
  obtain ⟨t0, h0, rfl⟩ := nextFromIn_fixed_some c fuel start t hfix h
  obtain ⟨r1, _, r3, _, _⟩ := nextFrom_sound c fuel _ t0 h0
  exact (wall_lt_iff _ _ r1.symm).1 r3

/-- C2 amended, at work: `0 9 * * *` from 2023-01-01 08:00:00 UTC gives 09:00:00, which
is later. -/
theorem nextFrom_after_start_witness :
    nextFromIn ⟨[0], [9], upTo 31, upTo 12, [], bytes "0 9 * * *"⟩ 5
        (DateIn 2023 1 1 8 0 0 0 ⟨0, []⟩) = some (DateIn 2023 1 1 9 0 0 0 ⟨0, []⟩) ∧
      (DateIn 2023 1 1 8 0 0 0 ⟨0, []⟩).ns < (DateIn 2023 1 1 9 0 0 0 ⟨0, []⟩).ns :=
  ⟨by decide,
    nextFrom_after_start ⟨[0], [9], upTo 31, upTo 12, [], bytes "0 9 * * *"⟩ 5
      (DateIn 2023 1 1 8 0 0 0 ⟨0, []⟩) (DateIn 2023 1 1 9 0 0 0 ⟨0, []⟩) rfl (by decide)⟩

/-- C3: a time returned by `nextFrom` has its month, hour and minute in the sets of the
Crontab, its day of month or its weekday in theirs, and lies on a whole-minute boundary:
seconds and nanoseconds are 0. -/
theorem nextFrom_matches (c : Crontab) (fuel : Nat) (start t : Time)
    (h : nextFrom c fuel start = some t) :
    t.Month ∈ c.Months ∧ t.Hour ∈ c.Hours ∧ t.Minute ∈ c.Minutes ∧
      (t.Day ∈ c.DaysOfMonth ∨ t.Weekday ∈ c.DaysOfWeek) ∧ t.Second = 0 ∧
      t.Nanosecond = 0 := by
  obtain ⟨_, r2, _, r4, _⟩ := nextFrom_sound c fuel start t h
  obtain ⟨s1, s2⟩ := (Time.wholeMinute_iff t).2 r2
  exact ⟨r4.1, r4.2.2.1, r4.2.2.2, r4.2.1, s1, s2⟩

/-- C3 at work: `30 4 15 * *` from 2023-01-15 04:25:30.5 in the zone UTC+2 gives
04:30:00 of that day and zone. -/
theorem nextFrom_matches_witness :
    nextFrom ⟨[30], [4], [15], upTo 12, [], bytes "30 4 15 * *"⟩ 6
        (Date 2023 1 15 4 25 30 500000000 7200) = some (Date 2023 1 15 4 30 0 0 7200) ∧
      (Date 2023 1 15 4 30 0 0 7200).Month ∈ upTo 12 ∧
      (Date 2023 1 15 4 30 0 0 7200).Hour ∈ ([4] : List Int) ∧
      (Date 2023 1 15 4 30 0 0 7200).Minute ∈ ([30] : List Int) ∧
      ((Date 2023 1 15 4 30 0 0 7200).Day ∈ ([15] : List Int) ∨
        (Date 2023 1 15 4 30 0 0 7200).Weekday ∈ ([] : List Int)) ∧
      (Date 2023 1 15 4 30 0 0 7200).Second = 0 ∧ (Date 2023 1 15 4 30 0 0 7200).Nanosecond = 0 :=
  ⟨by decide,
    nextFrom_matches ⟨[30], [4], [15], upTo 12, [], bytes "30 4 15 * *"⟩ 6
      (Date 2023 1 15 4 25 30 500000000 7200) (Date 2023 1 15 4 30 0 0 7200) (by decide)⟩

/-- C4 as stated fails: `* * * 0 *` is accepted with the month set `[0]`, and with it
`nextFrom` returns for no fuel and no start, since no month is numbered 0. -/
theorem nextFrom_terminates_counterexample :
    ¬ ∀ (s : List Nat) (fuel : Nat) (c : Crontab) (start : Time),
        NewCrontab fuel s = .ok c → ∃ fuel2 t, nextFrom c fuel2 start = some t := by
  intro h
  obtain ⟨fuel2, t, ht⟩ := h (bytes "* * * 0 *") 300
    ⟨upTo 59, upTo 23, upTo 31, [0], [], bytes "* * * 0 *"⟩ ⟨0, 0⟩ (by decide)
  have hm := (nextFrom_sound _ fuel2 _ t ht).2.2.2.1.1
  simp only [List.mem_singleton] at hm
  rw [Time.Month_eq] at hm
  omega

/-- C4, amended: in a location without zone transitions (a fixed offset, UTC among them),
for every Crontab, parsed or not, and every start, when some whole-minute time after
`start` passes the four checks, the loop of `nextFrom` returns within as many passes as
there are minutes up to that time. -/
theorem nextFrom_terminates (c : Crontab) (start u : ZonedTime) (hfix : start.loc.tx = [])
    (hl : u.loc = start.loc) (hu : u.Second = 0 ∧ u.Nanosecond = 0) (hlt : start.ns < u.ns)
    (hm : u.Month ∈ c.Months ∧ u.Hour ∈ c.Hours ∧ u.Minute ∈ c.Minutes ∧
      (u.Day ∈ c.DaysOfMonth ∨ u.Weekday ∈ c.DaysOfWeek)) :
    ∃ t, nextFromIn c (((u.ns - start.ns) / 60000000000).toNat + 1) start = some t := by
  have hu0 := u.eq_zoned (hl ▸ hfix)
  generalize hU : (⟨u.ns, u.loc.first⟩ : Time) = U at hu0
  have hUn : U.ns = u.ns := by rw [← hU]
  have hUl : U.loc = start.loc.first := by rw [← hU, hl]
  rw [hu0] at hu hm
  simp only [ZonedTime.Second, ZonedTime.Nanosecond, ZonedTime.Month, ZonedTime.Hour,
    ZonedTime.Minute, ZonedTime.Day, ZonedTime.Weekday, Time.fixed_zoned] at hu hm
  rw [← hUn]
  have hw : (⟨start.ns, start.loc.first⟩ : Time).wall < U.wall :=
    (wall_lt_iff _ _ hUl.symm).2 (by rw [hUn]; exact hlt)
  obtain ⟨t, ht⟩ := nextFrom_total c ⟨start.ns, start.loc.first⟩ U
    ⟨hm.1, hm.2.2.2, hm.2.1, hm.2.2.1⟩ ((Time.wholeMinute_iff U).1 hu) hw
    (((U.ns - start.ns) / 60000000000).toNat + 1) (by
      simp only [Time.wall, hUl] at hw ⊢
      omega)
  refine ⟨t.zoned, ?_⟩
  rw [start.eq_zoned hfix, nextFromIn_fixed]
  simp only [Time.zoned] at ht ⊢
  rw [ht]
  rfl

/-- C4 amended, at work: `0 9 * * *` from 2023-01-01 08:00:00 UTC, with 09:00:00 of that
day as the matching time. -/
theorem nextFrom_terminates_witness :
    ∃ t, nextFromIn ⟨[0], [9], upTo 31, upTo 12, [], bytes "0 9 * * *"⟩
      ((((DateIn 2023 1 1 9 0 0 0 ⟨0, []⟩).ns - (DateIn 2023 1 1 8 0 0 0 ⟨0, []⟩).ns) /
        60000000000).toNat + 1)
      (DateIn 2023 1 1 8 0 0 0 ⟨0, []⟩) = some t :=
  nextFrom_terminates ⟨[0], [9], upTo 31, upTo 12, [], bytes "0 9 * * *"⟩
    (DateIn 2023 1 1 8 0 0 0 ⟨0, []⟩) (DateIn 2023 1 1 9 0 0 0 ⟨0, []⟩) rfl rfl (by decide)
    (by decide) (by decide)

/-- C5 on the code: `0 9 * * mon` is parsed as the claim says, and from Sunday 2023-01-01
08:00:00 UTC `nextFrom` gives 09:00:00 of that same Sunday, not of Monday 2023-01-02:
the day of month passes the day check through the wildcard set `0..31`. -/
theorem nextFrom_sunday_morning :
    NewCrontab 300 (bytes "0 9 * * mon") =
        .ok ⟨[0], [9], upTo 31, upTo 12, [1], bytes "0 9 * * mon"⟩ ∧
      (Date 2023 1 1 8 0 0 0 0).Weekday = 0 ∧
      nextFrom ⟨[0], [9], upTo 31, upTo 12, [1], bytes "0 9 * * mon"⟩ 5
        (Date 2023 1 1 8 0 0 0 0) = some (Date 2023 1 1 9 0 0 0 0) ∧
      (Date 2023 1 1 9 0 0 0 0).Weekday = 0 ∧
      Date 2023 1 1 9 0 0 0 0 ≠ Date 2023 1 2 9 0 0 0 0 := by
  decide

/-! ## Claims about `NewCrontab` -/

/-- C6: `* * * * *` is accepted with the minutes 0..59, the hours 0..23, the days of month
0..31, the months 0..12 and no day of week; and in every accepted expression a field
whose parser meets a `*` with no `/` after it gets that same set. -/
theorem wildcard_full_bound :
    NewCrontab 100 (bytes "* * * * *") =
        .ok ⟨upTo 59, upTo 23, upTo 31, upTo 12, [], bytes "* * * * *"⟩ ∧
    ∀ (fuel : Nat) (s : List Nat) (c c0 : Crontab) (f : cronField) (p : cronParser),
      NewCrontab fuel s = .ok c → fieldStart fuel s f = .ok (c0, p) →
      (p.L 0).t = .Asterisk → (p.L 1).t ≠ .Slash →
      c.get f =
        match f with
        | .minute => upTo 59
        | .hour => upTo 23
        | .day => upTo 31
        | .month => upTo 12
        | .week => [] := by
  refine ⟨by decide, ?_⟩
  intro fuel s c c0 f p h hs h0 h1
  obtain ⟨c1, p1, hk, hg⟩ := NewCrontab_ok_field fuel s c f c0 p h hs
  rw [parseField_eq_parseAny] at hk
  rw [hg, parseAny_star f fuel p p1 c0 c1 h0 h1 hk]
  cases f <;> decide

/-- C6 at work: the hour field of `* * * * *`, met by the parser after the minute field. -/
theorem wildcard_full_bound_witness :
    (⟨upTo 59, upTo 23, upTo 31, upTo 12, [], bytes "* * * * *"⟩ : Crontab).get .hour =
      upTo 23 :=
  wildcard_full_bound.2 100 (bytes "* * * * *")
    ⟨upTo 59, upTo 23, upTo 31, upTo 12, [], bytes "* * * * *"⟩
    ⟨upTo 59, [], [], [], [], bytes "* * * * *"⟩ .hour
    ⟨[], [⟨.EOF, bytes "<EOF>"⟩, ⟨.Asterisk, [42]⟩, ⟨.Asterisk, [42]⟩, ⟨.Asterisk, [42]⟩,
      ⟨.Asterisk, [42]⟩], 5, 1⟩
    (by decide) (by decide) (by decide) (by decide)

/-- C7 on the code: `50-59/100 * * * *` is accepted, and its minutes are -106, -6 and 50:
the counter of `makeRangeOfInt8` is an `int8`, and 50 + 100 wraps to -106. -/
theorem stepped_range_wraps :
    makeRangeOfInt8 300 50 59 100 = some [50, -106, -6] ∧
    NewCrontab 300 (bytes "50-59/100 * * * *") =
      .ok ⟨[-106, -6, 50], upTo 23, upTo 31, upTo 12, [], bytes "50-59/100 * * * *"⟩ := by
  decide

/-- C8 on the code: `0 0,30 * * *` is accepted with the hours 0 and 30: `list` checks its
members against 0-59 for every field. -/
theorem list_checks_minute_bound :
    NewCrontab 300 (bytes "0 0,30 * * *") =
      .ok ⟨[0], [0, 30], upTo 31, upTo 12, [], bytes "0 0,30 * * *"⟩ := by
  decide

/-- C9 on the code: in `1,2,3 25 $ 7 * * *` the hour field is written as the one number
25, after the valid minute field `1,2,3`, and the expression is accepted with the hours 7
and 25.  The `Consume` of `list` that takes the second comma of the minute field meets the
byte `$` in the lexer; its error is dropped and the ring keeps that comma in the slot
after the 25, so `parseHours` meets `25 , 7` and takes the list branch, which checks
against 0-59.  Without such a comma the singleton branch does reject: `0 25 * * *` fails
with the range error of the hour field, bound 0-23, value 25. -/
theorem single_number_read_as_list :
    NewCrontab 100 (bytes "1,2,3 25 $ 7 * * *") =
        .ok ⟨[1, 2, 3], [7, 25], upTo 31, upTo 12, [], bytes "1,2,3 25 $ 7 * * *"⟩ ∧
      fieldStart 100 (bytes "1,2,3 25 $ 7 * * *") .hour =
        .ok (⟨[1, 2, 3], [], [], [], [], bytes "1,2,3 25 $ 7 * * *"⟩,
          ⟨bytes " *", [⟨.Number, bytes "25"⟩, ⟨.Comma, bytes ","⟩, ⟨.Number, bytes "7"⟩,
            ⟨.Asterisk, bytes "*"⟩, ⟨.Asterisk, bytes "*"⟩], 5, 0⟩) ∧
      NewCrontab 100 (bytes "1,2,3 25 7 * * *") = .error (.outOfBound .hour 25) ∧
      NewCrontab 100 (bytes "0 25 * * *") = .error (.outOfBound .hour 25) ∧
      cronField.hour.bound = 23 := by
  decide

/-- C10 as stated fails: in `*/0 20-10 * * *` the hour field is the range `20-10`, whose
begin is above its end, and `NewCrontab` returns no error for any fuel: the expansion of
the step 0 of the minute field does not end, so the parser never comes to the range. -/
theorem descending_range_rejected_counterexample :
    (∃ p, newCronParser (bytes "*/0 20-10 * * *") 5 = .ok p ∧ p.L 3 = ⟨.Number, bytes "20"⟩ ∧
        p.L 4 = ⟨.Hyphen, bytes "-"⟩ ∧ (NextToken p.lexer).1 = .ok ⟨.Number, bytes "10"⟩) ∧
      ¬ ∃ fuel e, NewCrontab fuel (bytes "*/0 20-10 * * *") = .error e := by
  refine ⟨⟨_, rfl, rfl, rfl, rfl⟩, ?_⟩
  rintro ⟨fuel, e, he⟩
  rw [NewCrontab_step_zero_range] at he
  cases he

/-- C10, amended: when the parser comes to a field, the fields before it parsed without
error and their steps expanded, and meets a number, a `-` and a smaller number (with or
without a step after them), `NewCrontab` returns an error and no Crontab. -/
theorem descending_range_rejected (fuel : Nat) (s : List Nat) (f : cronField) (c0 : Crontab)
    (p : cronParser) (hs : fieldStart fuel s f = .ok (c0, p)) (h0 : (p.L 0).t = .Number)
    (h1 : (p.L 1).t = .Hyphen) (h2 : (p.L 2).t = .Number)
    (hv : digitsVal (p.L 2).v < digitsVal (p.L 0).v) :
    ∃ e, NewCrontab fuel s = .error e := by
  have _ := h2
  obtain ⟨e, he⟩ := parseAny_range_error f fuel p c0 (fieldStart_WF fuel s f c0 p hs) h0 h1 hv
  rw [← parseField_eq_parseAny] at he
  exact ⟨e, NewCrontab_error_of_field fuel s f c0 p e hs he⟩

/-- C10 amended, at work: the day-of-month field of `* * 20-10 * *`. -/
theorem descending_range_rejected_witness :
    ∃ e, NewCrontab 100 (bytes "* * 20-10 * *") = .error e :=
  descending_range_rejected 100 (bytes "* * 20-10 * *") .day
    ⟨upTo 59, upTo 23, [], [], [], bytes "* * 20-10 * *"⟩
    ⟨[], [⟨.Asterisk, [42]⟩, ⟨.Asterisk, [42]⟩, ⟨.Number, [50, 48]⟩, ⟨.Hyphen, [45]⟩,
      ⟨.Number, [49, 48]⟩], 5, 2⟩
    (by decide) (by decide) (by decide) (by decide) (by decide)

/-! ## Claims about the parser, the evaluator, the lexer and the scheduled message -/

/-- C11: in every accepted expression each of the five field sets of the Crontab is in
ascending order and is a permutation of the set the parser of that field made; the list
`5,3,1` is parsed to 5, 3, 1 and returned as 1, 3, 5. -/
theorem field_sets_sorted :
    (∀ (fuel : Nat) (s : List Nat) (c : Crontab) (f : cronField), NewCrontab fuel s = .ok c →
      (c.get f).Sorted (· ≤ ·) ∧
        ∃ c0 p c1 p1, fieldStart fuel s f = .ok (c0, p) ∧
          p.parseField f fuel c0 = .ok (c1, p1) ∧ (c.get f).Perm (c1.get f)) ∧
    (∃ p, fieldStart 100 (bytes "5,3,1 * * * *") .hour =
      .ok (⟨[5, 3, 1], [], [], [], [], bytes "5,3,1 * * * *"⟩, p)) ∧
    NewCrontab 100 (bytes "5,3,1 * * * *") =
      .ok ⟨[1, 3, 5], upTo 23, upTo 31, upTo 12, [], bytes "5,3,1 * * * *"⟩ := by
  refine ⟨?_, ⟨_, rfl⟩, by decide⟩
  intro fuel s c f h
  obtain ⟨c0, p, hs⟩ := NewCrontab_ok_fieldStart fuel s c f h
  obtain ⟨c1, p1, hk, hg⟩ := NewCrontab_ok_field fuel s c f c0 p h hs
  rw [hg]
  exact ⟨sortInt8Slice_sorted _, c0, p, c1, p1, hs, hk, sortInt8Slice_perm _⟩

/-- C11 at work: the minute field of `5,3,1 * * * *`. -/
theorem field_sets_sorted_witness :
    ((⟨[1, 3, 5], upTo 23, upTo 31, upTo 12, [], bytes "5,3,1 * * * *"⟩ : Crontab).get
        .minute).Sorted (· ≤ ·) ∧
      ∃ c0 p c1 p1, fieldStart 100 (bytes "5,3,1 * * * *") .minute = .ok (c0, p) ∧
        p.parseField .minute 100 c0 = .ok (c1, p1) ∧
        ((⟨[1, 3, 5], upTo 23, upTo 31, upTo 12, [], bytes "5,3,1 * * * *"⟩ : Crontab).get
          .minute).Perm (c1.get .minute) :=
  field_sets_sorted.1 100 (bytes "5,3,1 * * * *")
    ⟨[1, 3, 5], upTo 23, upTo 31, upTo 12, [], bytes "5,3,1 * * * *"⟩ .minute (by decide)

/-- C12 as stated fails: the input `*/0` ends after three tokens, and `NewCrontab` returns
no error on it for any fuel, because the expansion of the step 0 does not end. -/
theorem too_few_fields_counterexample :
    ¬ ∀ (s : List Nat) (p : cronParser) (i : Nat), newCronParser s 5 = .ok p → i < 5 →
        (p.L i).t = .EOF → ∃ fuel e, NewCrontab fuel s = .error e := by
  intro h
  obtain ⟨fuel, e, he⟩ := h (bytes "*/0")
    ⟨[], [⟨.Asterisk, [42]⟩, ⟨.Slash, [47]⟩, ⟨.Number, [48]⟩, ⟨.EOF, bytes "<EOF>"⟩,
      ⟨.EOF, bytes "<EOF>"⟩], 5, 0⟩ 3 rfl (by decide) rfl
  rw [NewCrontab_star_slash_zero] at he
  cases he

/-- C12, amended: when the EOF token is among the first five tokens of the input,
`NewCrontab` returns a Crontab for no fuel; and when no number that follows a `/` among
those tokens is a multiple of 128, it returns an error, with every fuel of 193 or more.
`5 5`, the empty input and `5 5 5 5` give the error of a field that begins with EOF,
whatever the fuel, and `*/5 5` gives it too.  A step that is a multiple of 128 is 0 or
-128 as an `int8`, and with it `makeRangeOfInt8` finishes for no fuel when
`0 <= min <= max`. -/
theorem too_few_fields :
    (∀ (s : List Nat) (p : cronParser) (i : Nat), newCronParser s 5 = .ok p → i < 5 →
      (p.L i).t = .EOF →
      (∀ fuel c, NewCrontab fuel s ≠ .ok c) ∧
        ((∀ j, j < 4 → (p.L j).t = .Slash → (p.L (j + 1)).t = .Number →
            digitsVal (p.L (j + 1)).v % 128 ≠ 0) →
          ∀ fuel, 193 ≤ fuel → ∃ e, NewCrontab fuel s = .error e)) ∧
    (∀ fuel, NewCrontab fuel (bytes "5 5") = .error (.expectedHead ⟨.EOF, bytes "<EOF>"⟩)) ∧
    (∀ fuel, NewCrontab fuel (bytes "") = .error (.expectedHead ⟨.EOF, bytes "<EOF>"⟩)) ∧
    (∀ fuel, NewCrontab fuel (bytes "5 5 5 5") =
      .error (.expectedHead ⟨.EOF, bytes "<EOF>"⟩)) ∧
    NewCrontab 193 (bytes "*/5 5") = .error (.expectedHead ⟨.EOF, bytes "<EOF>"⟩) ∧
    ∀ (min max step : Int), 0 ≤ min → min ≤ max → max ≤ 127 → step % 128 = 0 →
      ∀ fuel, makeRangeOfInt8 fuel min max step = none := by
  refine ⟨?_, fun _ => rfl, fun _ => rfl, fun _ => rfl, by decide, makeRangeOfInt8_never⟩
  intro s p i h hi he
  have hno := NewCrontab_too_short s p i h hi he
  refine ⟨hno, fun hs fuel hf => ?_⟩
  have hret := NewCrontab_returns s p i h hi he hs fuel hf
  cases hr : NewCrontab fuel s with
  | ok c => exact absurd hr (hno fuel c)
  | error e => exact ⟨e, rfl⟩
  | timeout => exact absurd hr hret

/-- C12 amended, at work: `*/5 5`, whose fifth token is EOF and whose step is 5. -/
theorem too_few_fields_witness :
    (∀ fuel c, NewCrontab fuel (bytes "*/5 5") ≠ .ok c) ∧
      ∀ fuel, 193 ≤ fuel → ∃ e, NewCrontab fuel (bytes "*/5 5") = .error e :=
  ⟨(too_few_fields.1 (bytes "*/5 5")
      ⟨[], [⟨.Asterisk, [42]⟩, ⟨.Slash, [47]⟩, ⟨.Number, [53]⟩, ⟨.Number, [53]⟩,
        ⟨.EOF, bytes "<EOF>"⟩], 5, 0⟩ 4 rfl (by decide) rfl).1,
    (too_few_fields.1 (bytes "*/5 5")
      ⟨[], [⟨.Asterisk, [42]⟩, ⟨.Slash, [47]⟩, ⟨.Number, [53]⟩, ⟨.Number, [53]⟩,
        ⟨.EOF, bytes "<EOF>"⟩], 5, 0⟩ 4 rfl (by decide) rfl).2 (by decide)⟩

/-- C13: when the parser comes to the month field and meets a word, an accepted expression
has as its months the one number of the lower-cased word in the list jan, ..., dec counted
from 1, which lies in 1..12; a word that is not in the list, the weekday names among them,
makes `NewCrontab` return an error.  `JaN` gives the month 1 and `mon` the name error.
Every one of the twelve names, each letter small or capital, is accepted as the month
field of `* * * w *` and gives its number; and wherever the parser meets such a word at the
month field, and the lexer has a token for the ring, `parseMonths` sets the months to that
number. -/
theorem month_names :
    (∀ (fuel : Nat) (s : List Nat) (c0 : Crontab) (p : cronParser),
      fieldStart fuel s .month = .ok (c0, p) → (p.L 0).t = .Word →
      (∀ c, NewCrontab fuel s = .ok c →
        ∃ k, nameNumber monthNames 1 (toLower (p.L 0).v) = some k ∧ 1 ≤ k ∧ k ≤ 12 ∧
          c.Months = [k]) ∧
      (nameNumber monthNames 1 (toLower (p.L 0).v) = none →
        ∃ e, NewCrontab fuel s = .error e)) ∧
    (∀ n ∈ weekNames, nameNumber monthNames 1 (bytes n) = none) ∧
    NewCrontab 100 (bytes "* * * JaN *") =
      .ok ⟨upTo 59, upTo 23, upTo 31, [1], [], bytes "* * * JaN *"⟩ ∧
    NewCrontab 100 (bytes "* * * mon *") = .error (.monthName (bytes "mon")) ∧
    (∀ (n : String) (k : Int),
      (n, k) ∈ [("jan", (1 : Int)), ("feb", 2), ("mar", 3), ("apr", 4), ("may", 5),
        ("jun", 6), ("jul", 7), ("aug", 8), ("sep", 9), ("oct", 10), ("nov", 11),
        ("dec", 12)] →
      ∀ w : List Nat, toLower w = bytes n →
        NewCrontab 100 (bytes "* * * " ++ w ++ bytes " *") =
          .ok ⟨upTo 59, upTo 23, upTo 31, [k], [], bytes "* * * " ++ w ++ bytes " *"⟩) ∧
    ∀ (fuel : Nat) (s : List Nat) (c0 : Crontab) (p : cronParser) (k : Int),
      fieldStart fuel s .month = .ok (c0, p) → (p.L 0).t = .Word →
      nameNumber monthNames 1 (toLower (p.L 0).v) = some k →
      (∀ e, (NextToken p.lexer).1 ≠ .error e) →
      p.parseMonths fuel c0 = .ok ({ c0 with Months := [k] }, p.Consume.2) := by
  refine ⟨?_, by decide, by decide, by decide, ?_, ?_⟩
  · intro fuel s c0 p hs h0
    obtain ⟨w1, w2⟩ := NewCrontab_word .month cronMonthMap rfl fuel s c0 p hs h0
    rw [(lookup_eq_nameNumber _).1] at w1 w2
    refine ⟨fun c h => ?_, w2⟩
    obtain ⟨n, hn, hc⟩ := w1 c h
    obtain ⟨b1, b2⟩ := nameNumber_month_bounds _ _ hn
    refine ⟨n, hn, b1, b2, ?_⟩
    rw [int8_of_small n (by omega) (by omega)] at hc
    exact hc
  · intro n k hn w hw
    simp only [List.mem_cons, Prod.mk.injEq, List.mem_singleton, List.not_mem_nil, or_false]
      at hn
    rcases hn with ⟨rfl, rfl⟩ | ⟨rfl, rfl⟩ | ⟨rfl, rfl⟩ | ⟨rfl, rfl⟩ | ⟨rfl, rfl⟩ |
      ⟨rfl, rfl⟩ | ⟨rfl, rfl⟩ | ⟨rfl, rfl⟩ | ⟨rfl, rfl⟩ | ⟨rfl, rfl⟩ | ⟨rfl, rfl⟩ |
      ⟨rfl, rfl⟩ <;>
    · obtain ⟨x, y, z, rfl, hx, hy, hz⟩ :=
        toLower_three w _ _ _ (by decide) (by decide) (by decide) hw
      rcases hx with rfl | rfl <;> rcases hy with rfl | rfl <;> rcases hz with rfl | rfl <;>
        decide
  · intro fuel s c0 p k hs h0 hk hl
    obtain ⟨b1, b2⟩ := nameNumber_month_bounds _ _ hk
    rw [← (lookup_eq_nameNumber _).1] at hk
    have h := parseAny_word_ok .month fuel p c0 cronMonthMap k (fieldStart_WF fuel s _ c0 p hs)
      rfl h0 hl hk
    rw [← parseField_eq_parseAny, int8_of_small k (by omega) (by omega)] at h
    exact h

/-- C13 at work: the month field of `* * * JaN *`. -/
theorem month_names_witness :
    (∀ c, NewCrontab 100 (bytes "* * * JaN *") = .ok c →
      ∃ k, nameNumber monthNames 1 (toLower [74, 97, 78]) = some k ∧ 1 ≤ k ∧ k ≤ 12 ∧
        c.Months = [k]) ∧
    (nameNumber monthNames 1 (toLower [74, 97, 78]) = none →
      ∃ e, NewCrontab 100 (bytes "* * * JaN *") = .error e) :=
  month_names.1 100 (bytes "* * * JaN *")
    ⟨upTo 59, upTo 23, upTo 31, [], [], bytes "* * * JaN *"⟩
    ⟨[], [⟨.EOF, bytes "<EOF>"⟩, ⟨.EOF, bytes "<EOF>"⟩, ⟨.EOF, bytes "<EOF>"⟩,
      ⟨.Word, [74, 97, 78]⟩, ⟨.Asterisk, [42]⟩], 5, 3⟩
    (by decide) (by decide)

/-- C14: when the parser comes to the day-of-week field and meets a word, an accepted
expression has as its days of week the one number of the lower-cased word in the list
sun, ..., sat counted from 0, which lies in 0..6; a word that is not in the list makes
`NewCrontab` return an error.  `0 9 * * mon` gives the day of week 1.  Every one of the
seven names, each letter small or capital, is accepted as the day-of-week field of
`0 9 * * w` and gives its number; and wherever the parser meets such a word at the
day-of-week field, and the lexer has a token for the ring, `parseDaysOfWeek` sets the days
of week to that number. -/
theorem weekday_names :
    (∀ (fuel : Nat) (s : List Nat) (c0 : Crontab) (p : cronParser),
      fieldStart fuel s .week = .ok (c0, p) → (p.L 0).t = .Word →
      (∀ c, NewCrontab fuel s = .ok c →
        ∃ k, nameNumber weekNames 0 (toLower (p.L 0).v) = some k ∧ 0 ≤ k ∧ k ≤ 6 ∧
          c.DaysOfWeek = [k]) ∧
      (nameNumber weekNames 0 (toLower (p.L 0).v) = none →
        ∃ e, NewCrontab fuel s = .error e)) ∧
    NewCrontab 100 (bytes "0 9 * * mon") =
      .ok ⟨[0], [9], upTo 31, upTo 12, [1], bytes "0 9 * * mon"⟩ ∧
    NewCrontab 100 (bytes "0 9 * * MON") =
      .ok ⟨[0], [9], upTo 31, upTo 12, [1], bytes "0 9 * * MON"⟩ ∧
    NewCrontab 100 (bytes "0 9 * * jan") = .error (.weekName (bytes "jan")) ∧
    (∀ (n : String) (k : Int),
      (n, k) ∈ [("sun", (0 : Int)), ("mon", 1), ("tue", 2), ("wed", 3), ("thu", 4),
        ("fri", 5), ("sat", 6)] →
      ∀ w : List Nat, toLower w = bytes n →
        NewCrontab 100 (bytes "0 9 * * " ++ w) =
          .ok ⟨[0], [9], upTo 31, upTo 12, [k], bytes "0 9 * * " ++ w⟩) ∧
    ∀ (fuel : Nat) (s : List Nat) (c0 : Crontab) (p : cronParser) (k : Int),
      fieldStart fuel s .week = .ok (c0, p) → (p.L 0).t = .Word →
      nameNumber weekNames 0 (toLower (p.L 0).v) = some k →
      (∀ e, (NextToken p.lexer).1 ≠ .error e) →
      p.parseDaysOfWeek fuel c0 = .ok ({ c0 with DaysOfWeek := [k] }, p.Consume.2) := by
  refine ⟨?_, by decide, by decide, by decide, ?_, ?_⟩
  · intro fuel s c0 p hs h0
    obtain ⟨w1, w2⟩ := NewCrontab_word .week cronWeekMap rfl fuel s c0 p hs h0
    rw [(lookup_eq_nameNumber _).2] at w1 w2
    refine ⟨fun c h => ?_, w2⟩
    obtain ⟨n, hn, hc⟩ := w1 c h
    obtain ⟨b1, b2⟩ := nameNumber_week_bounds _ _ hn
    refine ⟨n, hn, b1, b2, ?_⟩
    rw [int8_of_small n (by omega) (by omega)] at hc
    exact hc
  · intro n k hn w hw
    simp only [List.mem_cons, Prod.mk.injEq, List.mem_singleton, List.not_mem_nil, or_false]
      at hn
    rcases hn with ⟨rfl, rfl⟩ | ⟨rfl, rfl⟩ | ⟨rfl, rfl⟩ | ⟨rfl, rfl⟩ | ⟨rfl, rfl⟩ |
      ⟨rfl, rfl⟩ | ⟨rfl, rfl⟩ <;>
    · obtain ⟨x, y, z, rfl, hx, hy, hz⟩ :=
        toLower_three w _ _ _ (by decide) (by decide) (by decide) hw
      rcases hx with rfl | rfl <;> rcases hy with rfl | rfl <;> rcases hz with rfl | rfl <;>
        decide
  · intro fuel s c0 p k hs h0 hk hl
    obtain ⟨b1, b2⟩ := nameNumber_week_bounds _ _ hk
    rw [← (lookup_eq_nameNumber _).2] at hk
    have h := parseAny_word_ok .week fuel p c0 cronWeekMap k (fieldStart_WF fuel s _ c0 p hs)
      rfl h0 hl hk
    rw [← parseField_eq_parseAny, int8_of_small k (by omega) (by omega)] at h
    exact h

/-- C14 at work: the day-of-week field of `0 9 * * mon`. -/
theorem weekday_names_witness :
    (∀ c, NewCrontab 100 (bytes "0 9 * * mon") = .ok c →
      ∃ k, nameNumber weekNames 0 (toLower [109, 111, 110]) = some k ∧ 0 ≤ k ∧ k ≤ 6 ∧
        c.DaysOfWeek = [k]) ∧
    (nameNumber weekNames 0 (toLower [109, 111, 110]) = none →
      ∃ e, NewCrontab 100 (bytes "0 9 * * mon") = .error e) :=
  weekday_names.1 100 (bytes "0 9 * * mon")
    ⟨[0], [9], upTo 31, upTo 12, [], bytes "0 9 * * mon"⟩
    ⟨[], [⟨.EOF, bytes "<EOF>"⟩, ⟨.EOF, bytes "<EOF>"⟩, ⟨.EOF, bytes "<EOF>"⟩,
      ⟨.EOF, bytes "<EOF>"⟩, ⟨.Word, [109, 111, 110]⟩], 5, 4⟩
    (by decide) (by decide)

/-- C15 as stated fails where daylight saving time ends: in New York, for `*/15 * * * *`
and the start 2023-11-05 01:44:00 EDT, the first search gives 01:45:00 EDT (05:45:00 UTC)
and the search from there gives 01:00:00 EDT (05:00:00 UTC): 45 minutes earlier, not 15
minutes later, and the search from 01:00:00 EDT comes to 01:45:00 EDT again. -/
theorem every_fifteen_minutes_counterexample :
    nextFromIn ⟨[0, 15, 30, 45], upTo 23, upTo 31, upTo 12, [], bytes "*/15 * * * *"⟩ 20
        ⟨1699163040000000000, newYork⟩ = some ⟨1699163100000000000, newYork⟩ ∧
      nextFromIn ⟨[0, 15, 30, 45], upTo 23, upTo 31, upTo 12, [], bytes "*/15 * * * *"⟩ 20
        ⟨1699163100000000000, newYork⟩ = some ⟨1699160400000000000, newYork⟩ ∧
      (ZonedTime.mk 1699163100000000000 newYork).Add (Minute * 15) ≠
        ⟨1699160400000000000, newYork⟩ ∧
      (ZonedTime.mk 1699163100000000000 newYork).Add (Minute * -45) =
        ⟨1699160400000000000, newYork⟩ ∧
      (ZonedTime.mk 1699163100000000000 newYork).Hour = 1 ∧
      (ZonedTime.mk 1699163100000000000 newYork).Minute = 45 ∧
      (ZonedTime.mk 1699160400000000000 newYork).Hour = 1 ∧
      (ZonedTime.mk 1699160400000000000 newYork).Minute = 0 := by
  decide

/-- C15, amended: `*/15 * * * *` is parsed to the minutes 0, 15, 30, 45 with every hour,
day and month; in a location without zone transitions (a fixed offset, UTC among them) the
search returns from every start, and searching again from the time it returned gives the
time exactly 15 minutes later, whatever fuel the two searches are run with. -/
theorem every_fifteen_minutes :
    NewCrontab 100 (bytes "*/15 * * * *") =
      .ok ⟨[0, 15, 30, 45], upTo 23, upTo 31, upTo 12, [], bytes "*/15 * * * *"⟩ ∧
    ∀ start : ZonedTime, start.loc.tx = [] →
      (∃ t1, nextFromIn ⟨[0, 15, 30, 45], upTo 23, upTo 31, upTo 12, [], bytes "*/15 * * * *"⟩
          16 start = some t1 ∧
        nextFromIn ⟨[0, 15, 30, 45], upTo 23, upTo 31, upTo 12, [], bytes "*/15 * * * *"⟩
          16 t1 = some (t1.Add (Minute * 15))) ∧
      ∀ (f1 f2 : Nat) (t1 t2 : ZonedTime),
        nextFromIn ⟨[0, 15, 30, 45], upTo 23, upTo 31, upTo 12, [], bytes "*/15 * * * *"⟩
          f1 start = some t1 →
        nextFromIn ⟨[0, 15, 30, 45], upTo 23, upTo 31, upTo 12, [], bytes "*/15 * * * *"⟩
          f2 t1 = some t2 →
        t2 = t1.Add (Minute * 15) ∧ start.ns < t1.ns ∧ t1.ns < t2.ns := by
  refine ⟨by decide, fun start hfix => ?_⟩
  obtain ⟨a, ha, hab⟩ := quarter_first (bytes "*/15 * * * *") ⟨start.ns, start.loc.first⟩
  have hs := start.eq_zoned hfix
  refine ⟨⟨a.zoned, ?_, ?_⟩, ?_⟩
  · rw [hs, nextFromIn_fixed, ha]; rfl
  · rw [nextFromIn_fixed, quarter_next _ a hab]; rfl
  · intro f1 f2 t1 t2 h1 h2
    obtain ⟨b, hb, rfl⟩ := nextFromIn_fixed_some _ f1 start t1 hfix h1
    have e1 : b = a := nextFrom_fuel_unique _ _ _ _ _ _ hb ha
    subst e1
    rw [nextFromIn_fixed] at h2
    have h3 : t2 = (b.Add (Minute * 15)).zoned := by
      cases hn : nextFrom ⟨[0, 15, 30, 45], upTo 23, upTo 31, upTo 12, [],
        bytes "*/15 * * * *"⟩ f2 b with
      | none => rw [hn] at h2; cases h2
      | some t0 =>
        rw [hn] at h2
        simp only [Option.map_some', Option.some.injEq] at h2
        rw [← h2, nextFrom_fuel_unique _ _ _ _ _ _ hn (quarter_next _ b hab)]
    subst h3
    have s1 := (nextFrom_sound _ _ _ _ hb).2.2.1
    have l1 := (nextFrom_sound _ _ _ _ hb).1
    refine ⟨rfl, (wall_lt_iff _ _ l1.symm).1 s1, ?_⟩
    simp only [Time.zoned, Time.Add, Minute]; omega

/-- C15 amended, at work: from 2023-06-15 12:10:03 UTC the search gives 12:15:00, and from
there 12:30:00. -/
theorem every_fifteen_minutes_witness :
    DateIn 2023 6 15 12 30 0 0 ⟨0, []⟩ = (DateIn 2023 6 15 12 15 0 0 ⟨0, []⟩).Add (Minute * 15) ∧
      (DateIn 2023 6 15 12 10 3 0 ⟨0, []⟩).ns < (DateIn 2023 6 15 12 15 0 0 ⟨0, []⟩).ns ∧
      (DateIn 2023 6 15 12 15 0 0 ⟨0, []⟩).ns < (DateIn 2023 6 15 12 30 0 0 ⟨0, []⟩).ns :=
  (every_fifteen_minutes.2 (DateIn 2023 6 15 12 10 3 0 ⟨0, []⟩) rfl).2 6 16
    (DateIn 2023 6 15 12 15 0 0 ⟨0, []⟩) (DateIn 2023 6 15 12 30 0 0 ⟨0, []⟩) (by decide)
    (by decide)

/-- C16 on the code: `0 0 20 * 0` and `0 0 20 * 7` are parsed to Crontabs that differ only
in the day of week, 0 or 7.  From Saturday 2023-01-14 23:00:00 UTC the first gives Sunday
2023-01-15 00:00:00, the second Friday 2023-01-20 00:00:00: `Weekday()` is never 7. -/
theorem weekday_seven_never_matches :
    NewCrontab 100 (bytes "0 0 20 * 0") =
        .ok ⟨[0], [0], [20], upTo 12, [0], bytes "0 0 20 * 0"⟩ ∧
      NewCrontab 100 (bytes "0 0 20 * 7") =
        .ok ⟨[0], [0], [20], upTo 12, [7], bytes "0 0 20 * 7"⟩ ∧
      nextFrom ⟨[0], [0], [20], upTo 12, [0], bytes "0 0 20 * 0"⟩ 10
        (Date 2023 1 14 23 0 0 0 0) = some (Date 2023 1 15 0 0 0 0 0) ∧
      nextFrom ⟨[0], [0], [20], upTo 12, [7], bytes "0 0 20 * 7"⟩ 10
        (Date 2023 1 14 23 0 0 0 0) = some (Date 2023 1 20 0 0 0 0 0) ∧
      (Date 2023 1 15 0 0 0 0 0).Weekday = 0 ∧
      ∀ t : Time, t.Weekday ≠ 7 := by
  refine ⟨by decide, by decide, by decide, by decide, by decide, fun t => ?_⟩
  simp only [Time.Weekday]; omega

/-- C17: with the clock reading `now` as a parameter, `IsDue` is true exactly when
`now >= T`; so a message whose `T` is in the past is due. -/
theorem IsDue_iff {Message Periodicor : Type} (pm : PriorityMessage Message Periodicor)
    (now : Int) :
    (pm.IsDue now = true ↔ now ≥ pm.T) ∧ (pm.T < now → pm.IsDue now = true) := by
  refine ⟨by simp only [PriorityMessage.IsDue, decide_eq_true_eq], fun h => ?_⟩
  simp only [PriorityMessage.IsDue, decide_eq_true_eq]
  exact le_of_lt h

/-- C17 at work: a message due at second 100 is due at second 250. -/
theorem IsDue_iff_witness :
    (⟨(), 100, (none : Option Unit)⟩ : PriorityMessage Unit Unit).IsDue 250 = true :=
  (IsDue_iff (⟨(), 100, none⟩ : PriorityMessage Unit Unit) 250).2 (by decide)

/-- C18 on the code: `1,2 * * 3$4 *` is accepted, although the `NextToken` call of the
second `Consume` of `list`, the one whose error is not looked at, meets the byte `$` and
returns an error. -/
theorem list_drops_lexer_error :
    NextToken (bytes "$4 *") = (.error (.unsupported 36), bytes "4 *") ∧
      (∃ p, newCronParser (bytes "1,2 * * 3$4 *") 5 = .ok p ∧
        p.Consume.2.lexer = bytes "$4 *" ∧
        p.Consume.2.Consume.1 = .error (.unsupported 36)) ∧
      NewCrontab 100 (bytes "1,2 * * 3$4 *") =
        .ok ⟨[1, 2], upTo 23, upTo 31, [3, 4], [], bytes "1,2 * * 3$4 *"⟩ := by
  refine ⟨rfl, ⟨_, rfl, rfl, rfl⟩, by decide⟩

/-- C19: on white space, then a run of digits, then a rest that does not begin with a
digit, `NextToken` returns the Number token whose bytes are the run and leaves the rest
unread, from its first byte on. -/
theorem NextToken_number (ws ds rest : List Nat) (hws : ∀ b ∈ ws, isSpace b = true)
    (hne : ds ≠ []) (hds : ∀ b ∈ ds, isDigit b = true)
    (hrest : ∀ b, rest.head? = some b → isDigit b = false) :
    NextToken (ws ++ ds ++ rest) = (.ok ⟨.Number, ds⟩, rest) := by
  cases ds with
  | nil => exact absurd rfl hne
  | cons d ds =>
    have hd : isDigit d = true := hds d (List.mem_cons_self _ _)
    have hsp := span_run isDigit ds rest (fun y hy => hds y (List.mem_cons_of_mem _ hy)) hrest
    simp only [NextToken, List.append_assoc, List.cons_append,
      skipSpaces_append ws d (ds ++ rest) hws (isDigit_not_space d hd), hd, if_true, hsp]

/-- C19 at work: two spaces, `12`, then `,3`. -/
theorem NextToken_number_witness :
    NextToken ([32, 32] ++ [49, 50] ++ [44, 51]) = (.ok ⟨.Number, [49, 50]⟩, [44, 51]) :=
  NextToken_number [32, 32] [49, 50] [44, 51] (by decide) (by decide) (by decide)
    (by simp [isDigit])

/-- C20: `NextToken` returns an error exactly when a byte follows the white space that is
no digit, no letter and none of `*`, `-`, `/`, `,`, and the error names that byte; in every
other case it returns a token and no error, the EOF token exactly when nothing follows
the white space. -/
theorem NextToken_error_iff (r : List Nat) :
    (∀ e, (NextToken r).1 = .error e ↔
      ∃ b, (r.dropWhile isSpace).head? = some b ∧ isDigit b = false ∧ isLetter b = false ∧
        b ≠ 42 ∧ b ≠ 45 ∧ b ≠ 47 ∧ b ≠ 44 ∧ e = .unsupported b) ∧
    ((∃ e, (NextToken r).1 = .error e) ∨
      ∃ t, (NextToken r).1 = .ok t ∧ (t.t = .EOF ↔ r.dropWhile isSpace = [])) := by
  simp only [NextToken, skipSpaces_eq_dropWhile]
  cases hr : r.dropWhile isSpace with
  | nil => simp
  | cons b r2 =>
    simp only [List.head?_cons, Option.some.injEq]
    by_cases h1 : isDigit b = true
    · simp [h1]
    by_cases h2 : b = 42
    · subst h2; simp [isDigit]
    by_cases h3 : b = 45
    · subst h3; simp [isDigit]
    by_cases h4 : b = 47
    · subst h4; simp [isDigit]
    by_cases h5 : b = 44
    · subst h5; simp [isDigit]
    by_cases h6 : isLetter b = true
    · simp [h1, h2, h3, h4, h5, h6]
    · simp only [h1, h2, h3, h4, h5, h6, if_false, Bool.false_eq_true]
      refine ⟨fun e => ⟨fun h => ⟨b, rfl, by simpa using h1, by simpa using h6, h2, h3, h4, h5,
        ?_⟩, ?_⟩, Or.inl ⟨_, rfl⟩⟩
      · simp only [Except.error.injEq] at h; exact h.symm
      · rintro ⟨b2, hb, _, _, _, _, _, _, he⟩
        subst hb; rw [he]

/-! ## Claims about the step zero, the wildcard day of month and trailing input -/

/-- C21: for every `min <= max` of the `int8` range no fuel lets `makeRangeOfInt8` finish
with the step 0; the parser reads the step 0 of `*/0 * * * *` without an error, and
`NewCrontab` on that expression answers for no fuel: it returns neither a Crontab nor an
error. -/
theorem step_zero_never_finishes :
    (∀ (min max : Int), -128 ≤ min → min ≤ max → max ≤ 127 →
      ∀ fuel, makeRangeOfInt8 fuel min max 0 = none) ∧
    (∃ p p2, newCronParser (bytes "*/0 * * * *") 5 = .ok p ∧ p.stepedAsterisk = .ok (0, p2)) ∧
    ∀ fuel, NewCrontab fuel (bytes "*/0 * * * *") = .timeout := by
  refine ⟨?_, ⟨_, _, rfl, rfl⟩, NewCrontab_step_zero⟩
  intro min max h0 h1 h2 fuel
  exact makeRangeLoop_zero max min h1 h0 (by omega) fuel

/-- C21 at work: the minutes 0 to 59 with the step 0 and a fuel of 1000. -/
theorem step_zero_never_finishes_witness : makeRangeOfInt8 1000 0 59 0 = none :=
  step_zero_never_finishes.1 0 59 (by decide) (by decide) (by decide) 1000

/-- C22: two Crontabs with the same minutes, hours and months and the day-of-month set
0..31 give the same answer of `nextFrom` from every start and with every fuel, whatever
their days of week are. -/
theorem weekday_without_effect (c1 c2 : Crontab) (hm : c1.Minutes = c2.Minutes)
    (hh : c1.Hours = c2.Hours) (hmo : c1.Months = c2.Months)
    (hd1 : c1.DaysOfMonth = upTo 31) (hd2 : c2.DaysOfMonth = upTo 31) (fuel : Nat)
    (start : Time) : nextFrom c1 fuel start = nextFrom c2 fuel start := by
  rw [nextFrom_eq, nextFrom_eq]
  exact nextLoop_wildcard_day c1 c2 hm hh hmo hd1 hd2 fuel _

/-- C22 at work: `0 9 * * mon` and `0 9 * * *` from Sunday 2023-01-01 08:00:00 UTC. -/
theorem weekday_without_effect_witness :
    nextFrom ⟨[0], [9], upTo 31, upTo 12, [1], bytes "0 9 * * mon"⟩ 5
        (Date 2023 1 1 8 0 0 0 0) =
      nextFrom ⟨[0], [9], upTo 31, upTo 12, [], bytes "0 9 * * *"⟩ 5
        (Date 2023 1 1 8 0 0 0 0) :=
  weekday_without_effect ⟨[0], [9], upTo 31, upTo 12, [1], bytes "0 9 * * mon"⟩
    ⟨[0], [9], upTo 31, upTo 12, [], bytes "0 9 * * *"⟩ rfl rfl rfl rfl rfl 5
    (Date 2023 1 1 8 0 0 0 0)

/-- C23: `NewCrontab` does not ask for the end of the input after the day-of-week field:
an accepted expression with a space and a `*` after it is accepted with the same fuel and
has the same five field sets. -/
theorem trailing_input_ignored (fuel : Nat) (s : List Nat) (c : Crontab)
    (h : NewCrontab fuel s = .ok c) :
    ∃ c2, NewCrontab fuel (s ++ bytes " *") = .ok c2 ∧ c2.Minutes = c.Minutes ∧
      c2.Hours = c.Hours ∧ c2.DaysOfMonth = c.DaysOfMonth ∧ c2.Months = c.Months ∧
      c2.DaysOfWeek = c.DaysOfWeek := by
  have e : bytes " *" = [32, 42] := rfl
  rw [e]
  exact ⟨_, NewCrontab_extra fuel s c h, rfl, rfl, rfl, rfl, rfl⟩

/-- C23 at work: `0 9 * * mon`, and `0 9 * * mon *` after it. -/
theorem trailing_input_ignored_witness :
    ∃ c2, NewCrontab 100 (bytes "0 9 * * mon" ++ bytes " *") = .ok c2 ∧
      c2.Minutes = [0] ∧ c2.Hours = [9] ∧ c2.DaysOfMonth = upTo 31 ∧ c2.Months = upTo 12 ∧
      c2.DaysOfWeek = [1] :=
  trailing_input_ignored 100 (bytes "0 9 * * mon")
    ⟨[0], [9], upTo 31, upTo 12, [1], bytes "0 9 * * mon"⟩ (by decide)

end Maatq
